import Mathlib

/-!
Shallow embedding of the tux-graph adjacency-list graph library
(src/adjacency_list/{graph.rs, node.rs, edge.rs} and the submodules
graph/{equality.rs, search.rs, utils.rs, mst/kruskal.rs}), together with
proofs settling the frozen specification claims.

Modelling conventions:
* `NodeID`/`EdgeID` are transparent wrappers around `usize`; they are modelled
  as plain `Nat` indices.  The cleared sentinel `usize::MAX` is `sentinel`
  (64-bit target).
* `ahash::HashSet<EdgeID>` is modelled as a duplicate-free `List Nat`
  (`insert` adds only when absent, `remove` erases).  All uses of the set in
  the source are either membership tests, cardinality, or order-insensitive
  `any`/`all`/`for` scans; the list order stands in for the unspecified hash
  iteration order.
* `VecDeque` free-slot queues are lists: `pop_front` takes the head,
  `push_back` appends.
* `Vec` indexing (which panics when out of range in Rust) is modelled by
  `List.getD` with the cleared/empty value as default; claims are stated with
  the in-range invariants that make the two coincide.
* Rust's stable `sort`/`sort_by_key` is modelled by `List.insertionSort`,
  which is also stable.
-/

namespace TuxGraph

/-- usize::MAX on a 64-bit target: the sentinel id meaning "no node/edge". -/
def sentinel : Nat := 2 ^ 64 - 1

/-- Node<T> (node.rs): optional payload (None = tombstoned) plus the set of
incident edge ids. -/
structure Node (T : Type) where
  value : Option T
  edges : List Nat
deriving Repr, DecidableEq

/-- Edge (edge.rs): weight and the two endpoint node ids. -/
structure Edge where
  weight : Nat
  node_a : Nat
  node_b : Nat
deriving Repr, DecidableEq

/-- Edge::clear() result: weight 0 and both endpoints set to usize::MAX. -/
def Edge.cleared : Edge :=
  { weight := 0, node_a := sentinel, node_b := sentinel }

/-- Edge::new. -/
def Edge.new (weight node_a node_b : Nat) : Edge :=
  { weight := weight, node_a := node_a, node_b := node_b }

/-- Node::new: payload present, empty incident set. -/
def Node.new {T : Type} (v : T) : Node T :=
  { value := some v, edges := [] }

/-- The empty/tombstoned node slot contents (Node::clear leaves this). -/
def Node.emptied {T : Type} : Node T :=
  { value := none, edges := [] }

/-- HashSet::insert on the list model: add the id only when absent. -/
def insertSet (s : List Nat) (x : Nat) : List Nat :=
  if x ∈ s then s else s ++ [x]

/-- In-place mutation of one list element (iter_mut().find + mutate). -/
def listModify {α : Type} (l : List α) (i : Nat) (f : α → α) : List α :=
  match l.get? i with
  | some x => l.set i (f x)
  | none => l

/-- AdjListGraph<T> (graph.rs). -/
structure AdjListGraph (T : Type) where
  nodes : List (Node T)
  edges : List Edge
  empty_edge_slots : List Nat
  empty_node_slots : List Nat
deriving Repr, DecidableEq

/-- GraphError (lib.rs). -/
inductive GraphError where
  | NodesAlreadyConnected (id : Nat)
deriving Repr, DecidableEq

instance {ε α : Type} [DecidableEq ε] [DecidableEq α] : DecidableEq (Except ε α) := fun
  | .error e, .error f =>
      if h : e = f then .isTrue (congrArg Except.error h)
      else .isFalse (fun hh => h (Except.error.inj hh))
  | .error _, .ok _ => .isFalse (fun hh => Except.noConfusion hh)
  | .ok _, .error _ => .isFalse (fun hh => Except.noConfusion hh)
  | .ok a, .ok b =>
      if h : a = b then .isTrue (congrArg Except.ok h)
      else .isFalse (fun hh => h (Except.ok.inj hh))

namespace AdjListGraph

variable {T : Type}

/-- Default::default(): the empty graph. -/
def empty : AdjListGraph T :=
  { nodes := [], edges := [], empty_edge_slots := [], empty_node_slots := [] }

/-- self.nodes[i] (panics out of range in Rust; in-range under the invariants). -/
def nodeAt (g : AdjListGraph T) (i : Nat) : Node T :=
  g.nodes.getD i Node.emptied

/-- self.edges[i]. -/
def edgeAt (g : AdjListGraph T) (i : Nat) : Edge :=
  g.edges.getD i Edge.cleared

/-- add_node: pop a free slot and overwrite it (clear_and_set), else append. -/
def add_node (g : AdjListGraph T) (v : T) : Nat × AdjListGraph T :=
  match g.empty_node_slots with
  | id :: rest =>
      (id, { g with
              nodes := g.nodes.set id (Node.new v),
              empty_node_slots := rest })
  | [] =>
      (g.nodes.length, { g with nodes := g.nodes ++ [Node.new v] })

/-- connect_nodes_with_weight: scan a's incident set for an edge that already
touches b; on conflict return the scanned edge's id, otherwise allocate the
edge (recycling a free slot if available) and insert its id into both
endpoints' incident sets. -/
def connect_nodes_with_weight (g : AdjListGraph T) (a b weight : Nat) :
    Except GraphError (Nat × AdjListGraph T) :=
  match (g.nodeAt a).edges.find?
      (fun eid => (g.edgeAt eid).node_a == b || (g.edgeAt eid).node_b == b) with
  | some eid => .error (.NodesAlreadyConnected eid)
  | none =>
      let alloc : Nat × AdjListGraph T :=
        match g.empty_edge_slots with
        | e :: rest =>
            (e, { g with
                   edges := g.edges.set e (Edge.new weight a b),
                   empty_edge_slots := rest })
        | [] =>
            (g.edges.length, { g with edges := g.edges ++ [Edge.new weight a b] })
      let id := alloc.1
      let g := alloc.2
      let g := { g with nodes := listModify g.nodes a (fun n => { n with edges := insertSet n.edges id }) }
      let g := { g with nodes := listModify g.nodes b (fun n => { n with edges := insertSet n.edges id }) }
      .ok (id, g)

/-- connect_nodes = connect_nodes_with_weight with weight 0. -/
def connect_nodes (g : AdjListGraph T) (a b : Nat) :
    Except GraphError (Nat × AdjListGraph T) :=
  connect_nodes_with_weight g a b 0

/-- connected_nodes: the far endpoint of each incident edge. -/
def connected_nodes (g : AdjListGraph T) (node : Nat) : List Nat :=
  (g.nodeAt node).edges.map (fun eid =>
    if (g.edgeAt eid).node_a == node then (g.edgeAt eid).node_b
    else (g.edgeAt eid).node_a)

/-- is_node_connected_to_node: some incident edge of node_a touches node_b. -/
def is_node_connected_to_node (g : AdjListGraph T) (node_a node_b : Nat) : Bool :=
  (g.nodeAt node_a).edges.any (fun eid =>
    (g.edgeAt eid).node_a == node_b || (g.edgeAt eid).node_b == node_b)

/-- is_node_connected_to_itself. -/
def is_node_connected_to_itself (g : AdjListGraph T) (node : Nat) : Bool :=
  g.is_node_connected_to_node node node

/-- remove_edge: drop the id from both endpoints' sets, clear the edge slot,
push the slot onto the free queue. -/
def remove_edge (g : AdjListGraph T) (edge : Nat) : AdjListGraph T :=
  let e := g.edgeAt edge
  let g := { g with nodes := listModify g.nodes e.node_a (fun n => { n with edges := n.edges.erase edge }) }
  let g := { g with nodes := listModify g.nodes e.node_b (fun n => { n with edges := n.edges.erase edge }) }
  let g := { g with edges := g.edges.set edge Edge.cleared }
  { g with empty_edge_slots := g.empty_edge_slots ++ [edge] }

/-- remove_node: take the incident set, cascade remove_edge over it, enqueue
the slot, clear the node and return its prior payload. -/
def remove_node (g : AdjListGraph T) (node : Nat) : Option T × AdjListGraph T :=
  let node_value := (g.nodeAt node).edges
  let g := { g with nodes := listModify g.nodes node (fun n => { n with edges := [] }) }
  let g := node_value.foldl (fun g e => g.remove_edge e) g
  let g := { g with empty_node_slots := g.empty_node_slots ++ [node] }
  let v := (g.nodeAt node).value
  (v, { g with nodes := listModify g.nodes node (fun _ => Node.emptied) })

/-- number_of_nodes = nodes length minus node free-queue length. -/
def number_of_nodes (g : AdjListGraph T) : Nat :=
  g.nodes.length - g.empty_node_slots.length

/-- number_of_edges = edges length minus edge free-queue length. -/
def number_of_edges (g : AdjListGraph T) : Nat :=
  g.edges.length - g.empty_edge_slots.length

/-- is_empty checks the node sequence only. -/
def is_empty (g : AdjListGraph T) : Bool :=
  g.nodes.isEmpty

/-- has_dead_nodes: the node free queue is non-empty. -/
def has_dead_nodes (g : AdjListGraph T) : Bool :=
  !g.empty_node_slots.isEmpty

/-- has_dead_edges: the edge free queue is non-empty. -/
def has_dead_edges (g : AdjListGraph T) : Bool :=
  !g.empty_edge_slots.isEmpty

end AdjListGraph

/-! ## Equality (node.rs, graph/equality.rs) -/

/-- Node::node_value_eq: false when either payload is absent, else payload
equality. -/
def node_value_eq {T : Type} [DecidableEq T] (a b : Node T) : Bool :=
  match a.value, b.value with
  | some x, some y => decide (x = y)
  | _, _ => false

/-- Node::are_nodes_truly_equal, translated exactly as written.  Two details
are faithful to the source rather than to its comments: the weight guard
compares the (shadowed) other-graph edge's weight with itself, and the two
disjuncts of the endpoint match are the same straight-orientation conjunction
written twice. -/
def are_nodes_truly_equal {T : Type} [DecidableEq T] (n : Node T)
    (self_graph : AdjListGraph T) (other_node : Node T)
    (other_graph : AdjListGraph T) : Bool :=
  if n.edges.length ≠ other_node.edges.length then false
  else
    n.edges.all (fun eid =>
      let sa := self_graph.nodeAt (self_graph.edgeAt eid).node_a
      let sb := self_graph.nodeAt (self_graph.edgeAt eid).node_b
      other_node.edges.any (fun eid2 =>
        let e2 := other_graph.edgeAt eid2
        if e2.weight ≠ e2.weight then false
        else
          let oa := other_graph.nodeAt e2.node_a
          let ob := other_graph.nodeAt e2.node_b
          (node_value_eq sa oa && node_value_eq sb ob)
            || (node_value_eq sa oa && node_value_eq sb ob)))

namespace AdjListGraph

variable {T : Type}

/-- is_node_empty (graph/utils.rs): the slot index is queued as free. -/
def is_node_empty (g : AdjListGraph T) (node_id : Nat) : Bool :=
  g.empty_node_slots.contains node_id

/-- find_equivalent_node_value (graph/search.rs): first node (any slot) whose
payload equals the given node's payload. -/
def find_equivalent_node_value [DecidableEq T] (g : AdjListGraph T)
    (node : Node T) : Option (Node T) :=
  g.nodes.find? (fun b => node_value_eq node b)

/-- PartialEq::eq for AdjListGraph (graph/equality.rs): every alive node of a
must have a value-equivalent node in b that is "truly equal" to it. -/
def graphEq [DecidableEq T] (a b : AdjListGraph T) : Bool :=
  a.nodes.enum.all (fun p =>
    if a.is_node_empty p.1 then true
    else
      match b.find_equivalent_node_value p.2 with
      | none => false
      | some item => are_nodes_truly_equal p.2 a item b)

/-! ## graph/utils.rs -/

/-- get_edges_sorted_by_weight: enumerate ALL edge slots (the source does not
skip the free slots here) and stable-sort by weight. -/
def get_edges_sorted_by_weight (g : AdjListGraph T) : List (Nat × Edge) :=
  g.edges.enum.insertionSort (fun p q => p.2.weight ≤ q.2.weight)

end AdjListGraph

/-- SingleEdgeOrManyEdges (graph/utils.rs). -/
inductive SingleEdgeOrManyEdges where
  | Single (id : Nat) (edge : Edge)
  | Many (edges : List (Nat × Edge))
deriving Repr, DecidableEq

namespace SingleEdgeOrManyEdges

/-- weight(): the Many case reads the first element (unwrap; Many groups are
built non-empty). -/
def weight : SingleEdgeOrManyEdges → Nat
  | .Single _ e => e.weight
  | .Many es => (es.headD (0, Edge.cleared)).2.weight

/-- push_weight: turn a Single into a Many of both, or append to the Many. -/
def push_weight (s : SingleEdgeOrManyEdges) (new_id : Nat) (new_edge : Edge) :
    SingleEdgeOrManyEdges :=
  match s with
  | .Single id e => .Many [(id, e), (new_id, new_edge)]
  | .Many es => .Many (es ++ [(new_id, new_edge)])

end SingleEdgeOrManyEdges

namespace AdjListGraph

variable {T : Type}

/-- group_same_weights_and_sort: bucket the alive edges by weight into the
first bucket with a matching weight (this one DOES skip the free slots), then
stable-sort the buckets by weight. -/
def group_same_weights_and_sort (g : AdjListGraph T) :
    List SingleEdgeOrManyEdges :=
  let target := g.edges.enum.foldl (fun target p =>
    if g.empty_edge_slots.contains p.1 then target
    else
      match target.findIdx? (fun item => item.weight == p.2.weight) with
      | some i => listModify target i (fun item => item.push_weight p.1 p.2)
      | none => target ++ [.Single p.1 p.2]) []
  target.insertionSort (fun x y => x.weight ≤ y.weight)

end AdjListGraph

/-! ## MST engine (graph/mst/kruskal.rs) -/

/-- HashMap<NodeID, NodeID> lookup (first binding; keys are bound once). -/
def lookupId (m : List (Nat × Nat)) (k : Nat) : Option Nat :=
  (m.find? (fun p => p.1 == k)).map (fun p => p.2)

/-- HashMap insert (keys are only inserted when absent in this code path). -/
def insertId (m : List (Nat × Nat)) (k v : Nat) : List (Nat × Nat) :=
  m ++ [(k, v)]

namespace AdjListGraph

variable {T : Type}

/-- would_adding_edge_cause_cycle_inner: depth-first reachability with a
visited marker, threaded through the incident-edge loop.  The extra fuel
argument makes the recursion structural; with fuel > node count it is never
exhausted. -/
def cycle_inner (g : AdjListGraph T) :
    Nat → Nat → Nat → List Bool → Bool × List Bool
  | 0, _, _, visited => (false, visited)
  | fuel + 1, node, target, visited =>
    if visited.getD node false then (false, visited)
    else
      let visited := visited.set node true
      if node == target then (true, visited)
      else
        (g.nodeAt node).edges.foldl (fun st eid =>
          if st.1 then st
          else
            let next := if (g.edgeAt eid).node_a == node
              then (g.edgeAt eid).node_b else (g.edgeAt eid).node_a
            cycle_inner g fuel next target st.2) (false, visited)

/-- would_adding_edge_cause_cycle: reachability of node_b from node_a inside
the current partial output graph. -/
def would_adding_edge_cause_cycle (g : AdjListGraph T) (node_a node_b : Nat) :
    Bool :=
  (cycle_inner g (g.number_of_nodes + 1) node_a node_b
    (List.replicate g.number_of_nodes false)).1

/-- target_node_or_copy: reuse the already-copied node when the mapping knows
it, else clone the payload (value() unwraps; alive under the invariants) into
a fresh node of the target. -/
def target_node_or_copy [Inhabited T] (src target : AdjListGraph T)
    (node : Nat) (map : List (Nat × Nat)) : Nat × Bool × AdjListGraph T :=
  match lookupId map node with
  | some updated => (updated, false, target)
  | none =>
      let v := ((src.nodeAt node).value).get!
      let p := target.add_node v
      (p.1, true, p.2)

end AdjListGraph

/-- EdgeCopyResult (graph/utils.rs). -/
structure EdgeCopyResult where
  new_edge_id : Nat
  node_a : Option (Nat × Nat)
  node_b : Option (Nat × Nat)
deriving Repr, DecidableEq

namespace AdjListGraph

variable {T : Type}

/-- copy_edge_and_referenced_nodes, with the node_if_already_copied closure
specialised (as in kruskal.rs) to a lookup in the id-mapping.  Both endpoint
lookups see the same mapping: the mapping is only extended by the caller
after this returns. -/
def copy_edge_and_referenced_nodes [Inhabited T] (src target : AdjListGraph T)
    (edge : Nat) (map : List (Nat × Nat)) :
    Except GraphError (EdgeCopyResult × AdjListGraph T) :=
  let e := src.edgeAt edge
  let ra := target_node_or_copy src target e.node_a map
  let rb := target_node_or_copy src ra.2.2 e.node_b map
  match (rb.2.2).connect_nodes_with_weight ra.1 rb.1 e.weight with
  | .error err => .error err
  | .ok (eid, target) =>
      .ok ({ new_edge_id := eid,
             node_a := if ra.2.1 then some (e.node_a, ra.1) else none,
             node_b := if rb.2.1 then some (e.node_b, rb.1) else none },
           target)

/-- copy_edge_and_nodes (kruskal.rs): copy, then record the new endpoint
mappings.  The source unwraps the Result; the error branch here is that panic
point and is unreachable in the runs reasoned about. -/
def copy_edge_and_nodes [Inhabited T] (src target : AdjListGraph T)
    (edge : Nat) (map : List (Nat × Nat)) :
    AdjListGraph T × List (Nat × Nat) :=
  match copy_edge_and_referenced_nodes src target edge map with
  | .error _ => (target, map)
  | .ok (res, target) =>
      let map := match res.node_a with
        | some p => insertId map p.1 p.2
        | none => map
      let map := match res.node_b with
        | some p => insertId map p.1 p.2
        | none => map
      (target, map)

/-- maybe_copy_edge (kruskal.rs): bootstrap when the output is empty, copy
unconditionally when an endpoint is unmapped, else admit the edge only when
it closes no cycle. -/
def maybe_copy_edge [Inhabited T] (src mst : AdjListGraph T) (og_index : Nat)
    (map : List (Nat × Nat)) (edge : Edge) :
    AdjListGraph T × List (Nat × Nat) × Bool :=
  if mst.is_empty then
    let r := copy_edge_and_nodes src mst og_index map
    (r.1, r.2, true)
  else if (lookupId map edge.node_a).isNone
      || (lookupId map edge.node_b).isNone then
    let r := copy_edge_and_nodes src mst og_index map
    (r.1, r.2, true)
  else
    let na := (lookupId map edge.node_a).get!
    let nb := (lookupId map edge.node_b).get!
    if mst.would_adding_edge_cause_cycle na nb then (mst, map, false)
    else
      let r := copy_edge_and_nodes src mst og_index map
      (r.1, r.2, true)

/-- kruskal_find_mst: fold maybe_copy_edge over the weight-sorted edge list
(the source sorts the already-sorted list once more; kept here), then return
None exactly when the output graph ended up with zero alive nodes. -/
def kruskal_find_mst [Inhabited T] (g : AdjListGraph T) :
    Option (AdjListGraph T) :=
  let edges := g.get_edges_sorted_by_weight
  let edges := edges.insertionSort (fun p q => p.2.weight ≤ q.2.weight)
  let st := edges.foldl (fun (st : AdjListGraph T × List (Nat × Nat)) p =>
      let r := maybe_copy_edge g st.1 p.1 st.2 p.2
      (r.1, r.2.1)) (AdjListGraph.empty, [])
  if st.1.number_of_nodes == 0 then none else some st.1

end AdjListGraph

/-- Itertools::permutations order: pick each remaining element by ascending
position.  pickEach lists (chosen, rest) pairs in position order. -/
def pickEach {α : Type} : List α → List (α × List α)
  | [] => []
  | x :: xs => (x, xs) :: (pickEach xs).map (fun p => (p.1, x :: p.2))

/-- All permutations, lexicographic by original positions (itertools order).
The fuel is the list length; structural recursion helper. -/
def permsAux {α : Type} : Nat → List α → List (List α)
  | 0, _ => [[]]
  | _, [] => [[]]
  | n + 1, l => (pickEach l).flatMap (fun p => (permsAux n p.2).map (p.1 :: ·))

/-- vec.iter().permutations(vec.len()). -/
def permsLex {α : Type} (l : List α) : List (List α) :=
  permsAux l.length l

namespace AdjListGraph

variable {T : Type}

/-- recursive_find_all_msts: consume singleton-weight groups in order; at the
first tied group, branch over every permutation of it and recurse on the
remaining groups; at a leaf record the tree (skipping value-equal duplicates
when requested, via Vec::contains i.e. any previously recorded tree == it). -/
def recursive_find_all_msts [Inhabited T] [DecidableEq T]
    (src : AdjListGraph T) :
    AdjListGraph T → List (Nat × Nat) → List SingleEdgeOrManyEdges → Bool →
      List (AdjListGraph T) → List (AdjListGraph T)
  | mst, _, [], remove_duplicates, msts =>
      if mst.number_of_nodes ≠ 0 then
        if remove_duplicates then
          if msts.any (fun m => graphEq m mst) then msts else msts ++ [mst]
        else msts ++ [mst]
      else msts
  | mst, map, .Single id e :: rest, rd, msts =>
      let r := maybe_copy_edge src mst id map e
      recursive_find_all_msts src r.1 r.2.1 rest rd msts
  | mst, map, .Many vec :: rest, rd, msts =>
      (permsLex vec).foldl (fun msts perm =>
        let st := perm.foldl (fun (st : AdjListGraph T × List (Nat × Nat)) p =>
            let r := maybe_copy_edge src st.1 p.1 st.2 p.2
            (r.1, r.2.1)) (mst, map)
        recursive_find_all_msts src st.1 st.2 rest rd msts) msts

/-- find_all_msts. -/
def find_all_msts [Inhabited T] [DecidableEq T] (g : AdjListGraph T)
    (remove_duplicates : Bool) : List (AdjListGraph T) :=
  recursive_find_all_msts g AdjListGraph.empty [] g.group_same_weights_and_sort
    remove_duplicates []

end AdjListGraph

/-! ## Compactor (graph.rs, remove_dead_values) -/

/-- binary_search_contains (utils.rs): on the sorted list it is applied to,
Rust's binary search succeeds exactly on members, so it is membership. -/
def binary_search_contains (l : List Nat) (x : Nat) : Bool :=
  l.contains x

/-- empty_*_slots.sort(): Rust's stable ascending sort. -/
def sortIds (l : List Nat) : List Nat :=
  l.insertionSort (fun a b => a ≤ b)

namespace AdjListGraph

variable {T : Type}

/-- replace_node_edges (remove_dead_edges): inside one node's incident set,
swap the old edge id for the new one when present. -/
def replace_node_edges (nodes : List (Node T))
    (node old_index_as_edge_id new_index : Nat) : List (Node T) :=
  listModify nodes node (fun n =>
    if n.edges.contains old_index_as_edge_id then
      { n with edges := insertSet (n.edges.erase old_index_as_edge_id) new_index }
    else n)

/-- One step of the remove_dead_edges walk over (old_index, edge): keep slots
before the first gap as-is, drop dead slots, and re-append alive slots while
rewriting the id inside both endpoints' incident sets. -/
def rde_step (dead : List Nat) (first_index : Nat)
    (acc : List Edge × List (Node T)) (p : Nat × Edge) :
    List Edge × List (Node T) :=
  if p.1 < first_index then (acc.1 ++ [p.2], acc.2)
  else if binary_search_contains dead p.1 then acc
  else
    let new_index := acc.1.length
    let nodes := replace_node_edges acc.2 p.2.node_a p.1 new_index
    let nodes := replace_node_edges nodes p.2.node_b p.1 new_index
    (acc.1 ++ [p.2], nodes)

/-- remove_dead_edges. -/
def remove_dead_edges (g : AdjListGraph T) : AdjListGraph T :=
  let dead := sortIds g.empty_edge_slots
  let first_index := (dead.head?.getD sentinel)
  let acc := g.edges.enum.foldl (rde_step dead first_index) ([], g.nodes)
  { nodes := acc.2, edges := acc.1,
    empty_edge_slots := [], empty_node_slots := g.empty_node_slots }

/-- One step of the remove_dead_nodes walk over (old_index, node): keep slots
before the first gap, drop dead slots, and re-append alive slots while
rewriting, inside each incident edge, whichever endpoint field equals the old
node id. -/
def rdn_step (dead : List Nat) (first_index : Nat)
    (acc : List (Node T) × List Edge) (p : Nat × Node T) :
    List (Node T) × List Edge :=
  if p.1 < first_index then (acc.1 ++ [p.2], acc.2)
  else if binary_search_contains dead p.1 then acc
  else
    let new_index := acc.1.length
    let edges := p.2.edges.foldl (fun edges eid =>
      listModify edges eid (fun e =>
        let e := if e.node_a = p.1 then { e with node_a := new_index } else e
        if e.node_b = p.1 then { e with node_b := new_index } else e)) acc.2
    (acc.1 ++ [p.2], edges)

/-- remove_dead_nodes. -/
def remove_dead_nodes (g : AdjListGraph T) : AdjListGraph T :=
  let dead := sortIds g.empty_node_slots
  let first_index := (dead.head?.getD sentinel)
  let acc := g.nodes.enum.foldl (rdn_step dead first_index) ([], g.edges)
  { nodes := acc.1, edges := acc.2,
    empty_edge_slots := g.empty_edge_slots, empty_node_slots := [] }

/-- remove_dead_values: compact edges first (so node compaction runs against
the compacted edge sequence), each pass guarded by its queue being
non-empty. -/
def remove_dead_values (g : AdjListGraph T) : AdjListGraph T :=
  let g := if g.empty_edge_slots.isEmpty then g else g.remove_dead_edges
  if g.empty_node_slots.isEmpty then g else g.remove_dead_nodes

end AdjListGraph

/-! ## Depth-first search (graph/search.rs)

The search is modelled in Except so the two panic points of the source
(indexing visited out of range, and unwrapping a tombstoned payload) are
explicit error states rather than silent defaults. -/

namespace AdjListGraph

variable {T : Type}

mutual

/-- dfs_inner, the per-node part: visited guard, tombstone guard, mark, push,
test the predicate, then walk the incident edges; on failure pop the node. -/
def dfs_visit (g : AdjListGraph T) (f : T → Bool) :
    Nat → Nat → List Bool → List Nat → Except Unit (Bool × List Bool × List Nat)
  | 0, _, _, _ => .error ()
  | fuel + 1, node, visited, path =>
    match visited.get? node with
    | none => .error ()
    | some true => .ok (false, visited, path)
    | some false =>
      if g.empty_node_slots.contains node then .ok (false, visited, path)
      else
        let visited := visited.set node true
        let path := path ++ [node]
        match (g.nodes.get? node).bind (fun n => n.value) with
        | none => .error ()
        | some v =>
          if f v then .ok (true, visited, path)
          else
            match dfs_edges g f fuel node (g.nodeAt node).edges visited path with
            | .error e => .error e
            | .ok (true, visited, path) => .ok (true, visited, path)
            | .ok (false, visited, path) => .ok (false, visited, path.dropLast)

/-- The incident-edge loop of dfs_inner: recurse into the far endpoint of
each edge, stopping at the first success. -/
def dfs_edges (g : AdjListGraph T) (f : T → Bool) :
    Nat → Nat → List Nat → List Bool → List Nat →
      Except Unit (Bool × List Bool × List Nat)
  | _, _, [], visited, path => .ok (false, visited, path)
  | fuel, node, eid :: rest, visited, path =>
      let next := if (g.edgeAt eid).node_a == node
        then (g.edgeAt eid).node_b else (g.edgeAt eid).node_a
      match dfs_visit g f fuel next visited path with
      | .error e => .error e
      | .ok (true, v, p) => .ok (true, v, p)
      | .ok (false, v, p) => dfs_edges g f fuel node rest v p

end

/-- dfs: start at slot 0 with a visited vector sized to the full slot count.
Fuel nodes.length + 1 bounds the recursion depth (each recursing level marks
a distinct slot). -/
def dfs (g : AdjListGraph T) (f : T → Bool) : Except Unit (Option (List Nat)) :=
  match dfs_visit g f (g.nodes.length + 1) 0
      (List.replicate g.nodes.length false) [] with
  | .error e => .error e
  | .ok (true, _, path) => .ok (some path)
  | .ok (false, _, _) => .ok none

end AdjListGraph

/-! ## Persistence (graph.rs, mod _serde) -/

/-- The persisted form: the two ordered sequences. -/
structure PersistedGraph (T : Type) where
  nodes : List (Node T)
  edges : List Edge
deriving Repr, DecidableEq

/-- Serialize for AdjListGraph: refuse whenever either free queue is
non-empty, else emit the two sequences. -/
def serializeGraph {T : Type} (g : AdjListGraph T) :
    Except String (PersistedGraph T) :=
  if g.has_dead_edges || g.has_dead_nodes then
    .error "Graph has dead nodes or edges. Please call remove_dead_values before serializing."
  else
    .ok { nodes := g.nodes, edges := g.edges }

/-- One key/value entry as seen by AdjGraphVisitor::visit_map. -/
inductive GraphField (T : Type) where
  | nodesField (ns : List (Node T))
  | edgesField (es : List Edge)
  | unknownField (name : String)

/-- AdjGraphVisitor::visit_map: fold the entries, rejecting duplicate and
unknown fields, then require both fields and build the graph with both free
queues empty.  No structural validation of the contents happens. -/
def visit_map {T : Type} :
    List (GraphField T) → Option (List (Node T)) → Option (List Edge) →
      Except String (AdjListGraph T)
  | [], nodesAcc, edgesAcc =>
      match nodesAcc, edgesAcc with
      | some ns, some es =>
          .ok { nodes := ns, edges := es,
                empty_edge_slots := [], empty_node_slots := [] }
      | none, _ => .error "missing field nodes"
      | _, none => .error "missing field edges"
  | .nodesField ns :: rest, nodesAcc, edgesAcc =>
      if nodesAcc.isSome then .error "duplicate field nodes"
      else visit_map rest (some ns) edgesAcc
  | .edgesField es :: rest, nodesAcc, edgesAcc =>
      if edgesAcc.isSome then .error "duplicate field edges"
      else visit_map rest nodesAcc (some es)
  | .unknownField _ :: _, _, _ => .error "unknown field"

/-- Deserialize for AdjListGraph, over an entry list. -/
def deserializeGraph {T : Type} (entries : List (GraphField T)) :
    Except String (AdjListGraph T) :=
  visit_map entries none none

/-! ## Concrete graphs used in the claim theorems

Each is built through the public mutation API, mirroring how the repository's
own tests build graphs. -/

open AdjListGraph

/-- add_node, keeping only the graph. -/
def addC (g : AdjListGraph Char) (c : Char) : AdjListGraph Char :=
  (g.add_node c).2

/-- connect_nodes_with_weight, keeping only the graph (a failed connect does
not mutate). -/
def connectC (g : AdjListGraph Char) (a b w : Nat) : AdjListGraph Char :=
  match g.connect_nodes_with_weight a b w with
  | .ok p => p.2
  | .error _ => g

/-- remove_node, keeping only the graph. -/
def removeC (g : AdjListGraph Char) (n : Nat) : AdjListGraph Char :=
  (g.remove_node n).2

/-- Nodes A, B and one edge A-B of weight 1. -/
def gABw1 : AdjListGraph Char := connectC (addC (addC .empty 'A') 'B') 0 1 1

/-- Nodes A, B and one edge A-B of weight 2. -/
def gABw2 : AdjListGraph Char := connectC (addC (addC .empty 'A') 'B') 0 1 2

/-- Nodes A, B and one edge of weight 1 stored with endpoints swapped:
connect was called as (b, a). -/
def gBAw1 : AdjListGraph Char := connectC (addC (addC .empty 'A') 'B') 1 0 1

/-- A single alive node and no edges. -/
def gSingleA : AdjListGraph Char := addC .empty 'A'

/-- Nodes A, B whose single connecting edge was removed: one tombstoned edge
slot. -/
def gDeadEdge : AdjListGraph Char :=
  (connectC (addC (addC .empty 'A') 'B') 0 1 5).remove_edge 0

/-- The class-assignment-9 graph of mst/kruskal.rs: 6 nodes a..f, edges
c-b w1, a-b w2, a-d w1, d-c w2, c-e w3, e-f w3, f-c w3. -/
def gClassAssignment : AdjListGraph Char :=
  let g := addC (addC (addC (addC (addC (addC .empty 'A') 'B') 'C') 'D') 'E') 'F'
  let g := connectC g 2 1 1
  let g := connectC g 0 1 2
  let g := connectC g 0 3 1
  let g := connectC g 3 2 2
  let g := connectC g 2 4 3
  let g := connectC g 4 5 3
  let g := connectC g 5 2 3
  g

/-- Nodes A, B, A, C with one edge between the first two, then node C
removed: a graph with a tombstoned node slot whose alive payloads are NOT
pairwise distinct. -/
def gDupPayload : AdjListGraph Char :=
  removeC (addC (addC (connectC (addC (addC .empty 'A') 'B') 0 1 0) 'A') 'C') 3

/-- The cleanup_tests graph: triangle A,B,C with node B removed (tombstoned
node and edge slots, distinct alive payloads). -/
def gCleanup : AdjListGraph Char :=
  removeC (connectC (connectC (connectC
    (addC (addC (addC .empty 'A') 'B') 'C') 0 1 0) 1 2 0) 2 0 0) 1

/-- Nodes A, B with node at slot 0 removed: slot 0 is tombstoned. -/
def gDeadRoot : AdjListGraph Char := removeC (addC (addC .empty 'A') 'B') 0

/-! ## Claim C1 -/

/-- C1: the claim states that graph equality requires matched incident edges
to have equal weight, with endpoint values matched in either orientation
(straight or swapped).  The code does neither: the weight guard in
are_nodes_truly_equal compares the shadowed inner edge's weight with itself
(always equal), and the two orientation disjuncts are the same straight
conjunction written twice.  Evaluated at the failing inputs: two graphs that
differ only in the weight of their single edge compare equal (the claim says
unequal), while two value-identical graphs whose single edge is stored with
swapped endpoints compare unequal (the claim says equal). -/
theorem c1_weight_and_orientation_ignored :
    graphEq gABw1 gABw2 = true ∧ graphEq gABw2 gABw1 = true ∧
      gABw1.edgeAt 0 ≠ gABw2.edgeAt 0 ∧
      graphEq gABw1 gBAw1 = false := by
  decide

/-! ## Claim C4 -/

/-- C4: on the 6-node tie-heavy class-assignment graph, find_all_msts true
returns exactly 6 spanning trees, pairwise distinct under the implemented
section-4.6 equality relation (in both comparison orders). -/
theorem c4_class_assignment_six_msts :
    (gClassAssignment.find_all_msts true).length = 6 ∧
      List.Pairwise (fun a b => graphEq a b = false ∧ graphEq b a = false)
        (gClassAssignment.find_all_msts true) := by
  decide

/-! ## Claim C6 -/

/-- C6: the claim states that the edge list processed by kruskal_find_mst
contains exactly the alive edges (tombstoned edges never processed).  But
get_edges_sorted_by_weight enumerates every slot without consulting the free
queue: on a graph whose only edge slot is tombstoned, the processed list
still contains that cleared slot (weight 0, sentinel endpoints) even though
the graph has zero alive edges. -/
theorem c6_sorted_edges_include_tombstones :
    gDeadEdge.get_edges_sorted_by_weight = [(0, Edge.cleared)] ∧
      gDeadEdge.number_of_edges = 0 ∧
      gDeadEdge.empty_edge_slots = [0] := by
  decide

/-! ## Claim C3, counterexample part -/

/-- C3 counterexample: the claim's error condition is "some live edge
already links a and b".  With a == b == 0 in a graph whose node 0 has one
incident edge to node 1 and no self-loop, no live edge links 0 and 0, yet
connect_nodes_with_weight 0 0 7 fails with AlreadyConnected of the 0-1
edge's id. -/
theorem c3_self_connect_counterexample :
    gABw1.connect_nodes_with_weight 0 0 7 =
        .error (.NodesAlreadyConnected 0) ∧
      gABw1.edges.all
        (fun e => !(decide (e.node_a = 0) && decide (e.node_b = 0))) = true := by
  decide

/-! ## Claim C5, counterexample part -/

/-- C5 counterexample: the claim states kruskal_find_mst returns None iff
the source has zero alive nodes.  A graph with one alive node and no edges
returns None. -/
theorem c5_single_node_counterexample :
    kruskal_find_mst gSingleA = none ∧ gSingleA.number_of_nodes = 1 := by
  decide

/-! ## Claim C8 -/

/-- C8: with at least one node slot and slot 0 tombstoned (queued as free),
dfs returns None immediately: the tombstone guard fires before the payload
of slot 0 is ever dereferenced, so no panic state is reached. -/
theorem c8_dfs_dead_root {T : Type} (g : AdjListGraph T) (f : T → Bool)
    (h0 : 0 < g.nodes.length) (h : 0 ∈ g.empty_node_slots) :
    g.dfs f = .ok none := by
  obtain ⟨n, hn⟩ : ∃ n, g.nodes.length = n + 1 :=
    ⟨g.nodes.length - 1, by omega⟩
  simp only [AdjListGraph.dfs, AdjListGraph.dfs_visit, hn]
  rw [List.get?_eq_getElem?, List.getElem?_replicate]
  simp [List.elem_eq_true_of_mem h, hn, h]

/-- C8 witness: the two-node graph whose slot 0 was removed. -/
theorem c8_dfs_dead_root_witness :
    0 < gDeadRoot.nodes.length ∧ 0 ∈ gDeadRoot.empty_node_slots ∧
      gDeadRoot.dfs (fun c => decide (c = 'B')) = .ok none :=
  ⟨by decide, by decide,
    c8_dfs_dead_root gDeadRoot (fun c => decide (c = 'B')) (by decide) (by decide)⟩

/-! ## Claim C9 -/

/-- C9: serialization fails exactly when a tombstoned slot exists (either
free queue non-empty); when it succeeds it emits exactly the two sequences;
and loading a persisted form with both fields reconstructs exactly the
stored sequences with both free queues empty, for every pair of sequences —
no structural validation is applied to them. -/
theorem c9_persistence_roundtrip {T : Type} :
    (∀ g : AdjListGraph T,
      (∃ msg, serializeGraph g = .error msg) ↔
        (g.empty_edge_slots ≠ [] ∨ g.empty_node_slots ≠ [])) ∧
    (∀ g : AdjListGraph T,
      serializeGraph g = .ok { nodes := g.nodes, edges := g.edges } ↔
        (g.empty_edge_slots = [] ∧ g.empty_node_slots = [])) ∧
    (∀ (ns : List (Node T)) (es : List Edge),
      deserializeGraph [.nodesField ns, .edgesField es] =
        .ok { nodes := ns, edges := es,
              empty_edge_slots := [], empty_node_slots := [] }) := by
  refine ⟨fun g => ?_, fun g => ?_, fun ns es => rfl⟩ <;>
    · cases he : g.empty_edge_slots <;> cases hnn : g.empty_node_slots <;>
        simp [serializeGraph, AdjListGraph.has_dead_edges,
          AdjListGraph.has_dead_nodes, he, hnn]

/-! ## Claim C10 -/

/-- C10: for a live node a whose incident set satisfies the incidence
invariant (every recorded edge has a as one endpoint),
is_node_connected_to_itself a — defined as is_node_connected_to_node a a —
returns true exactly when a's incident set is non-empty: any incident edge,
not only a self-loop, satisfies the endpoint test. -/
theorem c10_self_connected_iff_incident {T : Type} (g : AdjListGraph T)
    (a : Nat) (halive : ((g.nodeAt a).value).isSome = true)
    (hinc : ∀ e ∈ (g.nodeAt a).edges,
      (g.edgeAt e).node_a = a ∨ (g.edgeAt e).node_b = a) :
    g.is_node_connected_to_itself a = !(g.nodeAt a).edges.isEmpty := by
  cases hl : (g.nodeAt a).edges with
  | nil =>
      simp [AdjListGraph.is_node_connected_to_itself,
        AdjListGraph.is_node_connected_to_node, hl]
  | cons e es =>
      have he := hinc e (by rw [hl]; exact List.mem_cons_self e es)
      simp only [AdjListGraph.is_node_connected_to_itself,
        AdjListGraph.is_node_connected_to_node, hl, List.any_cons,
        List.isEmpty_cons, Bool.not_false]
      rcases he with h | h <;> simp [h]

/-- C10 witness: node 0 of the A-B graph has one incident (non-loop) edge,
and is_node_connected_to_itself 0 is true. -/
theorem c10_self_connected_witness :
    ((gABw1.nodeAt 0).value).isSome = true ∧
      gABw1.is_node_connected_to_itself 0 = !(gABw1.nodeAt 0).edges.isEmpty ∧
      gABw1.is_node_connected_to_itself 0 = true :=
  ⟨by decide,
    c10_self_connected_iff_incident gABw1 0 (by decide) (by decide),
    by decide⟩

/-! ## Structural invariants (spec section 3) and basic facts -/

theorem mem_insertSet {s : List Nat} {x y : Nat} :
    x ∈ insertSet s y ↔ x = y ∨ x ∈ s := by
  unfold insertSet
  split
  · constructor
    · exact fun h => Or.inr h
    · rintro (rfl | h) <;> assumption
  · simp [or_comm]

theorem insertSet_nodup {s : List Nat} {y : Nat} (h : s.Nodup) :
    (insertSet s y).Nodup := by
  unfold insertSet
  split
  · exact h
  · rename_i hy
    simp [List.nodup_append, h, hy]

theorem length_insertSet_of_not_mem {s : List Nat} {y : Nat} (h : y ∉ s) :
    (insertSet s y).length = s.length + 1 := by
  simp [insertSet, h]

theorem length_insertSet_of_mem {s : List Nat} {y : Nat} (h : y ∈ s) :
    (insertSet s y).length = s.length := by
  simp [insertSet, h]

theorem listModify_length {α : Type} (l : List α) (i : Nat) (f : α → α) :
    (listModify l i f).length = l.length := by
  unfold listModify
  split <;> simp

theorem listModify_of_ge {α : Type} {l : List α} {i : Nat} (f : α → α)
    (h : l.length ≤ i) : listModify l i f = l := by
  unfold listModify
  split
  · rename_i x hx
    rw [List.get?_eq_getElem?] at hx
    rw [List.getElem?_eq_none h] at hx
    cases hx
  · rfl

theorem listModify_getD_self {α : Type} {l : List α} {i : Nat} (f : α → α)
    (d : α) (h : i < l.length) :
    (listModify l i f).getD i d = f (l.getD i d) := by
  unfold listModify
  rw [List.get?_eq_getElem?, List.getElem?_eq_getElem h]
  simp [List.getD_eq_getElem?_getD, List.getElem?_set_self', h,
    List.getElem?_eq_getElem]

theorem listModify_getD_ne {α : Type} {l : List α} {i j : Nat} (f : α → α)
    (d : α) (h : j ≠ i) : (listModify l i f).getD j d = l.getD j d := by
  unfold listModify
  split
  · simp [List.getD_eq_getElem?_getD, List.getElem?_set_ne (Ne.symm h)]
  · rfl

theorem getD_set_self {α : Type} {l : List α} {i : Nat} (x d : α)
    (h : i < l.length) : (l.set i x).getD i d = x := by
  simp [List.getD_eq_getElem?_getD, List.getElem?_set_self', h]

theorem getD_set_ne {α : Type} {l : List α} {i j : Nat} (x d : α)
    (h : j ≠ i) : (l.set i x).getD j d = l.getD j d := by
  simp [List.getD_eq_getElem?_getD, List.getElem?_set_ne (Ne.symm h)]

theorem getD_append_lt {α : Type} {l l' : List α} {i : Nat} (d : α)
    (h : i < l.length) : (l ++ l').getD i d = l.getD i d := by
  simp [List.getD_eq_getElem?_getD, List.getElem?_append, h]

theorem getD_append_len {α : Type} {l : List α} (x d : α) :
    (l ++ [x]).getD l.length d = x := by
  simp [List.getD_eq_getElem?_getD]

theorem getD_of_ge {α : Type} {l : List α} {i : Nat} (d : α)
    (h : l.length ≤ i) : l.getD i d = d := by
  simp [List.getD_eq_getElem?_getD, List.getElem?_eq_none h]

namespace AdjListGraph

variable {T : Type}

/-- A node slot is alive: in range and not queued as free. -/
def aliveN (g : AdjListGraph T) (i : Nat) : Prop :=
  i < g.nodes.length ∧ i ∉ g.empty_node_slots

/-- An edge slot is alive: in range and not queued as free. -/
def aliveE (g : AdjListGraph T) (i : Nat) : Prop :=
  i < g.edges.length ∧ i ∉ g.empty_edge_slots

/-- The structural invariants of spec section 3, as maintained by the graph
API: the free queues are duplicate-free and hold exactly the cleared
in-range slots; alive nodes carry a payload; alive edges point at alive
nodes that list them back; incident sets are duplicate-free and list only
alive edges having the node as an endpoint; and the sequences stay below
the sentinel id (a Vec can never reach usize::MAX elements). -/
structure WF (g : AdjListGraph T) : Prop where
  nq_nodup : g.empty_node_slots.Nodup
  eq_nodup : g.empty_edge_slots.Nodup
  nq_dead : ∀ i ∈ g.empty_node_slots,
    i < g.nodes.length ∧ g.nodeAt i = Node.emptied
  eq_dead : ∀ i ∈ g.empty_edge_slots,
    i < g.edges.length ∧ g.edgeAt i = Edge.cleared
  node_alive : ∀ i, i < g.nodes.length → i ∉ g.empty_node_slots →
    ((g.nodeAt i).value).isSome = true
  edge_alive : ∀ i, i < g.edges.length → i ∉ g.empty_edge_slots →
    (g.aliveN (g.edgeAt i).node_a ∧ i ∈ (g.nodeAt (g.edgeAt i).node_a).edges) ∧
    (g.aliveN (g.edgeAt i).node_b ∧ i ∈ (g.nodeAt (g.edgeAt i).node_b).edges)
  node_edges : ∀ i, i < g.nodes.length → ∀ e ∈ (g.nodeAt i).edges,
    e < g.edges.length ∧ e ∉ g.empty_edge_slots ∧
      ((g.edgeAt e).node_a = i ∨ (g.edgeAt e).node_b = i)
  sets_nodup : ∀ i, i < g.nodes.length → ((g.nodeAt i).edges).Nodup
  nodes_le : g.nodes.length ≤ sentinel
  edges_le : g.edges.length ≤ sentinel

theorem wf_empty : WF (empty : AdjListGraph T) := by
  constructor <;> simp [empty, nodeAt, edgeAt, sentinel]

/-- Alive nodes are exactly the in-range slots carrying a payload. -/
theorem WF.aliveN_iff {g : AdjListGraph T} (h : WF g) (i : Nat) :
    g.aliveN i ↔ i < g.nodes.length ∧ ((g.nodeAt i).value).isSome = true := by
  constructor
  · rintro ⟨h1, h2⟩
    exact ⟨h1, h.node_alive i h1 h2⟩
  · rintro ⟨h1, h2⟩
    refine ⟨h1, fun hm => ?_⟩
    have := (h.nq_dead i hm).2
    rw [this] at h2
    simp [Node.emptied] at h2

/-- Alive edges are exactly the in-range slots that are not cleared. -/
theorem WF.aliveE_iff {g : AdjListGraph T} (h : WF g) (i : Nat) :
    g.aliveE i ↔ i < g.edges.length ∧ g.edgeAt i ≠ Edge.cleared := by
  constructor
  · rintro ⟨h1, h2⟩
    refine ⟨h1, fun hc => ?_⟩
    have ha := ((h.edge_alive i h1 h2).1).1.1
    rw [hc] at ha
    have := h.nodes_le
    simp only [Edge.cleared] at ha
    omega
  · rintro ⟨h1, h2⟩
    refine ⟨h1, fun hm => ?_⟩
    exact h2 (h.eq_dead i hm).2

/-! ### Characterizing connect_nodes_with_weight -/

/-- The conflict scan predicate of connect_nodes_with_weight. -/
def conflictPred (g : AdjListGraph T) (b : Nat) : Nat → Bool := fun eid =>
  (g.edgeAt eid).node_a == b || (g.edgeAt eid).node_b == b

/-- The edge id a successful connect allocates. -/
def allocEdgeId (g : AdjListGraph T) : Nat :=
  match g.empty_edge_slots with
  | e :: _ => e
  | [] => g.edges.length

/-- The graph a successful connect produces. -/
def connectOkGraph (g : AdjListGraph T) (a b w : Nat) : AdjListGraph T :=
  let id := g.allocEdgeId
  let g1 : AdjListGraph T :=
    match g.empty_edge_slots with
    | _ :: rest =>
        { g with edges := g.edges.set id (Edge.new w a b),
                 empty_edge_slots := rest }
    | [] => { g with edges := g.edges ++ [Edge.new w a b] }
  let g2 := { g1 with
    nodes := listModify g1.nodes a (fun n => { n with edges := insertSet n.edges id }) }
  { g2 with
    nodes := listModify g2.nodes b (fun n => { n with edges := insertSet n.edges id }) }

theorem connect_error_iff {g : AdjListGraph T} {a b w : Nat} {err : GraphError} :
    g.connect_nodes_with_weight a b w = .error err ↔
      ∃ eid, (g.nodeAt a).edges.find? (g.conflictPred b) = some eid ∧
        err = .NodesAlreadyConnected eid := by
  unfold connect_nodes_with_weight
  cases hf : (g.nodeAt a).edges.find? (g.conflictPred b) with
  | none =>
      rw [show ((g.nodeAt a).edges.find? fun eid =>
        (g.edgeAt eid).node_a == b || (g.edgeAt eid).node_b == b) = none from hf]
      simp
  | some e =>
      rw [show ((g.nodeAt a).edges.find? fun eid =>
        (g.edgeAt eid).node_a == b || (g.edgeAt eid).node_b == b) = some e from hf]
      constructor
      · rintro h
        exact ⟨e, rfl, (Except.error.inj h).symm⟩
      · rintro ⟨eid, he, rfl⟩
        cases he
        rfl

theorem connect_ok_iff {g : AdjListGraph T} {a b w id : Nat}
    {g' : AdjListGraph T} :
    g.connect_nodes_with_weight a b w = .ok (id, g') ↔
      ((g.nodeAt a).edges.find? (g.conflictPred b) = none ∧
        id = g.allocEdgeId ∧ g' = g.connectOkGraph a b w) := by
  unfold connect_nodes_with_weight
  cases hf : (g.nodeAt a).edges.find? (g.conflictPred b) with
  | some e =>
      rw [show ((g.nodeAt a).edges.find? fun eid =>
        (g.edgeAt eid).node_a == b || (g.edgeAt eid).node_b == b) = some e from hf]
      simp
  | none =>
      rw [show ((g.nodeAt a).edges.find? fun eid =>
        (g.edgeAt eid).node_a == b || (g.edgeAt eid).node_b == b) = none from hf]
      cases hqs : g.empty_edge_slots with
      | nil =>
          simp only [connectOkGraph, allocEdgeId, hqs]
          constructor
          · intro h
            obtain ⟨h1, h2⟩ := Prod.mk.inj (Except.ok.inj h)
            exact ⟨by trivial, h1.symm, h2.symm⟩
          · rintro ⟨-, rfl, rfl⟩
            rfl
      | cons e0 rest =>
          simp only [connectOkGraph, allocEdgeId, hqs]
          constructor
          · intro h
            obtain ⟨h1, h2⟩ := Prod.mk.inj (Except.ok.inj h)
            exact ⟨by trivial, h1.symm, h2.symm⟩
          · rintro ⟨-, rfl, rfl⟩
            rfl

theorem connectOk_nodes (g : AdjListGraph T) (a b w : Nat) :
    (g.connectOkGraph a b w).nodes =
      listModify (listModify g.nodes a
          (fun n => { n with edges := insertSet n.edges g.allocEdgeId })) b
        (fun n => { n with edges := insertSet n.edges g.allocEdgeId }) := by
  unfold connectOkGraph
  cases g.empty_edge_slots <;> rfl

theorem connectOk_queueE (g : AdjListGraph T) (a b w : Nat) :
    (g.connectOkGraph a b w).empty_edge_slots = g.empty_edge_slots.tail := by
  unfold connectOkGraph
  cases g.empty_edge_slots <;> rfl

theorem connectOk_queueN (g : AdjListGraph T) (a b w : Nat) :
    (g.connectOkGraph a b w).empty_node_slots = g.empty_node_slots := by
  unfold connectOkGraph
  cases g.empty_edge_slots <;> rfl

theorem connectOk_nodes_length (g : AdjListGraph T) (a b w : Nat) :
    (g.connectOkGraph a b w).nodes.length = g.nodes.length := by
  rw [connectOk_nodes]
  simp [listModify_length]

theorem connectOk_edges_nil (g : AdjListGraph T) (a b w : Nat)
    (h : g.empty_edge_slots = []) :
    (g.connectOkGraph a b w).edges = g.edges ++ [Edge.new w a b] ∧
      g.allocEdgeId = g.edges.length := by
  unfold connectOkGraph allocEdgeId
  rw [h]
  exact ⟨rfl, rfl⟩

theorem connectOk_edges_cons (g : AdjListGraph T) (a b w e0 : Nat)
    (rest : List Nat) (h : g.empty_edge_slots = e0 :: rest) :
    (g.connectOkGraph a b w).edges = g.edges.set e0 (Edge.new w a b) ∧
      g.allocEdgeId = e0 := by
  unfold connectOkGraph allocEdgeId
  rw [h]
  exact ⟨rfl, rfl⟩

theorem connectOk_edges_length (g : AdjListGraph T) (a b w : Nat) :
    (g.connectOkGraph a b w).edges.length =
      (if g.empty_edge_slots = [] then g.edges.length + 1 else g.edges.length) := by
  cases hqs : g.empty_edge_slots with
  | nil => rw [(connectOk_edges_nil g a b w hqs).1]; simp
  | cons e0 rest => rw [(connectOk_edges_cons g a b w e0 rest hqs).1]; simp [hqs]

theorem connectOk_alloc_lt (g : AdjListGraph T) (a b w : Nat)
    (hq : ∀ i ∈ g.empty_edge_slots, i < g.edges.length) :
    g.allocEdgeId < (g.connectOkGraph a b w).edges.length := by
  cases hqs : g.empty_edge_slots with
  | nil =>
      obtain ⟨he, hi⟩ := connectOk_edges_nil g a b w hqs
      rw [he, hi]
      simp
  | cons e0 rest =>
      obtain ⟨he, hi⟩ := connectOk_edges_cons g a b w e0 rest hqs
      rw [he, hi]
      simpa using hq e0 (by rw [hqs]; exact List.mem_cons_self _ _)

theorem connectOk_edgeAt_alloc (g : AdjListGraph T) (a b w : Nat)
    (hq : ∀ i ∈ g.empty_edge_slots, i < g.edges.length) :
    (g.connectOkGraph a b w).edgeAt g.allocEdgeId = Edge.new w a b := by
  cases hqs : g.empty_edge_slots with
  | nil =>
      obtain ⟨he, hi⟩ := connectOk_edges_nil g a b w hqs
      rw [edgeAt, he, hi]
      exact getD_append_len _ _
  | cons e0 rest =>
      obtain ⟨he, hi⟩ := connectOk_edges_cons g a b w e0 rest hqs
      rw [edgeAt, he, hi]
      exact getD_set_self _ _ (hq e0 (by rw [hqs]; exact List.mem_cons_self _ _))

theorem connectOk_edgeAt_ne (g : AdjListGraph T) (a b w e : Nat)
    (he : e ≠ g.allocEdgeId) :
    (g.connectOkGraph a b w).edgeAt e = g.edgeAt e := by
  cases hqs : g.empty_edge_slots with
  | nil =>
      obtain ⟨hed, hi⟩ := connectOk_edges_nil g a b w hqs
      rw [edgeAt, hed]
      rw [hi] at he
      rcases Nat.lt_or_ge e g.edges.length with hlt | hge
      · exact getD_append_lt _ hlt
      · rw [getD_of_ge _ (by simp; omega), edgeAt, getD_of_ge _ (by omega)]
  | cons e0 rest =>
      obtain ⟨hed, hi⟩ := connectOk_edges_cons g a b w e0 rest hqs
      rw [edgeAt, hed]
      rw [hi] at he
      exact getD_set_ne _ _ he

theorem connectOk_nodeAt_fst (g : AdjListGraph T) (a b w : Nat)
    (ha : a < g.nodes.length) :
    ((g.connectOkGraph a b w).nodeAt a).edges =
      insertSet (g.nodeAt a).edges g.allocEdgeId := by
  rw [nodeAt, connectOk_nodes]
  by_cases hab : a = b
  · subst hab
    rw [listModify_getD_self _ _ (by simpa [listModify_length] using ha),
      listModify_getD_self _ _ (by simpa using ha)]
    simp only [nodeAt]
    generalize (g.nodes.getD a Node.emptied).edges = s
    by_cases hm : g.allocEdgeId ∈ s
    · simp [insertSet, hm]
    · simp [insertSet, hm, mem_insertSet]
  · rw [listModify_getD_ne _ _ (fun hh => hab hh),
      listModify_getD_self _ _ (by simpa using ha)]
    rfl

theorem connectOk_nodeAt_snd (g : AdjListGraph T) (a b w : Nat)
    (hb : b < g.nodes.length) (hab : a ≠ b) :
    ((g.connectOkGraph a b w).nodeAt b).edges =
      insertSet (g.nodeAt b).edges g.allocEdgeId := by
  rw [nodeAt, connectOk_nodes]
  rw [listModify_getD_self _ _ (by simpa [listModify_length] using hb),
    listModify_getD_ne _ _ (fun hh => hab hh.symm)]
  rfl

theorem connectOk_nodeAt_ne (g : AdjListGraph T) (a b w m : Nat)
    (hma : m ≠ a) (hmb : m ≠ b) :
    (g.connectOkGraph a b w).nodeAt m = g.nodeAt m := by
  rw [nodeAt, connectOk_nodes,
    listModify_getD_ne _ _ hmb, listModify_getD_ne _ _ hma]
  rfl

theorem connectOk_value (g : AdjListGraph T) (a b w m : Nat) :
    ((g.connectOkGraph a b w).nodeAt m).value = ((g.nodeAt m).value) := by
  rw [nodeAt, connectOk_nodes]
  by_cases hmb : m = b
  · subst hmb
    by_cases hlt : m < (listModify g.nodes a
        (fun n => { n with edges := insertSet n.edges g.allocEdgeId })).length
    · rw [listModify_getD_self _ _ hlt]
      by_cases hma : m = a
      · subst hma
        rw [listModify_getD_self _ _ (by simpa [listModify_length] using hlt)]
        rfl
      · rw [listModify_getD_ne _ _ hma]
        rfl
    · rw [listModify_of_ge _ (Nat.le_of_not_lt hlt)]
      by_cases hma : m = a
      · subst hma
        rw [listModify_of_ge _ (by simpa [listModify_length] using Nat.le_of_not_lt hlt)]
        rfl
      · rw [listModify_getD_ne _ _ hma]
        rfl
  · rw [listModify_getD_ne _ _ hmb]
    by_cases hma : m = a
    · subst hma
      by_cases hlt : m < g.nodes.length
      · rw [listModify_getD_self _ _ (by simpa using hlt)]
        rfl
      · rw [listModify_of_ge _ (by simpa using Nat.le_of_not_lt hlt)]
        rfl
    · rw [listModify_getD_ne _ _ hma]
      rfl

theorem allocEdgeId_cases (g : AdjListGraph T) :
    (g.empty_edge_slots = [] ∧ g.allocEdgeId = g.edges.length) ∨
      (∃ rest, g.empty_edge_slots = g.allocEdgeId :: rest) := by
  unfold allocEdgeId
  cases g.empty_edge_slots with
  | nil => exact Or.inl ⟨rfl, rfl⟩
  | cons e0 rest => exact Or.inr ⟨rest, rfl⟩

/-- The allocated edge id is never already recorded in an incident set. -/
theorem alloc_fresh {g : AdjListGraph T} (h : WF g) (m : Nat)
    (hm : m < g.nodes.length) : g.allocEdgeId ∉ (g.nodeAt m).edges := by
  intro hmem
  obtain ⟨he1, he2, -⟩ := h.node_edges m hm _ hmem
  rcases allocEdgeId_cases g with ⟨-, hl⟩ | ⟨rest, hl⟩
  · omega
  · exact he2 (by rw [hl]; exact List.mem_cons_self _ _)

theorem wf_connectOk {g : AdjListGraph T} {a b w : Nat} (h : WF g)
    (ha : g.aliveN a) (hb : g.aliveN b) (hlen : g.edges.length < sentinel) :
    WF (g.connectOkGraph a b w) := by
  obtain ⟨ha1, ha2⟩ := ha
  obtain ⟨hb1, hb2⟩ := hb
  have hq : ∀ i ∈ g.empty_edge_slots, i < g.edges.length :=
    fun i hi => (h.eq_dead i hi).1
  have hGe : (g.connectOkGraph a b w).edges.length =
      (if g.empty_edge_slots = [] then g.edges.length + 1 else g.edges.length) :=
    connectOk_edges_length g a b w
  have hGn : (g.connectOkGraph a b w).nodes.length = g.nodes.length :=
    connectOk_nodes_length g a b w
  have hge_ge : g.edges.length ≤ (g.connectOkGraph a b w).edges.length := by
    rw [hGe]; split <;> omega
  have hQE : (g.connectOkGraph a b w).empty_edge_slots = g.empty_edge_slots.tail :=
    connectOk_queueE g a b w
  have hQN : (g.connectOkGraph a b w).empty_node_slots = g.empty_node_slots :=
    connectOk_queueN g a b w
  have htail_sub : ∀ i ∈ g.empty_edge_slots.tail, i ∈ g.empty_edge_slots := by
    intro i hi
    cases hqs : g.empty_edge_slots with
    | nil => rw [hqs] at hi; cases hi
    | cons e0 rest => rw [hqs] at hi; exact List.mem_cons_of_mem _ (by simpa [hqs] using hi)
  have hid_notin_tail : g.allocEdgeId ∉ g.empty_edge_slots.tail := by
    rcases allocEdgeId_cases g with ⟨hnil, hl⟩ | ⟨rest, hl⟩
    · rw [hnil]; simp
    · rw [hl]
      have := h.eq_nodup
      rw [hl] at this
      simpa using (List.nodup_cons.mp this).1
  have hne_tail : ∀ i ∈ g.empty_edge_slots.tail, i ≠ g.allocEdgeId :=
    fun i hi hh => hid_notin_tail (hh ▸ hi)
  -- incident sets of G
  have hSa : ((g.connectOkGraph a b w).nodeAt a).edges =
      insertSet (g.nodeAt a).edges g.allocEdgeId := connectOk_nodeAt_fst g a b w ha1
  have hSb : ((g.connectOkGraph a b w).nodeAt b).edges =
      insertSet (g.nodeAt b).edges g.allocEdgeId := by
    by_cases hab : a = b
    · subst hab; exact hSa
    · exact connectOk_nodeAt_snd g a b w hb1 hab
  have hSm : ∀ m, m ≠ a → m ≠ b →
      (g.connectOkGraph a b w).nodeAt m = g.nodeAt m :=
    fun m => connectOk_nodeAt_ne g a b w m
  have hset_sub : ∀ m x, x ∈ (g.nodeAt m).edges →
      x ∈ ((g.connectOkGraph a b w).nodeAt m).edges := by
    intro m x hx
    by_cases hma : m = a
    · subst hma; rw [hSa]; exact mem_insertSet.mpr (Or.inr hx)
    by_cases hmb : m = b
    · subst hmb; rw [hSb]; exact mem_insertSet.mpr (Or.inr hx)
    · rw [hSm m hma hmb]; exact hx
  have hset_mem : ∀ m, m < g.nodes.length →
      ∀ x ∈ ((g.connectOkGraph a b w).nodeAt m).edges,
        x = g.allocEdgeId ∨ x ∈ (g.nodeAt m).edges := by
    intro m hm x hx
    by_cases hma : m = a
    · subst hma; rw [hSa] at hx; exact mem_insertSet.mp hx
    by_cases hmb : m = b
    · subst hmb; rw [hSb] at hx; exact mem_insertSet.mp hx
    · rw [hSm m hma hmb] at hx; exact Or.inr hx
  have halloc : (g.connectOkGraph a b w).edgeAt g.allocEdgeId = Edge.new w a b :=
    connectOk_edgeAt_alloc g a b w hq
  have hother : ∀ e, e ≠ g.allocEdgeId →
      (g.connectOkGraph a b w).edgeAt e = g.edgeAt e :=
    fun e => connectOk_edgeAt_ne g a b w e
  -- liveness transfer for old edges in G
  have halive_old : ∀ i, i < (g.connectOkGraph a b w).edges.length →
      i ∉ (g.connectOkGraph a b w).empty_edge_slots → i ≠ g.allocEdgeId →
      (i < g.edges.length ∧ i ∉ g.empty_edge_slots) := by
    intro i h1 h2 h3
    rw [hQE] at h2
    rcases allocEdgeId_cases g with ⟨hnil, hl⟩ | ⟨rest, hl⟩
    · rw [hGe, if_pos hnil] at h1
      constructor
      · omega
      · rw [hnil]; simp
    · rw [hGe, if_neg (by rw [hl]; simp)] at h1
      refine ⟨h1, fun hmem => ?_⟩
      rw [hl] at hmem
      rcases List.mem_cons.mp hmem with hh | hh
      · exact h3 hh
      · exact h2 (by rw [hl]; simpa using hh)
  constructor
  · rw [hQN]; exact h.nq_nodup
  · rw [hQE]
    cases hqs : g.empty_edge_slots with
    | nil => simp
    | cons e0 rest =>
        have := h.eq_nodup
        rw [hqs] at this
        simpa using (List.nodup_cons.mp this).2
  · intro i hi
    rw [hQN] at hi
    obtain ⟨hi1, hi2⟩ := h.nq_dead i hi
    refine ⟨by omega, ?_⟩
    have hia : i ≠ a := fun hh => ha2 (hh ▸ hi)
    have hib : i ≠ b := fun hh => hb2 (hh ▸ hi)
    rw [hSm i hia hib]
    exact hi2
  · intro i hi
    rw [hQE] at hi
    obtain ⟨hi1, hi2⟩ := h.eq_dead i (htail_sub i hi)
    refine ⟨by omega, ?_⟩
    rw [hother i (hne_tail i hi)]
    exact hi2
  · intro i h1 h2
    rw [hGn] at h1
    rw [hQN] at h2
    rw [connectOk_value]
    exact h.node_alive i h1 h2
  · intro i h1 h2
    by_cases hiid : i = g.allocEdgeId
    · subst hiid
      rw [halloc]
      refine ⟨⟨⟨?_, ?_⟩, ?_⟩, ⟨?_, ?_⟩, ?_⟩
      · show a < _; omega
      · show a ∉ _; rw [hQN]; exact ha2
      · show _ ∈ ((g.connectOkGraph a b w).nodeAt a).edges
        rw [hSa]; exact mem_insertSet.mpr (Or.inl rfl)
      · show b < _; omega
      · show b ∉ _; rw [hQN]; exact hb2
      · show _ ∈ ((g.connectOkGraph a b w).nodeAt b).edges
        rw [hSb]; exact mem_insertSet.mpr (Or.inl rfl)
    · obtain ⟨hlt, hnq⟩ := halive_old i h1 h2 hiid
      rw [hother i hiid]
      obtain ⟨⟨⟨hA1, hA2⟩, hA3⟩, ⟨hB1, hB2⟩, hB3⟩ := h.edge_alive i hlt hnq
      refine ⟨⟨⟨by omega, ?_⟩, hset_sub _ _ hA3⟩, ⟨by omega, ?_⟩, hset_sub _ _ hB3⟩
      · rw [hQN]; exact hA2
      · rw [hQN]; exact hB2
  · intro i hi e he
    rw [hGn] at hi
    rcases hset_mem i hi e he with rfl | hold
    · refine ⟨connectOk_alloc_lt g a b w hq, ?_, ?_⟩
      · rw [hQE]; exact hid_notin_tail
      · rw [halloc]
        -- the id got into i's set only when i is an endpoint
        by_cases hia : i = a
        · exact Or.inl (by rw [hia]; rfl)
        by_cases hib : i = b
        · exact Or.inr (by rw [hib]; rfl)
        · exfalso
          have := he
          rw [hSm i hia hib] at this
          exact alloc_fresh h i hi this
    · obtain ⟨h1, h2, h3⟩ := h.node_edges i hi e hold
      have hne : e ≠ g.allocEdgeId := by
        intro hh
        exact alloc_fresh h i hi (hh ▸ hold)
      refine ⟨by omega, ?_, ?_⟩
      · rw [hQE]
        intro hmem
        exact h2 (htail_sub e hmem)
      · rw [hother e hne]
        exact h3
  · intro i hi
    rw [hGn] at hi
    by_cases hia : i = a
    · subst hia
      rw [hSa]
      exact insertSet_nodup (h.sets_nodup i hi)
    by_cases hib : i = b
    · subst hib
      rw [hSb]
      exact insertSet_nodup (h.sets_nodup i hi)
    · rw [hSm i hia hib]
      exact h.sets_nodup i hi
  · rw [hGn]; exact h.nodes_le
  · rw [hGe]
    split
    · omega
    · exact h.edges_le

/-- A graph built by replacing the fields of g; used to state the op
preservation lemmas without record-update noise. -/
def withParts (g : AdjListGraph T) (ns : List (Node T)) (es : List Edge)
    (qe qn : List Nat) : AdjListGraph T :=
  { nodes := ns, edges := es, empty_edge_slots := qe, empty_node_slots := qn }

theorem add_node_eq_nil {g : AdjListGraph T} (v : T)
    (hqs : g.empty_node_slots = []) :
    g.add_node v = (g.nodes.length,
      withParts g (g.nodes ++ [Node.new v]) g.edges g.empty_edge_slots []) := by
  simp [add_node, hqs, withParts]

theorem add_node_eq_cons {g : AdjListGraph T} (v : T) {id : Nat}
    {rest : List Nat} (hqs : g.empty_node_slots = id :: rest) :
    g.add_node v = (id,
      withParts g (g.nodes.set id (Node.new v)) g.edges g.empty_edge_slots rest) := by
  simp [add_node, hqs, withParts]

theorem wf_add_node {g : AdjListGraph T} (h : WF g) (v : T)
    (hlen : g.nodes.length < sentinel) : WF (g.add_node v).2 := by
  cases hqs : g.empty_node_slots with
  | nil =>
      rw [add_node_eq_nil v hqs]
      have hA : ∀ i, i < g.nodes.length →
          (withParts g (g.nodes ++ [Node.new v]) g.edges g.empty_edge_slots []).nodeAt i
            = g.nodeAt i :=
        fun i hi => getD_append_lt _ hi
      have hAend :
          (withParts g (g.nodes ++ [Node.new v]) g.edges g.empty_edge_slots []).nodeAt
            g.nodes.length = Node.new v := getD_append_len _ _
      have hE : ∀ i,
          (withParts g (g.nodes ++ [Node.new v]) g.edges g.empty_edge_slots []).edgeAt i
            = g.edgeAt i := fun i => rfl
      have hlen' :
          (withParts g (g.nodes ++ [Node.new v]) g.edges g.empty_edge_slots []).nodes.length
            = g.nodes.length + 1 := by simp [withParts]
      constructor
      · show List.Nodup []
        simp
      · exact h.eq_nodup
      · intro i hi
        cases hi
      · intro i hi
        exact h.eq_dead i hi
      · intro i h1 h2
        rw [hlen'] at h1
        rcases Nat.lt_or_ge i g.nodes.length with hlt | hge
        · rw [hA i hlt]
          exact h.node_alive i hlt (by rw [hqs]; simp)
        · have hieq : i = g.nodes.length := by omega
          subst hieq
          rw [hAend]
          rfl
      · intro i h1 h2
        obtain ⟨⟨⟨hA1, hA2⟩, hA3⟩, ⟨hB1, hB2⟩, hB3⟩ := h.edge_alive i h1 h2
        rw [hqs] at hA2 hB2
        refine ⟨⟨⟨?_, ?_⟩, ?_⟩, ⟨?_, ?_⟩, ?_⟩
        · rw [hE, hlen']
          omega
        · rw [hE]
          intro hc
          cases hc
        · rw [hE, hA _ hA1]
          exact hA3
        · rw [hE, hlen']
          omega
        · rw [hE]
          intro hc
          cases hc
        · rw [hE, hA _ hB1]
          exact hB3
      · intro i hi e he
        rw [hlen'] at hi
        rcases Nat.lt_or_ge i g.nodes.length with hlt | hge
        · rw [hA i hlt] at he
          obtain ⟨k1, k2, k3⟩ := h.node_edges i hlt e he
          exact ⟨k1, k2, by rw [hE]; exact k3⟩
        · have hieq : i = g.nodes.length := by omega
          subst hieq
          rw [hAend] at he
          cases he
      · intro i hi
        rw [hlen'] at hi
        rcases Nat.lt_or_ge i g.nodes.length with hlt | hge
        · rw [hA i hlt]
          exact h.sets_nodup i hlt
        · have hieq : i = g.nodes.length := by omega
          subst hieq
          rw [hAend]
          show List.Nodup []
          simp
      · rw [hlen']
        omega
      · exact h.edges_le
  | cons id rest =>
      rw [add_node_eq_cons v hqs]
      have hid : id < g.nodes.length ∧ g.nodeAt id = Node.emptied :=
        h.nq_dead id (by rw [hqs]; exact List.mem_cons_self _ _)
      have hnodup := h.nq_nodup
      rw [hqs, List.nodup_cons] at hnodup
      have hA : ∀ i, i ≠ id →
          (withParts g (g.nodes.set id (Node.new v)) g.edges g.empty_edge_slots rest).nodeAt i
            = g.nodeAt i := fun i hi => getD_set_ne _ _ hi
      have hAid :
          (withParts g (g.nodes.set id (Node.new v)) g.edges g.empty_edge_slots rest).nodeAt id
            = Node.new v := getD_set_self _ _ hid.1
      have hE : ∀ i,
          (withParts g (g.nodes.set id (Node.new v)) g.edges g.empty_edge_slots rest).edgeAt i
            = g.edgeAt i := fun i => rfl
      have hlen' :
          (withParts g (g.nodes.set id (Node.new v)) g.edges g.empty_edge_slots rest).nodes.length
            = g.nodes.length := by simp [withParts]
      constructor
      · exact hnodup.2
      · exact h.eq_nodup
      · intro i hi
        have hmem : i ∈ g.empty_node_slots := by
          rw [hqs]
          exact List.mem_cons_of_mem _ hi
        have hne : i ≠ id := fun hh => hnodup.1 (hh ▸ hi)
        obtain ⟨h1, h2⟩ := h.nq_dead i hmem
        rw [hlen', hA i hne]
        exact ⟨h1, h2⟩
      · intro i hi
        exact h.eq_dead i hi
      · intro i h1 h2
        rw [hlen'] at h1
        by_cases hii : i = id
        · subst hii
          rw [hAid]
          rfl
        · rw [hA i hii]
          refine h.node_alive i h1 ?_
          rw [hqs]
          intro hmem
          rcases List.mem_cons.mp hmem with hh | hh
          · exact hii hh
          · exact h2 hh
      · intro i h1 h2
        obtain ⟨⟨⟨hA1, hA2⟩, hA3⟩, ⟨hB1, hB2⟩, hB3⟩ := h.edge_alive i h1 h2
        have hia : (g.edgeAt i).node_a ≠ id := by
          intro hh
          exact hA2 (by rw [hqs, hh]; exact List.mem_cons_self _ _)
        have hib : (g.edgeAt i).node_b ≠ id := by
          intro hh
          exact hB2 (by rw [hqs, hh]; exact List.mem_cons_self _ _)
        refine ⟨⟨⟨?_, ?_⟩, ?_⟩, ⟨?_, ?_⟩, ?_⟩
        · rw [hE, hlen']
          exact hA1
        · rw [hE]
          intro hc
          exact hA2 (by rw [hqs]; exact List.mem_cons_of_mem _ hc)
        · rw [hE, hA _ hia]
          exact hA3
        · rw [hE, hlen']
          exact hB1
        · rw [hE]
          intro hc
          exact hB2 (by rw [hqs]; exact List.mem_cons_of_mem _ hc)
        · rw [hE, hA _ hib]
          exact hB3
      · intro i hi e he
        rw [hlen'] at hi
        by_cases hii : i = id
        · subst hii
          rw [hAid] at he
          cases he
        · rw [hA i hii] at he
          obtain ⟨k1, k2, k3⟩ := h.node_edges i hi e he
          exact ⟨k1, k2, by rw [hE]; exact k3⟩
      · intro i hi
        rw [hlen'] at hi
        by_cases hii : i = id
        · subst hii
          rw [hAid]
          show List.Nodup []
          simp
        · rw [hA i hii]
          exact h.sets_nodup i hi
      · rw [hlen']
        exact h.nodes_le
      · exact h.edges_le

/-! ### Characterizing remove_edge and remove_node -/

/-- Erase every id of L from the set, in order. -/
def eraseAll (s : List Nat) (L : List Nat) : List Nat :=
  L.foldl List.erase s

/-- Clear every edge slot of L, in order. -/
def clearAll (es : List Edge) (L : List Nat) : List Edge :=
  L.foldl (fun es e => es.set e Edge.cleared) es

theorem eraseAll_nil (s : List Nat) : eraseAll s [] = s := rfl

theorem eraseAll_cons (s : List Nat) (e : Nat) (L : List Nat) :
    eraseAll s (e :: L) = eraseAll (s.erase e) L := rfl

theorem clearAll_cons (es : List Edge) (e : Nat) (L : List Nat) :
    clearAll es (e :: L) = clearAll (es.set e Edge.cleared) L := rfl

theorem eraseAll_nodup {s : List Nat} (L : List Nat) (h : s.Nodup) :
    (eraseAll s L).Nodup := by
  induction L generalizing s with
  | nil => exact h
  | cons e L ih => exact ih (h.erase e)

theorem mem_eraseAll {s : List Nat} {L : List Nat} (h : s.Nodup) (x : Nat) :
    x ∈ eraseAll s L ↔ (x ∈ s ∧ x ∉ L) := by
  induction L generalizing s with
  | nil => simp [eraseAll_nil]
  | cons e L ih =>
      rw [eraseAll_cons, ih (h.erase e)]
      rw [List.Nodup.mem_erase_iff h]
      constructor
      · rintro ⟨⟨h1, h2⟩, h3⟩
        exact ⟨h2, by simp [h1, h3]⟩
      · rintro ⟨h1, h2⟩
        simp only [List.mem_cons, not_or] at h2
        exact ⟨⟨h2.1, h1⟩, h2.2⟩

theorem eraseAll_nil_set (L : List Nat) : eraseAll [] L = [] := by
  induction L with
  | nil => rfl
  | cons e L ih => rw [eraseAll_cons]; simpa using ih

theorem clearAll_length (es : List Edge) (L : List Nat) :
    (clearAll es L).length = es.length := by
  induction L generalizing es with
  | nil => rfl
  | cons e L ih => rw [clearAll_cons, ih]; simp

theorem clearAll_getD_of_not_mem {es : List Edge} {L : List Nat} {i : Nat}
    (h : i ∉ L) : (clearAll es L).getD i Edge.cleared = es.getD i Edge.cleared := by
  induction L generalizing es with
  | nil => rfl
  | cons e L ih =>
      simp only [List.mem_cons, not_or] at h
      rw [clearAll_cons, ih h.2, getD_set_ne _ _ h.1]

theorem clearAll_getD_of_mem {es : List Edge} {L : List Nat} {i : Nat}
    (hlt : i < es.length) (h : i ∈ L) :
    (clearAll es L).getD i Edge.cleared = Edge.cleared := by
  induction L generalizing es with
  | nil => cases h
  | cons e L ih =>
      rw [clearAll_cons]
      by_cases hiL : i ∈ L
      · exact ih (by simpa using hlt) hiL
      · have hie : i = e := by
          rcases List.mem_cons.mp h with hh | hh
          · exact hh
          · exact absurd hh hiL
        subst hie
        rw [clearAll_getD_of_not_mem hiL, getD_set_self _ _ hlt]

theorem list_ext_getD {α : Type} {l l' : List α} (d : α)
    (hlen : l.length = l'.length)
    (h : ∀ i, i < l.length → l.getD i d = l'.getD i d) : l = l' := by
  apply List.ext_getElem hlen
  intro i h1 h2
  have := h i h1
  rw [List.getD_eq_getElem?_getD, List.getD_eq_getElem?_getD,
    List.getElem?_eq_getElem h1, List.getElem?_eq_getElem h2] at this
  simpa using this

/-- remove_edge, as one global pass: every node's incident set is erased of
the id (only the endpoints can actually hold it), the slot is cleared, and
the id is queued.  Needs only local facts, so it applies mid-cascade inside
remove_node.  -/
theorem remove_edge_eq {g : AdjListGraph T} {e : Nat}
    (hA : (g.edgeAt e).node_a < g.nodes.length)
    (hB : (g.edgeAt e).node_b < g.nodes.length)
    (honly : ∀ m, m < g.nodes.length → e ∈ (g.nodeAt m).edges →
      m = (g.edgeAt e).node_a ∨ m = (g.edgeAt e).node_b)
    (hnodup : ∀ m, m < g.nodes.length → ((g.nodeAt m).edges).Nodup) :
    g.remove_edge e = withParts g
      (g.nodes.map (fun n => { n with edges := n.edges.erase e }))
      (g.edges.set e Edge.cleared)
      (g.empty_edge_slots ++ [e])
      g.empty_node_slots := by
  unfold remove_edge
  simp only [withParts]
  congr 1
  apply list_ext_getD Node.emptied
  · simp [listModify_length]
  · intro i hi
    simp only [listModify_length] at hi
    have hmap : (g.nodes.map (fun n => { n with edges := n.edges.erase e })).getD i Node.emptied
        = { g.nodes.getD i Node.emptied with
            edges := (g.nodes.getD i Node.emptied).edges.erase e } := by
      rw [List.getD_eq_getElem?_getD, List.getD_eq_getElem?_getD,
        List.getElem?_map, List.getElem?_eq_getElem hi]
      rfl
    rw [hmap]
    by_cases hia : i = (g.edgeAt e).node_a
    · by_cases hib : i = (g.edgeAt e).node_b
      · rw [← hia, ← hib]
        rw [listModify_getD_self _ _ (by simpa [listModify_length] using hi),
          listModify_getD_self _ _ (by simpa using hi)]
        have : ((g.nodes.getD i Node.emptied).edges.erase e).erase e
            = (g.nodes.getD i Node.emptied).edges.erase e := by
          apply List.erase_of_not_mem
          intro hmem
          have := (List.Nodup.mem_erase_iff (hnodup i hi)).mp hmem
          exact this.1 rfl
        show ({ (g.nodes.getD i Node.emptied) with
          edges := ((g.nodes.getD i Node.emptied).edges.erase e).erase e } : Node T) = _
        rw [this]
      · rw [← hia]
        rw [listModify_getD_ne _ _ (fun hh => hib hh),
          listModify_getD_self _ _ (by simpa using hi)]
    · by_cases hib : i = (g.edgeAt e).node_b
      · rw [← hib]
        rw [listModify_getD_self _ _ (by simpa [listModify_length] using hi),
          listModify_getD_ne _ _ (fun hh => hia hh)]
      · rw [listModify_getD_ne _ _ hib, listModify_getD_ne _ _ hia]
        have : e ∉ (g.nodes.getD i Node.emptied).edges := by
          intro hmem
          rcases honly i hi hmem with hh | hh
          · exact hia hh
          · exact hib hh
        rw [List.erase_of_not_mem this]

theorem getD_map {α β : Type} (f : α → β) {l : List α} {i : Nat}
    (d : α) (d' : β) (hi : i < l.length) :
    (l.map f).getD i d' = f (l.getD i d) := by
  rw [List.getD_eq_getElem?_getD, List.getD_eq_getElem?_getD,
    List.getElem?_map, List.getElem?_eq_getElem hi]
  rfl

/-- The remove_edge cascade inside remove_node, as one global pass: all of
L's edge slots cleared and queued, every incident set erased of all of L. -/
theorem removeEdgesFold_eq {g : AdjListGraph T} {L : List Nat}
    (hlive : ∀ e ∈ L, e < g.edges.length ∧ e ∉ g.empty_edge_slots)
    (hnodupL : L.Nodup)
    (hend : ∀ e ∈ L, (g.edgeAt e).node_a < g.nodes.length ∧
      (g.edgeAt e).node_b < g.nodes.length)
    (honly : ∀ e ∈ L, ∀ m, m < g.nodes.length → e ∈ (g.nodeAt m).edges →
      m = (g.edgeAt e).node_a ∨ m = (g.edgeAt e).node_b)
    (hnodup : ∀ m, m < g.nodes.length → ((g.nodeAt m).edges).Nodup) :
    L.foldl (fun g e => g.remove_edge e) g = withParts g
      (g.nodes.map (fun n => { n with edges := eraseAll n.edges L }))
      (clearAll g.edges L)
      (g.empty_edge_slots ++ L)
      g.empty_node_slots := by
  induction L generalizing g with
  | nil =>
      have hmapid : (fun (n : Node T) => { n with edges := eraseAll n.edges [] })
          = id := funext fun n => rfl
      simp only [List.foldl_nil, hmapid, List.map_id, List.append_nil]
      rfl
  | cons e L ih =>
      have he := List.mem_cons_self e L
      have hstep := remove_edge_eq
        (hend e he).1 (hend e he).2
        (fun m hm hmem => honly e he m hm hmem) hnodup
      rw [List.foldl_cons, hstep]
      have hnodupL' := (List.nodup_cons.mp hnodupL)
      -- the intermediate graph
      set G1 := withParts g
        (g.nodes.map (fun n => { n with edges := n.edges.erase e }))
        (g.edges.set e Edge.cleared)
        (g.empty_edge_slots ++ [e])
        g.empty_node_slots with hG1
      have hG1nodesLen : G1.nodes.length = g.nodes.length := by
        rw [hG1]; simp [withParts]
      have hG1edgesLen : G1.edges.length = g.edges.length := by
        rw [hG1]; simp [withParts]
      have hG1nodeAt : ∀ m, m < g.nodes.length →
          G1.nodeAt m = { g.nodeAt m with edges := (g.nodeAt m).edges.erase e } := by
        intro m hm
        rw [hG1]
        exact getD_map _ Node.emptied Node.emptied hm
      have hG1edgeAt : ∀ x, x ≠ e → G1.edgeAt x = g.edgeAt x := by
        intro x hx
        rw [hG1]
        exact getD_set_ne _ _ hx
      have ihs := @ih G1
        (by
          intro x hx
          have hxg := hlive x (List.mem_cons_of_mem _ hx)
          have hxe : x ≠ e := fun hh => hnodupL'.1 (hh ▸ hx)
          refine ⟨by rw [hG1edgesLen]; exact hxg.1, ?_⟩
          rw [hG1]
          show x ∉ g.empty_edge_slots ++ [e]
          intro hmem
          rcases List.mem_append.mp hmem with hh | hh
          · exact hxg.2 hh
          · exact hxe (by simpa using hh))
        hnodupL'.2
        (by
          intro x hx
          have hxe : x ≠ e := fun hh => hnodupL'.1 (hh ▸ hx)
          rw [hG1edgeAt x hxe, hG1nodesLen]
          exact hend x (List.mem_cons_of_mem _ hx))
        (by
          intro x hx m hm hmem
          have hxe : x ≠ e := fun hh => hnodupL'.1 (hh ▸ hx)
          rw [hG1nodesLen] at hm
          rw [hG1nodeAt m hm] at hmem
          have : x ∈ (g.nodeAt m).edges := List.mem_of_mem_erase hmem
          rw [hG1edgeAt x hxe]
          exact honly x (List.mem_cons_of_mem _ hx) m hm this)
        (by
          intro m hm
          rw [hG1nodesLen] at hm
          rw [hG1nodeAt m hm]
          exact (hnodup m hm).erase e)
      rw [ihs]
      rw [hG1]
      simp only [withParts, List.map_map]
      have h1 : List.map
            ((fun n => { n with edges := eraseAll n.edges L }) ∘
              (fun (n : Node T) => { n with edges := n.edges.erase e })) g.nodes
          = List.map (fun n => { n with edges := eraseAll n.edges (e :: L) }) g.nodes :=
        List.map_congr_left (fun n _ => rfl)
      have h2 : g.empty_edge_slots ++ [e] ++ L = g.empty_edge_slots ++ e :: L := by
        rw [List.append_assoc]
        rfl
      rw [h1, h2]
      rfl

/-- remove_node, as one global pass: the payload comes back, all incident
edges are cleared and queued, every incident set is erased of them, the node
slot is emptied and queued. -/
theorem remove_node_eq {g : AdjListGraph T} {n : Nat} (h : WF g)
    (halive : g.aliveN n) :
    g.remove_node n = ((g.nodeAt n).value,
      withParts g
        (listModify (g.nodes.map (fun nd =>
            { nd with edges := eraseAll nd.edges ((g.nodeAt n).edges) })) n
          (fun _ => Node.emptied))
        (clearAll g.edges ((g.nodeAt n).edges))
        (g.empty_edge_slots ++ (g.nodeAt n).edges)
        (g.empty_node_slots ++ [n])) := by
  obtain ⟨hn_lt, hn_nq⟩ := halive
  have hLmem := h.node_edges n hn_lt
  have hLnodup := h.sets_nodup n hn_lt
  unfold remove_node
  simp only
  -- the graph with n's incident set taken
  set g2 : AdjListGraph T := { g with
    nodes := listModify g.nodes n (fun nd => { nd with edges := [] }) } with hg2
  have hg2nodesLen : g2.nodes.length = g.nodes.length := by
    rw [hg2]; simp [listModify_length]
  have hg2edgeAt : ∀ x, g2.edgeAt x = g.edgeAt x := fun x => rfl
  have hg2nodeAt_ne : ∀ m, m ≠ n → g2.nodeAt m = g.nodeAt m := by
    intro m hm
    rw [hg2]
    exact listModify_getD_ne _ _ hm
  have hg2nodeAt_n : g2.nodeAt n = { g.nodeAt n with edges := [] } := by
    rw [hg2]
    exact listModify_getD_self _ _ hn_lt
  have hfold := @removeEdgesFold_eq T g2 ((g.nodeAt n).edges)
    (by
      intro e he
      obtain ⟨k1, k2, -⟩ := hLmem e he
      exact ⟨k1, k2⟩)
    hLnodup
    (by
      intro e he
      obtain ⟨k1, k2, -⟩ := hLmem e he
      obtain ⟨⟨⟨j1, -⟩, -⟩, ⟨j2, -⟩, -⟩ := h.edge_alive e k1 k2
      rw [hg2edgeAt, hg2nodesLen]
      exact ⟨j1, j2⟩)
    (by
      intro e he m hm hmem
      rw [hg2nodesLen] at hm
      rw [hg2edgeAt]
      by_cases hmn : m = n
      · subst hmn
        rw [hg2nodeAt_n] at hmem
        cases hmem
      · rw [hg2nodeAt_ne m hmn] at hmem
        obtain ⟨-, -, k3⟩ := h.node_edges m hm e hmem
        rcases k3 with hh | hh
        · exact Or.inl hh.symm
        · exact Or.inr hh.symm)
    (by
      intro m hm
      rw [hg2nodesLen] at hm
      by_cases hmn : m = n
      · subst hmn
        rw [hg2nodeAt_n]
        exact List.nodup_nil
      · rw [hg2nodeAt_ne m hmn]
        exact h.sets_nodup m hm)
  rw [hfold]
  simp only [withParts, hg2]
  -- compare the two components
  rw [Prod.mk.injEq]
  constructor
  · -- the returned payload
    show (((listModify g.nodes n fun nd => { nd with edges := [] }).map
        (fun nd => { nd with edges := eraseAll nd.edges ((g.nodeAt n).edges) })).getD n
          Node.emptied).value = ((g.nodeAt n).value)
    rw [getD_map _ Node.emptied Node.emptied (by simpa [listModify_length] using hn_lt)]
    show ((listModify g.nodes n fun nd => { nd with edges := [] }).getD n Node.emptied).value = _
    rw [listModify_getD_self _ _ hn_lt]
    rfl
  · -- the graph: only the node sequences differ syntactically
    congr 1
    apply list_ext_getD Node.emptied
    · simp [listModify_length]
    · intro i hi
      simp only [listModify_length, List.length_map] at hi
      by_cases hin : i = n
      · subst hin
        rw [listModify_getD_self _ _
            (by simpa [listModify_length] using hi),
          listModify_getD_self _ _ (by simpa using hi)]
      · rw [listModify_getD_ne _ _ hin, listModify_getD_ne _ _ hin,
          getD_map _ Node.emptied Node.emptied
            (by simpa [listModify_length] using hi),
          getD_map _ Node.emptied Node.emptied (by simpa using hi),
          listModify_getD_ne _ _ hin]

theorem wf_remove_edge {g : AdjListGraph T} {e : Nat} (h : WF g)
    (he : g.aliveE e) : WF (g.remove_edge e) := by
  obtain ⟨he_lt, he_nq⟩ := he
  obtain ⟨⟨⟨hA1, hA2⟩, hA3⟩, ⟨hB1, hB2⟩, hB3⟩ := h.edge_alive e he_lt he_nq
  rw [remove_edge_eq hA1 hB1
    (by
      intro m hm hmem
      rcases (h.node_edges m hm e hmem).2.2 with hh | hh
      · exact Or.inl hh.symm
      · exact Or.inr hh.symm)
    h.sets_nodup]
  set G := withParts g
    (g.nodes.map (fun n => { n with edges := n.edges.erase e }))
    (g.edges.set e Edge.cleared)
    (g.empty_edge_slots ++ [e])
    g.empty_node_slots with hG
  have hGnlen : G.nodes.length = g.nodes.length := by rw [hG]; simp [withParts]
  have hGelen : G.edges.length = g.edges.length := by rw [hG]; simp [withParts]
  have hGnodeAt : ∀ m, m < g.nodes.length →
      G.nodeAt m = { g.nodeAt m with edges := (g.nodeAt m).edges.erase e } := by
    intro m hm
    rw [hG]
    exact getD_map _ Node.emptied Node.emptied hm
  have hGedgeAt_ne : ∀ x, x ≠ e → G.edgeAt x = g.edgeAt x := by
    intro x hx
    rw [hG]
    exact getD_set_ne _ _ hx
  have hGedgeAt_e : G.edgeAt e = Edge.cleared := by
    rw [hG]
    exact getD_set_self _ _ he_lt
  have hGqe : G.empty_edge_slots = g.empty_edge_slots ++ [e] := rfl
  have hGqn : G.empty_node_slots = g.empty_node_slots := rfl
  constructor
  · rw [hGqn]; exact h.nq_nodup
  · rw [hGqe]
    simp only [List.nodup_append, List.nodup_cons]
    refine ⟨h.eq_nodup, by simp, ?_⟩
    intro x hx
    simp only [List.mem_singleton]
    intro hh
    exact he_nq (hh ▸ hx)
  · intro i hi
    rw [hGqn] at hi
    obtain ⟨k1, k2⟩ := h.nq_dead i hi
    refine ⟨by omega, ?_⟩
    rw [hGnodeAt i k1, k2]
    rfl
  · intro i hi
    rw [hGqe] at hi
    rcases List.mem_append.mp hi with hiq | hie
    · obtain ⟨k1, k2⟩ := h.eq_dead i hiq
      have hne : i ≠ e := fun hh => he_nq (hh ▸ hiq)
      refine ⟨by omega, ?_⟩
      rw [hGedgeAt_ne i hne]
      exact k2
    · have hieq : i = e := by simpa using hie
      subst hieq
      exact ⟨by omega, hGedgeAt_e⟩
  · intro i h1 h2
    rw [hGnlen] at h1
    rw [hGnodeAt i h1]
    rw [hGqn] at h2
    exact h.node_alive i h1 h2
  · intro i h1 h2
    rw [hGelen] at h1
    rw [hGqe] at h2
    have hie : i ≠ e := by
      intro hh
      exact h2 (by rw [hh]; simp)
    have hiq : i ∉ g.empty_edge_slots := by
      intro hh
      exact h2 (by simp [hh])
    obtain ⟨⟨⟨j1, j2⟩, j3⟩, ⟨j4, j5⟩, j6⟩ := h.edge_alive i h1 hiq
    rw [hGedgeAt_ne i hie]
    refine ⟨⟨⟨by omega, ?_⟩, ?_⟩, ⟨by omega, ?_⟩, ?_⟩
    · rw [hGqn]; exact j2
    · rw [hGnodeAt _ j1]
      exact List.mem_erase_of_ne hie |>.mpr j3
    · rw [hGqn]; exact j5
    · rw [hGnodeAt _ j4]
      exact List.mem_erase_of_ne hie |>.mpr j6
  · intro i hi x hx
    rw [hGnlen] at hi
    rw [hGnodeAt i hi] at hx
    have hx' := (List.Nodup.mem_erase_iff (h.sets_nodup i hi)).mp hx
    obtain ⟨k1, k2, k3⟩ := h.node_edges i hi x hx'.2
    refine ⟨by omega, ?_, ?_⟩
    · rw [hGqe]
      intro hmem
      rcases List.mem_append.mp hmem with hh | hh
      · exact k2 hh
      · exact hx'.1 (by simpa using hh)
    · rw [hGedgeAt_ne x hx'.1]
      exact k3
  · intro i hi
    rw [hGnlen] at hi
    rw [hGnodeAt i hi]
    exact (h.sets_nodup i hi).erase e
  · rw [hGnlen]; exact h.nodes_le
  · rw [hGelen]; exact h.edges_le

theorem wf_remove_node {g : AdjListGraph T} {n : Nat} (h : WF g)
    (halive : g.aliveN n) : WF (g.remove_node n).2 := by
  obtain ⟨hn_lt, hn_nq⟩ := halive
  have hLmem := h.node_edges n hn_lt
  have hLnodup := h.sets_nodup n hn_lt
  rw [remove_node_eq h ⟨hn_lt, hn_nq⟩]
  set L := (g.nodeAt n).edges with hLdef
  set G := withParts g
    (listModify (g.nodes.map (fun nd => { nd with edges := eraseAll nd.edges L })) n
      (fun _ => Node.emptied))
    (clearAll g.edges L)
    (g.empty_edge_slots ++ L)
    (g.empty_node_slots ++ [n]) with hG
  rw [show (((g.nodeAt n).value, G) : Option T × AdjListGraph T).2 = G from rfl]
  have hGnlen : G.nodes.length = g.nodes.length := by
    rw [hG]; simp [withParts, listModify_length]
  have hGelen : G.edges.length = g.edges.length := by
    rw [hG]; simp [withParts, clearAll_length]
  have hGnodeAt_n : G.nodeAt n = Node.emptied := by
    rw [hG]
    exact listModify_getD_self _ _ (by simpa using hn_lt)
  have hGnodeAt : ∀ m, m ≠ n → m < g.nodes.length →
      G.nodeAt m = { g.nodeAt m with edges := eraseAll (g.nodeAt m).edges L } := by
    intro m hm hmlt
    rw [hG]
    show (listModify _ n _).getD m Node.emptied = _
    rw [listModify_getD_ne _ _ hm]
    exact getD_map _ Node.emptied Node.emptied hmlt
  have hGedgeAt_notL : ∀ x, x ∉ L → G.edgeAt x = g.edgeAt x := by
    intro x hx
    rw [hG]
    exact clearAll_getD_of_not_mem hx
  have hGedgeAt_L : ∀ x ∈ L, G.edgeAt x = Edge.cleared := by
    intro x hx
    rw [hG]
    exact clearAll_getD_of_mem (hLmem x hx).1 hx
  have hGqe : G.empty_edge_slots = g.empty_edge_slots ++ L := rfl
  have hGqn : G.empty_node_slots = g.empty_node_slots ++ [n] := rfl
  have hLdisj : ∀ x ∈ L, x ∉ g.empty_edge_slots := fun x hx => (hLmem x hx).2.1
  constructor
  · rw [hGqn]
    simp only [List.nodup_append, List.nodup_cons]
    refine ⟨h.nq_nodup, by simp, ?_⟩
    intro x hx
    simp only [List.mem_singleton]
    intro hh
    exact hn_nq (hh ▸ hx)
  · rw [hGqe]
    simp only [List.nodup_append]
    exact ⟨h.eq_nodup, hLnodup, fun x hx hh => hLdisj x hh hx⟩
  · intro i hi
    rw [hGqn] at hi
    rcases List.mem_append.mp hi with hiq | hie
    · obtain ⟨k1, k2⟩ := h.nq_dead i hiq
      have hne : i ≠ n := fun hh => hn_nq (hh ▸ hiq)
      refine ⟨by omega, ?_⟩
      rw [hGnodeAt i hne k1, k2]
      show ({ Node.emptied with edges := eraseAll [] L } : Node T) = Node.emptied
      rw [eraseAll_nil_set]
      rfl
    · have hieq : i = n := by simpa using hie
      subst hieq
      exact ⟨by omega, hGnodeAt_n⟩
  · intro i hi
    rw [hGqe] at hi
    rcases List.mem_append.mp hi with hiq | hiL
    · obtain ⟨k1, k2⟩ := h.eq_dead i hiq
      have hiNotL : i ∉ L := fun hh => hLdisj i hh hiq
      refine ⟨by omega, ?_⟩
      rw [hGedgeAt_notL i hiNotL]
      exact k2
    · exact ⟨by rw [hGelen]; exact (hLmem i hiL).1, hGedgeAt_L i hiL⟩
  · intro i h1 h2
    rw [hGnlen] at h1
    rw [hGqn] at h2
    have hin : i ≠ n := by
      intro hh
      exact h2 (by rw [hh]; simp)
    have hiq : i ∉ g.empty_node_slots := fun hh => h2 (by simp [hh])
    rw [hGnodeAt i hin h1]
    exact h.node_alive i h1 hiq
  · intro i h1 h2
    rw [hGelen] at h1
    rw [hGqe] at h2
    have hiL : i ∉ L := fun hh => h2 (by simp [hh])
    have hiq : i ∉ g.empty_edge_slots := fun hh => h2 (by simp [hh])
    obtain ⟨⟨⟨j1, j2⟩, j3⟩, ⟨j4, j5⟩, j6⟩ := h.edge_alive i h1 hiq
    rw [hGedgeAt_notL i hiL]
    have hAn : (g.edgeAt i).node_a ≠ n := by
      intro hh
      exact hiL (by rw [hLdef, ← hh]; exact j3)
    have hBn : (g.edgeAt i).node_b ≠ n := by
      intro hh
      exact hiL (by rw [hLdef, ← hh]; exact j6)
    refine ⟨⟨⟨by omega, ?_⟩, ?_⟩, ⟨by omega, ?_⟩, ?_⟩
    · rw [hGqn]
      intro hmem
      rcases List.mem_append.mp hmem with hh | hh
      · exact j2 hh
      · exact hAn (by simpa using hh)
    · rw [hGnodeAt _ hAn j1]
      exact (mem_eraseAll (h.sets_nodup _ j1) i).mpr ⟨j3, hiL⟩
    · rw [hGqn]
      intro hmem
      rcases List.mem_append.mp hmem with hh | hh
      · exact j5 hh
      · exact hBn (by simpa using hh)
    · rw [hGnodeAt _ hBn j4]
      exact (mem_eraseAll (h.sets_nodup _ j4) i).mpr ⟨j6, hiL⟩
  · intro i hi x hx
    rw [hGnlen] at hi
    by_cases hin : i = n
    · subst hin
      rw [hGnodeAt_n] at hx
      cases hx
    · rw [hGnodeAt i hin hi] at hx
      obtain ⟨hx1, hx2⟩ := (mem_eraseAll (h.sets_nodup i hi) x).mp hx
      obtain ⟨k1, k2, k3⟩ := h.node_edges i hi x hx1
      refine ⟨by omega, ?_, ?_⟩
      · rw [hGqe]
        intro hmem
        rcases List.mem_append.mp hmem with hh | hh
        · exact k2 hh
        · exact hx2 hh
      · rw [hGedgeAt_notL x hx2]
        exact k3
  · intro i hi
    rw [hGnlen] at hi
    by_cases hin : i = n
    · subst hin
      rw [hGnodeAt_n]
      exact List.nodup_nil
    · rw [hGnodeAt i hin hi]
      exact eraseAll_nodup L (h.sets_nodup i hi)
  · rw [hGnlen]; exact h.nodes_le
  · rw [hGelen]; exact h.edges_le

/-! ### The compaction renumbering map -/

/-- The indices below k not queued as free, ascending. -/
def aliveIdx (q : List Nat) (k : Nat) : List Nat :=
  (List.range k).filter (fun j => !(q.contains j))

/-- The new id of slot x after compaction: the number of alive indices
strictly below x. -/
def phiQ (q : List Nat) (x : Nat) : Nat :=
  (aliveIdx q x).length

theorem aliveIdx_succ_alive {q : List Nat} {k : Nat} (h : k ∉ q) :
    aliveIdx q (k + 1) = aliveIdx q k ++ [k] := by
  unfold aliveIdx
  rw [List.range_succ, List.filter_append]
  simp [h]

theorem aliveIdx_succ_dead {q : List Nat} {k : Nat} (h : k ∈ q) :
    aliveIdx q (k + 1) = aliveIdx q k := by
  unfold aliveIdx
  rw [List.range_succ, List.filter_append]
  simp [h]

theorem phiQ_succ_alive {q : List Nat} {k : Nat} (h : k ∉ q) :
    phiQ q (k + 1) = phiQ q k + 1 := by
  unfold phiQ
  rw [aliveIdx_succ_alive h]
  simp

theorem phiQ_succ_dead {q : List Nat} {k : Nat} (h : k ∈ q) :
    phiQ q (k + 1) = phiQ q k := by
  unfold phiQ
  rw [aliveIdx_succ_dead h]

theorem phiQ_mono (q : List Nat) {x y : Nat} (h : x ≤ y) :
    phiQ q x ≤ phiQ q y := by
  induction y with
  | zero => simpa [Nat.le_zero.mp h] using Nat.le_refl _
  | succ y ih =>
      rcases Nat.lt_or_ge x (y + 1) with hlt | hge
      · have hxy : x ≤ y := by omega
        by_cases hy : y ∈ q
        · rw [phiQ_succ_dead hy]; exact ih hxy
        · rw [phiQ_succ_alive hy]; exact Nat.le_succ_of_le (ih hxy)
      · have : x = y + 1 := by omega
        subst this
        exact Nat.le_refl _

theorem phiQ_le (q : List Nat) (x : Nat) : phiQ q x ≤ x := by
  induction x with
  | zero => simp [phiQ, aliveIdx]
  | succ x ih =>
      by_cases hx : x ∈ q
      · rw [phiQ_succ_dead hx]; omega
      · rw [phiQ_succ_alive hx]; omega

theorem phiQ_lt_of_alive_lt {q : List Nat} {x y : Nat} (hx : x ∉ q)
    (hxy : x < y) : phiQ q x < phiQ q y := by
  have h1 : phiQ q (x + 1) ≤ phiQ q y := phiQ_mono q hxy
  rw [phiQ_succ_alive hx] at h1
  omega

theorem phiQ_inj_alive {q : List Nat} {x y : Nat} (hx : x ∉ q) (hy : y ∉ q)
    (h : phiQ q x = phiQ q y) : x = y := by
  rcases Nat.lt_trichotomy x y with hlt | heq | hgt
  · have := phiQ_lt_of_alive_lt hx hlt; omega
  · exact heq
  · have := phiQ_lt_of_alive_lt hy hgt; omega

theorem phiQ_eq_self {q : List Nat} {x : Nat} (h : ∀ j, j < x → j ∉ q) :
    phiQ q x = x := by
  induction x with
  | zero => simp [phiQ, aliveIdx]
  | succ x ih =>
      have hx : x ∉ q := h x (Nat.lt_succ_self x)
      rw [phiQ_succ_alive hx, ih (fun j hj => h j (by omega))]

theorem aliveIdx_getD_phi {q : List Nat} {x k : Nat} (hx : x ∉ q)
    (hxk : x < k) : (aliveIdx q k).getD (phiQ q x) 0 = x := by
  induction k with
  | zero => omega
  | succ k ih =>
      by_cases hk : k ∈ q
      · rw [aliveIdx_succ_dead hk]
        have hxk' : x < k := by
          rcases Nat.lt_or_ge x k with hh | hh
          · exact hh
          · have : x = k := by omega
            subst this
            exact absurd hk hx
        exact ih hxk'
      · rw [aliveIdx_succ_alive hk]
        rcases Nat.lt_or_ge x k with hh | hh
        · rw [getD_append_lt _ (by
            show phiQ q x < (aliveIdx q k).length
            exact phiQ_lt_of_alive_lt hx hh)]
          exact ih hh
        · have hxe : x = k := by omega
          subst hxe
          show (aliveIdx q x ++ [x]).getD (phiQ q x) 0 = x
          have : phiQ q x = (aliveIdx q x).length := rfl
          rw [this]
          exact getD_append_len _ _

/-- Folding the same point-modification over a duplicate-free index list is a
pointwise update. -/
theorem foldl_modify_getD {α : Type} (f : α → α) {L : List Nat}
    (hL : L.Nodup) (l : List α) (d : α) (x : Nat) :
    (L.foldl (fun acc i => listModify acc i f) l).getD x d =
      if x ∈ L ∧ x < l.length then f (l.getD x d) else l.getD x d := by
  induction L generalizing l with
  | nil => simp
  | cons e L ih =>
      have hL' := List.nodup_cons.mp hL
      rw [List.foldl_cons, ih hL'.2]
      rw [listModify_length]
      by_cases hxe : x = e
      · subst hxe
        have hxL : x ∉ L := hL'.1
        by_cases hlt : x < l.length
        · simp only [hxL, false_and, if_false, List.mem_cons, true_or, hlt, and_true, if_true]
          exact listModify_getD_self _ _ hlt
        · simp only [hxL, false_and, if_false, List.mem_cons, true_or, hlt, and_false, if_false]
          rw [listModify_of_ge _ (Nat.le_of_not_lt hlt)]
      · rw [listModify_getD_ne _ _ hxe]
        by_cases hxL : x ∈ L
        · simp [hxL, hxe]
        · simp [hxL, hxe]

theorem foldl_modify_length {α : Type} (f : α → α) (L : List Nat)
    (l : List α) :
    (L.foldl (fun acc i => listModify acc i f) l).length = l.length := by
  induction L generalizing l with
  | nil => rfl
  | cons e L ih => rw [List.foldl_cons, ih, listModify_length]

/-! ### Facts about the sorted free queue -/

theorem mem_sortIds {q : List Nat} {x : Nat} : x ∈ sortIds q ↔ x ∈ q :=
  (List.perm_insertionSort _ q).mem_iff

theorem binary_search_contains_iff {q : List Nat} {x : Nat} :
    binary_search_contains (sortIds q) x = true ↔ x ∈ q := by
  unfold binary_search_contains
  rw [List.contains_iff_exists_mem_beq]
  constructor
  · rintro ⟨y, hy, hb⟩
    have : x = y := by simpa using hb
    subst this
    exact mem_sortIds.mp hy
  · intro hx
    exact ⟨x, mem_sortIds.mpr hx, by simp⟩

theorem sortIds_sorted (q : List Nat) : (sortIds q).Sorted (· ≤ ·) :=
  List.sorted_insertionSort _ q

/-- Every queue member is at least the head of the sorted queue. -/
theorem firstDead_le {q : List Nat} {x : Nat} (hx : x ∈ q) :
    (sortIds q).head?.getD sentinel ≤ x := by
  have hmem : x ∈ sortIds q := mem_sortIds.mpr hx
  cases hs : sortIds q with
  | nil => rw [hs] at hmem; cases hmem
  | cons h t =>
      have hsorted := sortIds_sorted q
      rw [hs] at hsorted hmem
      simp only [List.head?_cons, Option.getD_some]
      rcases List.mem_cons.mp hmem with rfl | hh
      · exact Nat.le_refl _
      · exact (List.sorted_cons.mp hsorted).1 x hh

/-- An index strictly below the first sorted queue entry is not queued. -/
theorem lt_firstDead_not_mem {q : List Nat} {x : Nat}
    (h : x < (sortIds q).head?.getD sentinel) : x ∉ q :=
  fun hx => absurd (firstDead_le hx) (by omega)

/-! ### Characterizing remove_dead_edges -/

/-- The alive edges with index below k, in index order. -/
def aliveEdgesUpto (g : AdjListGraph T) (k : Nat) : List Edge :=
  (aliveIdx g.empty_edge_slots k).map (fun j => g.edges.getD j Edge.cleared)

/-- Invariant of the remove_dead_edges walk after the slots below k have
been processed: the output holds the alive edges below k, and each incident
set holds the renumbered ids of its below-k members next to its untouched
at-least-k members. -/
def RdeInv (g : AdjListGraph T) (k : Nat) (st : List Edge × List (Node T)) :
    Prop :=
  st.1 = aliveEdgesUpto g k ∧
  st.2.length = g.nodes.length ∧
  (∀ m, m < g.nodes.length →
    (st.2.getD m Node.emptied).value = (g.nodeAt m).value) ∧
  (∀ m, m < g.nodes.length → ((st.2.getD m Node.emptied).edges).Nodup) ∧
  (∀ m, m < g.nodes.length → ∀ y,
    y ∈ (st.2.getD m Node.emptied).edges ↔
      ((∃ x ∈ (g.nodeAt m).edges, x < k ∧ y = phiQ g.empty_edge_slots x) ∨
       (y ∈ (g.nodeAt m).edges ∧ k ≤ y)))

theorem replace_getD_ne {nodes : List (Node T)} {m x : Nat}
    (old new : Nat) (hx : x ≠ m) :
    (replace_node_edges nodes m old new).getD x Node.emptied
      = nodes.getD x Node.emptied :=
  listModify_getD_ne _ _ hx

theorem replace_getD_mem {nodes : List (Node T)} {m : Nat} (old new : Nat)
    (hm : m < nodes.length)
    (hmem : old ∈ (nodes.getD m Node.emptied).edges) :
    (replace_node_edges nodes m old new).getD m Node.emptied
      = { nodes.getD m Node.emptied with
          edges := insertSet ((nodes.getD m Node.emptied).edges.erase old) new } := by
  unfold replace_node_edges
  rw [listModify_getD_self _ _ hm]
  simp only [List.elem_eq_true_of_mem hmem]
  rfl

theorem replace_getD_not_mem {nodes : List (Node T)} {m : Nat} (old new : Nat)
    (hmem : old ∉ (nodes.getD m Node.emptied).edges) :
    (replace_node_edges nodes m old new).getD m Node.emptied
      = nodes.getD m Node.emptied := by
  unfold replace_node_edges
  by_cases hm : m < nodes.length
  · rw [listModify_getD_self _ _ hm]
    have : ((nodes.getD m Node.emptied).edges.contains old) = false := by
      rw [List.contains_eq_any_beq]
      simp only [List.any_eq_false]
      intro x hx
      simp only [beq_iff_eq]
      intro hh
      exact hmem (hh ▸ hx)
    rw [this]
    rfl
  · rw [listModify_of_ge _ (Nat.le_of_not_lt hm)]

theorem replace_length {nodes : List (Node T)} (m old new : Nat) :
    (replace_node_edges nodes m old new).length = nodes.length := by
  unfold replace_node_edges
  exact listModify_length _ _ _

/-- Two successive endpoint replacements, described pointwise: the endpoints
get the old id swapped for the new one (once, even for a self-loop), all
other slots are untouched. -/
theorem double_replace_spec {T : Type} {nodes : List (Node T)} {A B k phi : Nat}
    (hA : A < nodes.length) (hB : B < nodes.length)
    (hkA : k ∈ (nodes.getD A Node.emptied).edges)
    (hkB : k ∈ (nodes.getD B Node.emptied).edges)
    (hnodup : ∀ m, m < nodes.length → ((nodes.getD m Node.emptied).edges).Nodup)
    (hphik : phi ≠ k) :
    ∀ m, m < nodes.length →
      (replace_node_edges (replace_node_edges nodes A k phi) B k phi).getD m
          Node.emptied
        = if m = A ∨ m = B
          then { nodes.getD m Node.emptied with
                 edges := insertSet ((nodes.getD m Node.emptied).edges.erase k) phi }
          else nodes.getD m Node.emptied := by
  intro m hm
  by_cases hmB : m = B
  · subst hmB
    by_cases hmA : m = A
    · subst hmA
      -- self-loop: the second replacement is a no-op
      rw [replace_getD_not_mem _ _ (by
        rw [replace_getD_mem _ _ hm hkA]
        show k ∉ insertSet _ phi
        rw [mem_insertSet]
        rintro (hh | hh)
        · exact hphik hh.symm
        · exact ((List.Nodup.mem_erase_iff (hnodup m hm)).mp hh).1 rfl)]
      rw [replace_getD_mem _ _ hm hkA]
      simp
    · rw [replace_getD_mem _ _ (by rw [replace_length]; exact hm) (by
        rw [replace_getD_ne _ _ (fun hh => hmA hh)]
        exact hkB)]
      rw [replace_getD_ne _ _ (fun hh => hmA hh)]
      simp
  · rw [replace_getD_ne _ _ hmB]
    by_cases hmA : m = A
    · subst hmA
      rw [replace_getD_mem _ _ hm hkA]
      simp
    · rw [replace_getD_ne _ _ hmA]
      simp [hmA, hmB]

theorem rde_step_inv {g : AdjListGraph T} (h : WF g) {k : Nat}
    (hk : k < g.edges.length) {st : List Edge × List (Node T)}
    (hinv : RdeInv g k st) :
    RdeInv g (k + 1)
      (rde_step (sortIds g.empty_edge_slots)
        ((sortIds g.empty_edge_slots).head?.getD sentinel) st
        (k, g.edges.getD k Edge.cleared)) := by
  obtain ⟨h1, h2, h3, h4, h5⟩ := hinv
  set q := g.empty_edge_slots with hq
  set F := (sortIds q).head?.getD sentinel with hF
  have hset_alive : ∀ m, m < g.nodes.length →
      ∀ x ∈ (g.nodeAt m).edges, x < g.edges.length ∧ x ∉ q := by
    intro m hm x hx
    obtain ⟨k1, k2, -⟩ := h.node_edges m hm x hx
    exact ⟨k1, k2⟩
  unfold rde_step
  by_cases hkF : k < F
  · -- slots before the first gap keep their id
    have hkq : k ∉ q := lt_firstDead_not_mem (hq ▸ hkF)
    have hphik : phiQ q k = k :=
      phiQ_eq_self (fun j hj => lt_firstDead_not_mem (by omega))
    simp only [hkF, if_true]
    refine ⟨?_, h2, h3, h4, ?_⟩
    · rw [h1]
      unfold aliveEdgesUpto
      rw [aliveIdx_succ_alive hkq, List.map_append]
      rfl
    · intro m hm y
      rw [h5 m hm y]
      constructor
      · rintro (⟨x, hx, hxk, rfl⟩ | ⟨hy, hky⟩)
        · exact Or.inl ⟨x, hx, by omega, rfl⟩
        · rcases Nat.lt_or_ge k y with hlt | hge
          · exact Or.inr ⟨hy, by omega⟩
          · have : y = k := by omega
            subst this
            exact Or.inl ⟨y, hy, by omega, by rw [hphik]⟩
      · rintro (⟨x, hx, hxk, rfl⟩ | ⟨hy, hky⟩)
        · rcases Nat.lt_or_ge x k with hlt | hge
          · exact Or.inl ⟨x, hx, hlt, rfl⟩
          · have : x = k := by omega
            subst this
            rw [hphik]
            exact Or.inr ⟨hx, Nat.le_refl _⟩
        · exact Or.inr ⟨hy, by omega⟩
  · simp only [hkF, if_false]
    by_cases hdead : k ∈ q
    · -- dead slot: skipped
      rw [if_pos (binary_search_contains_iff.mpr hdead)]
      refine ⟨?_, h2, h3, h4, ?_⟩
      · rw [h1]
        unfold aliveEdgesUpto
        rw [aliveIdx_succ_dead hdead]
      · intro m hm y
        rw [h5 m hm y]
        have hxne : ∀ x ∈ (g.nodeAt m).edges, x ≠ k :=
          fun x hx hh => (hset_alive m hm x hx).2 (hh ▸ hdead)
        constructor
        · rintro (⟨x, hx, hxk, rfl⟩ | ⟨hy, hky⟩)
          · exact Or.inl ⟨x, hx, by omega, rfl⟩
          · have := hxne y hy
            exact Or.inr ⟨hy, by omega⟩
        · rintro (⟨x, hx, hxk, rfl⟩ | ⟨hy, hky⟩)
          · have := hxne x hx
            exact Or.inl ⟨x, hx, by omega, rfl⟩
          · exact Or.inr ⟨hy, by omega⟩
    · -- alive slot at or past the first gap: renumber
      rw [if_neg (fun hc => hdead (binary_search_contains_iff.mp hc))]
      rw [show g.edges.getD k Edge.cleared = g.edgeAt k from rfl]
      have hFq : F ∈ q := by
        cases hs : sortIds q with
        | nil =>
            exfalso
            have hsen : F = sentinel := by rw [hF, hs]; rfl
            have := h.edges_le
            omega
        | cons a t =>
            have hFa : F = a := by rw [hF, hs]; rfl
            rw [hFa]
            exact mem_sortIds.mp (by rw [hs]; exact List.mem_cons_self _ _)
      have hFk : F < k := by
        have := firstDead_le hFq
        rcases Nat.lt_or_ge F k with hh | hh
        · exact hh
        · have hFkeq : F = k := by omega
          exact absurd (hFkeq ▸ hFq) hdead
      have hphik_lt : phiQ q k < k := by
        unfold phiQ aliveIdx
        have hcount : ((List.range k).filter (fun j => !(q.contains j))).length
            < (List.range k).length := by
          apply List.length_filter_lt_length_iff_exists.mpr
          exact ⟨F, List.mem_range.mpr hFk, by simpa using hFq⟩
        simpa using hcount
      have hlen1 : st.1.length = phiQ q k := by
        rw [h1]
        unfold aliveEdgesUpto phiQ
        simp
      obtain ⟨⟨⟨hAlt, hAq⟩, hAmem⟩, ⟨hBlt, hBq⟩, hBmem⟩ :=
        h.edge_alive k hk hdead
      have hkSA : k ∈ (st.2.getD (g.edgeAt k).node_a
          Node.emptied).edges := by
        rw [h5 _ hAlt k]
        exact Or.inr ⟨hAmem, Nat.le_refl _⟩
      have hkSB : k ∈ (st.2.getD (g.edgeAt k).node_b
          Node.emptied).edges := by
        rw [h5 _ hBlt k]
        exact Or.inr ⟨hBmem, Nat.le_refl _⟩
      have hdr := @double_replace_spec T st.2
        ((g.edgeAt k).node_a) ((g.edgeAt k).node_b) k st.1.length
        (by omega) (by omega) hkSA hkSB
        (by
          intro m hm
          exact h4 m (by omega))
        (by rw [hlen1]; omega)
      refine ⟨?_, ?_, ?_, ?_, ?_⟩
      · show st.1 ++ [g.edgeAt k] = _
        rw [h1]
        unfold aliveEdgesUpto
        rw [aliveIdx_succ_alive hdead, List.map_append]
        rfl
      · show (replace_node_edges (replace_node_edges st.2 _ k st.1.length)
          _ k st.1.length).length = g.nodes.length
        rw [replace_length, replace_length, h2]
      · intro m hm
        show ((replace_node_edges (replace_node_edges st.2 _ k st.1.length)
          _ k st.1.length).getD m Node.emptied).value = _
        rw [hdr m (by omega)]
        split
        · exact h3 m hm
        · exact h3 m hm
      · intro m hm
        show (((replace_node_edges (replace_node_edges st.2 _ k st.1.length)
          _ k st.1.length).getD m Node.emptied).edges).Nodup
        rw [hdr m (by omega)]
        split
        · exact insertSet_nodup ((h4 m hm).erase k)
        · exact h4 m hm
      · intro m hm y
        show y ∈ ((replace_node_edges (replace_node_edges st.2 _ k st.1.length)
          _ k st.1.length).getD m Node.emptied).edges ↔ _
        rw [hdr m (by omega), hlen1]
        simp only [← hq]
        by_cases hmAB : m = (g.edgeAt k).node_a ∨
            m = (g.edgeAt k).node_b
        · rw [if_pos hmAB]
          have hkm : k ∈ (g.nodeAt m).edges := by
            rcases hmAB with rfl | rfl
            · exact hAmem
            · exact hBmem
          rw [mem_insertSet, (h4 m hm).mem_erase_iff]
          constructor
          · rintro (rfl | ⟨hyk, hyS⟩)
            · exact Or.inl ⟨k, hkm, by omega, rfl⟩
            · rw [h5 m hm y] at hyS
              rcases hyS with ⟨x, hx, hxk, rfl⟩ | ⟨hyg, hky⟩
              · exact Or.inl ⟨x, hx, by omega, rfl⟩
              · exact Or.inr ⟨hyg, by omega⟩
          · rintro (⟨x, hx, hxk, rfl⟩ | ⟨hyg, hky⟩)
            · rcases Nat.lt_or_ge x k with hxlt | hxge
              · refine Or.inr ⟨?_, ?_⟩
                · have := phiQ_mono q (Nat.succ_le_of_lt hxlt)
                  have hxq := (hset_alive m hm x hx).2
                  rw [phiQ_succ_alive hxq] at this
                  omega
                · rw [h5 m hm]
                  exact Or.inl ⟨x, hx, hxlt, rfl⟩
              · have hxkeq : x = k := by omega
                subst hxkeq
                exact Or.inl rfl
            · refine Or.inr ⟨by omega, ?_⟩
              rw [h5 m hm]
              exact Or.inr ⟨hyg, by omega⟩
        · rw [if_neg hmAB]
          push_neg at hmAB
          have hknotm : k ∉ (g.nodeAt m).edges := by
            intro hkm
            obtain ⟨-, -, hend⟩ := h.node_edges m hm k hkm
            rcases hend with hh | hh
            · exact hmAB.1 hh.symm
            · exact hmAB.2 hh.symm
          rw [h5 m hm y]
          constructor
          · rintro (⟨x, hx, hxk, rfl⟩ | ⟨hy, hky⟩)
            · exact Or.inl ⟨x, hx, by omega, rfl⟩
            · have hyk : y ≠ k := fun hh => hknotm (hh ▸ hy)
              exact Or.inr ⟨hy, by omega⟩
          · rintro (⟨x, hx, hxk, rfl⟩ | ⟨hy, hky⟩)
            · have hxk' : x ≠ k := fun hh => hknotm (hh ▸ hx)
              exact Or.inl ⟨x, hx, by omega, rfl⟩
            · exact Or.inr ⟨hy, by omega⟩

theorem rde_walk {g : AdjListGraph T} (h : WF g) (s : List Edge) :
    ∀ (k : Nat) (st : List Edge × List (Node T)), g.edges.drop k = s →
      k ≤ g.edges.length → RdeInv g k st →
      RdeInv g g.edges.length
        ((s.enumFrom k).foldl
          (rde_step (sortIds g.empty_edge_slots)
            ((sortIds g.empty_edge_slots).head?.getD sentinel)) st) := by
  induction s with
  | nil =>
      intro k st hdrop hk hinv
      have : g.edges.length ≤ k := by
        have := List.drop_eq_nil_iff.mp hdrop
        omega
      have hkeq : k = g.edges.length := by omega
      subst hkeq
      exact hinv
  | cons e s ih =>
      intro k st hdrop hk hinv
      have hklt : k < g.edges.length := by
        rcases Nat.lt_or_ge k g.edges.length with hh | hh
        · exact hh
        · rw [List.drop_eq_nil_iff.mpr hh] at hdrop
          cases hdrop
      have hget : g.edges.getD k Edge.cleared = e := by
        have h0 : g.edges.drop k = e :: s := hdrop
        have : (g.edges.drop k).head? = some e := by rw [h0]; rfl
        rw [List.head?_drop] at this
        rw [List.getD_eq_getElem?_getD, this]
        rfl
      have hdrop' : g.edges.drop (k + 1) = s := by
        have : g.edges.drop (k + 1) = (g.edges.drop k).drop 1 := by
          rw [List.drop_drop]
        rw [this, hdrop]
        rfl
      have hstep := rde_step_inv h hklt hinv
      rw [hget] at hstep
      exact ih (k + 1) _ hdrop' (by omega) hstep

/-- Full characterization of remove_dead_edges on a well-formed graph. -/
theorem remove_dead_edges_spec {g : AdjListGraph T} (h : WF g) :
    g.remove_dead_edges.nodes.length = g.nodes.length ∧
    g.remove_dead_edges.edges = g.aliveEdgesUpto g.edges.length ∧
    g.remove_dead_edges.empty_edge_slots = [] ∧
    g.remove_dead_edges.empty_node_slots = g.empty_node_slots ∧
    (∀ m, m < g.nodes.length →
      (g.remove_dead_edges.nodeAt m).value = (g.nodeAt m).value) ∧
    (∀ m, m < g.nodes.length → ((g.remove_dead_edges.nodeAt m).edges).Nodup) ∧
    (∀ m, m < g.nodes.length → ∀ y,
      y ∈ (g.remove_dead_edges.nodeAt m).edges ↔
        ∃ x ∈ (g.nodeAt m).edges, y = phiQ g.empty_edge_slots x) := by
  have hinit : RdeInv g 0 ([], g.nodes) := by
    refine ⟨?_, rfl, fun m hm => rfl, fun m hm => h.sets_nodup m hm, ?_⟩
    · unfold aliveEdgesUpto aliveIdx
      simp
    · intro m hm y
      constructor
      · intro hy
        exact Or.inr ⟨hy, Nat.zero_le _⟩
      · rintro (⟨x, hx, hxk, rfl⟩ | ⟨hy, -⟩)
        · omega
        · exact hy
  have hwalk := rde_walk h g.edges 0 ([], g.nodes) (by simp)
    (Nat.zero_le _) hinit
  obtain ⟨w1, w2, w3, w4, w5⟩ := hwalk
  have hGdef : g.remove_dead_edges = withParts g
      ((g.edges.enumFrom 0).foldl
        (rde_step (sortIds g.empty_edge_slots)
          ((sortIds g.empty_edge_slots).head?.getD sentinel)) ([], g.nodes)).2
      ((g.edges.enumFrom 0).foldl
        (rde_step (sortIds g.empty_edge_slots)
          ((sortIds g.empty_edge_slots).head?.getD sentinel)) ([], g.nodes)).1
      [] g.empty_node_slots := rfl
  rw [hGdef]
  refine ⟨?_, w1, rfl, rfl, ?_, ?_, ?_⟩
  · show ((g.edges.enumFrom 0).foldl _ ([], g.nodes)).2.length = _
    exact w2
  · intro m hm
    exact w3 m hm
  · intro m hm
    exact w4 m hm
  · intro m hm y
    show y ∈ (((g.edges.enumFrom 0).foldl _ ([], g.nodes)).2.getD m Node.emptied).edges ↔ _
    rw [w5 m hm y]
    constructor
    · rintro (⟨x, hx, -, rfl⟩ | ⟨hy, hky⟩)
      · exact ⟨x, hx, rfl⟩
      · have := (h.node_edges m hm y hy).1
        omega
    · rintro ⟨x, hx, rfl⟩
      exact Or.inl ⟨x, hx, (h.node_edges m hm x hx).1, rfl⟩

/-! ### Characterizing remove_dead_nodes -/

/-- The alive nodes with index below k, in index order. -/
def aliveNodesUpto (g : AdjListGraph T) (k : Nat) : List (Node T) :=
  (aliveIdx g.empty_node_slots k).map (fun j => g.nodes.getD j Node.emptied)

/-- The value an endpoint field holds once the walk has passed k: endpoints
of already-renumbered nodes hold the new id, the rest still hold the old
one. -/
def endUpto (g : AdjListGraph T) (k v : Nat) : Nat :=
  if v < k then phiQ g.empty_node_slots v else v

/-- Invariant of the remove_dead_nodes walk after the slots below k have
been processed. -/
def RdnInv (g : AdjListGraph T) (k : Nat) (st : List (Node T) × List Edge) :
    Prop :=
  st.1 = g.aliveNodesUpto k ∧
  st.2.length = g.edges.length ∧
  (∀ x, x < g.edges.length → x ∈ g.empty_edge_slots →
    st.2.getD x Edge.cleared = g.edgeAt x) ∧
  (∀ x, x < g.edges.length → x ∉ g.empty_edge_slots →
    st.2.getD x Edge.cleared =
      { weight := (g.edgeAt x).weight,
        node_a := g.endUpto k (g.edgeAt x).node_a,
        node_b := g.endUpto k (g.edgeAt x).node_b })

theorem endUpto_eq_of_ne {g : AdjListGraph T} {k v : Nat}
    (hvk : v ≠ k) :
    g.endUpto (k + 1) v = g.endUpto k v := by
  unfold endUpto
  rcases Nat.lt_trichotomy v k with hh | hh | hh
  · rw [if_pos (by omega), if_pos hh]
  · exact absurd hh hvk
  · rw [if_neg (by omega), if_neg (by omega)]

theorem endUpto_self {g : AdjListGraph T} {k : Nat} :
    g.endUpto (k + 1) k = phiQ g.empty_node_slots k := by
  unfold endUpto
  rw [if_pos (by omega)]

theorem endUpto_at_k {g : AdjListGraph T} {k : Nat} :
    g.endUpto k k = k := by
  unfold endUpto
  rw [if_neg (by omega)]

theorem endUpto_ne_k {g : AdjListGraph T} {k v : Nat} (hvk : v ≠ k) :
    g.endUpto k v ≠ k := by
  unfold endUpto
  split
  · intro hc
    have := phiQ_le g.empty_node_slots v
    rename_i hlt
    omega
  · exact hvk

theorem rdn_step_inv {g : AdjListGraph T} (h : WF g) {k : Nat}
    (hk : k < g.nodes.length) {st : List (Node T) × List Edge}
    (hinv : RdnInv g k st) :
    RdnInv g (k + 1)
      (rdn_step (sortIds g.empty_node_slots)
        ((sortIds g.empty_node_slots).head?.getD sentinel) st
        (k, g.nodes.getD k Node.emptied)) := by
  obtain ⟨h1, h2, h3, h4⟩ := hinv
  have hend_alive : ∀ x, x < g.edges.length → x ∉ g.empty_edge_slots →
      (g.edgeAt x).node_a ∉ g.empty_node_slots ∧
        (g.edgeAt x).node_b ∉ g.empty_node_slots := by
    intro x hx hxq
    obtain ⟨⟨⟨-, hA⟩, -⟩, ⟨-, hB⟩, -⟩ := h.edge_alive x hx hxq
    exact ⟨hA, hB⟩
  unfold rdn_step
  by_cases hkF : k < (sortIds g.empty_node_slots).head?.getD sentinel
  · have hkq : k ∉ g.empty_node_slots := lt_firstDead_not_mem hkF
    have hphik : phiQ g.empty_node_slots k = k :=
      phiQ_eq_self (fun j hj => lt_firstDead_not_mem (by omega))
    simp only [hkF, if_true]
    refine ⟨?_, h2, h3, ?_⟩
    · rw [h1]
      unfold aliveNodesUpto
      rw [aliveIdx_succ_alive hkq, List.map_append]
      rfl
    · intro x hx hxq
      rw [h4 x hx hxq]
      have hEnd : ∀ v, v ≠ k → g.endUpto (k + 1) v = g.endUpto k v :=
        fun v hv => endUpto_eq_of_ne hv
      by_cases hAk : (g.edgeAt x).node_a = k
      · by_cases hBk : (g.edgeAt x).node_b = k
        · rw [hAk, hBk, endUpto_self, endUpto_at_k, hphik]
        · rw [hAk, endUpto_self, endUpto_at_k, hphik, hEnd _ hBk]
      · by_cases hBk : (g.edgeAt x).node_b = k
        · rw [hBk, endUpto_self, endUpto_at_k, hphik, hEnd _ hAk]
        · rw [hEnd _ hAk, hEnd _ hBk]
  · simp only [hkF, if_false]
    by_cases hdead : k ∈ g.empty_node_slots
    · rw [if_pos (binary_search_contains_iff.mpr hdead)]
      refine ⟨?_, h2, h3, ?_⟩
      · rw [h1]
        unfold aliveNodesUpto
        rw [aliveIdx_succ_dead hdead]
      · intro x hx hxq
        rw [h4 x hx hxq]
        obtain ⟨hAq, hBq⟩ := hend_alive x hx hxq
        have hAk : (g.edgeAt x).node_a ≠ k := fun hh => hAq (hh ▸ hdead)
        have hBk : (g.edgeAt x).node_b ≠ k := fun hh => hBq (hh ▸ hdead)
        rw [endUpto_eq_of_ne hAk, endUpto_eq_of_ne hBk]
    · rw [if_neg (fun hc => hdead (binary_search_contains_iff.mp hc))]
      have hlen1 : st.1.length = phiQ g.empty_node_slots k := by
        rw [h1]
        unfold aliveNodesUpto phiQ
        simp
      have hset := h.node_edges k hk
      have hsetnodup := h.sets_nodup k hk
      have hnodeAtk : g.nodes.getD k Node.emptied = g.nodeAt k := rfl
      refine ⟨?_, ?_, ?_, ?_⟩
      · show st.1 ++ [g.nodes.getD k Node.emptied] = _
        rw [h1]
        unfold aliveNodesUpto
        rw [aliveIdx_succ_alive hdead, List.map_append]
        rfl
      · show ((g.nodes.getD k Node.emptied).edges.foldl _ st.2).length = _
        rw [foldl_modify_length, h2]
      · intro x hx hxq
        show ((g.nodes.getD k Node.emptied).edges.foldl _ st.2).getD x Edge.cleared = _
        rw [foldl_modify_getD _ (hnodeAtk ▸ hsetnodup) st.2 Edge.cleared x]
        have hxnot : x ∉ (g.nodes.getD k Node.emptied).edges := by
          rw [hnodeAtk]
          intro hmem
          exact (hset x hmem).2.1 hxq
        rw [if_neg (fun hc => hxnot hc.1)]
        exact h3 x hx hxq
      · intro x hx hxq
        show ((g.nodes.getD k Node.emptied).edges.foldl _ st.2).getD x Edge.cleared = _
        rw [foldl_modify_getD _ (hnodeAtk ▸ hsetnodup) st.2 Edge.cleared x]
        obtain ⟨hAq, hBq⟩ := hend_alive x hx hxq
        have hold := h4 x hx hxq
        by_cases hxk : x ∈ (g.nodes.getD k Node.emptied).edges
        · rw [if_pos ⟨hxk, by omega⟩, hold]
          rw [hnodeAtk] at hxk
          have hender := (hset x hxk).2.2
          by_cases hAk : (g.edgeAt x).node_a = k
          · by_cases hBk : (g.edgeAt x).node_b = k
            · rw [hAk, hBk, endUpto_at_k, endUpto_self]
              simp [hlen1]
            · have e2 : g.endUpto k (g.edgeAt x).node_b ≠ k := endUpto_ne_k hBk
              rw [hAk, endUpto_at_k, endUpto_self, endUpto_eq_of_ne hBk]
              simp [hlen1, e2]
          · by_cases hBk : (g.edgeAt x).node_b = k
            · have e1 : g.endUpto k (g.edgeAt x).node_a ≠ k := endUpto_ne_k hAk
              rw [hBk, endUpto_at_k, endUpto_self, endUpto_eq_of_ne hAk]
              simp [hlen1, e1]
            · rcases hender with hh | hh
              · exact absurd hh hAk
              · exact absurd hh hBk
        · rw [if_neg (fun hc => hxk hc.1), hold]
          rw [hnodeAtk] at hxk
          have hAk : (g.edgeAt x).node_a ≠ k := by
            intro hc
            obtain ⟨⟨-, hmem⟩, -⟩ := h.edge_alive x hx hxq
            exact hxk (hc ▸ hmem)
          have hBk : (g.edgeAt x).node_b ≠ k := by
            intro hc
            obtain ⟨-, -, hmem⟩ := h.edge_alive x hx hxq
            exact hxk (hc ▸ hmem)
          rw [endUpto_eq_of_ne hAk, endUpto_eq_of_ne hBk]

theorem rdn_walk {g : AdjListGraph T} (h : WF g) (s : List (Node T)) :
    ∀ (k : Nat) (st : List (Node T) × List Edge), g.nodes.drop k = s →
      k ≤ g.nodes.length → RdnInv g k st →
      RdnInv g g.nodes.length
        ((s.enumFrom k).foldl
          (rdn_step (sortIds g.empty_node_slots)
            ((sortIds g.empty_node_slots).head?.getD sentinel)) st) := by
  induction s with
  | nil =>
      intro k st hdrop hk hinv
      have : g.nodes.length ≤ k := by
        have := List.drop_eq_nil_iff.mp hdrop
        omega
      have hkeq : k = g.nodes.length := by omega
      subst hkeq
      exact hinv
  | cons e s ih =>
      intro k st hdrop hk hinv
      have hklt : k < g.nodes.length := by
        rcases Nat.lt_or_ge k g.nodes.length with hh | hh
        · exact hh
        · rw [List.drop_eq_nil_iff.mpr hh] at hdrop
          cases hdrop
      have hget : g.nodes.getD k Node.emptied = e := by
        have h0 : g.nodes.drop k = e :: s := hdrop
        have : (g.nodes.drop k).head? = some e := by rw [h0]; rfl
        rw [List.head?_drop] at this
        rw [List.getD_eq_getElem?_getD, this]
        rfl
      have hdrop' : g.nodes.drop (k + 1) = s := by
        have : g.nodes.drop (k + 1) = (g.nodes.drop k).drop 1 := by
          rw [List.drop_drop]
        rw [this, hdrop]
        rfl
      have hstep := rdn_step_inv h hklt hinv
      rw [hget] at hstep
      exact ih (k + 1) _ hdrop' (by omega) hstep

/-- Full characterization of remove_dead_nodes on a well-formed graph. -/
theorem remove_dead_nodes_spec {g : AdjListGraph T} (h : WF g) :
    g.remove_dead_nodes.nodes = g.aliveNodesUpto g.nodes.length ∧
    g.remove_dead_nodes.edges.length = g.edges.length ∧
    g.remove_dead_nodes.empty_node_slots = [] ∧
    g.remove_dead_nodes.empty_edge_slots = g.empty_edge_slots ∧
    (∀ x, x < g.edges.length → x ∈ g.empty_edge_slots →
      g.remove_dead_nodes.edgeAt x = g.edgeAt x) ∧
    (∀ x, x < g.edges.length → x ∉ g.empty_edge_slots →
      g.remove_dead_nodes.edgeAt x =
        { weight := (g.edgeAt x).weight,
          node_a := phiQ g.empty_node_slots (g.edgeAt x).node_a,
          node_b := phiQ g.empty_node_slots (g.edgeAt x).node_b }) := by
  have hinit : RdnInv g 0 ([], g.edges) := by
    refine ⟨?_, rfl, fun x hx hxq => rfl, ?_⟩
    · unfold aliveNodesUpto aliveIdx
      simp
    · intro x hx hxq
      show g.edgeAt x = _
      have hA : g.endUpto 0 (g.edgeAt x).node_a = (g.edgeAt x).node_a := by
        unfold endUpto
        rw [if_neg (by omega)]
      have hB : g.endUpto 0 (g.edgeAt x).node_b = (g.edgeAt x).node_b := by
        unfold endUpto
        rw [if_neg (by omega)]
      rw [hA, hB]
  have hwalk := rdn_walk h g.nodes 0 ([], g.edges) (by simp)
    (Nat.zero_le _) hinit
  obtain ⟨w1, w2, w3, w4⟩ := hwalk
  have hGdef : g.remove_dead_nodes = withParts g
      ((g.nodes.enumFrom 0).foldl
        (rdn_step (sortIds g.empty_node_slots)
          ((sortIds g.empty_node_slots).head?.getD sentinel)) ([], g.edges)).1
      ((g.nodes.enumFrom 0).foldl
        (rdn_step (sortIds g.empty_node_slots)
          ((sortIds g.empty_node_slots).head?.getD sentinel)) ([], g.edges)).2
      g.empty_edge_slots [] := rfl
  rw [hGdef]
  refine ⟨w1, ?_, rfl, rfl, ?_, ?_⟩
  · show ((g.nodes.enumFrom 0).foldl _ ([], g.edges)).2.length = _
    exact w2
  · intro x hx hxq
    exact w3 x hx hxq
  · intro x hx hxq
    show ((g.nodes.enumFrom 0).foldl _ ([], g.edges)).2.getD x Edge.cleared = _
    rw [w4 x hx hxq]
    have hAlt : (g.edgeAt x).node_a < g.nodes.length :=
      ((h.edge_alive x hx hxq).1.1).1
    have hBlt : (g.edgeAt x).node_b < g.nodes.length :=
      ((h.edge_alive x hx hxq).2.1).1
    have hA : g.endUpto g.nodes.length (g.edgeAt x).node_a
        = phiQ g.empty_node_slots (g.edgeAt x).node_a := by
      unfold endUpto
      rw [if_pos hAlt]
    have hB : g.endUpto g.nodes.length (g.edgeAt x).node_b
        = phiQ g.empty_node_slots (g.edgeAt x).node_b := by
      unfold endUpto
      rw [if_pos hBlt]
    rw [hA, hB]

theorem map_getD_range {α : Type} (l : List α) (d : α) :
    (List.range l.length).map (fun j => l.getD j d) = l := by
  apply List.ext_getElem
  · simp
  · intro i h1 h2
    simp only [List.getElem_map, List.getElem_range]
    rw [List.getD_eq_getElem?_getD, List.getElem?_eq_getElem h2]
    rfl

theorem phiQ_nil (x : Nat) : phiQ [] x = x :=
  phiQ_eq_self (fun j _ hj => by cases hj)

theorem aliveIdx_nil (k : Nat) : aliveIdx [] k = List.range k := by
  unfold aliveIdx
  rw [List.filter_eq_self.mpr]
  intro a _
  simp

/-- Surjectivity of the renumbering onto the compact range. -/
theorem phiQ_surj {q : List Nat} {k i : Nat} (hi : i < phiQ q k) :
    ∃ x, x ∉ q ∧ x < k ∧ phiQ q x = i := by
  induction k with
  | zero => simp [phiQ, aliveIdx] at hi
  | succ k ih =>
      by_cases hk : k ∈ q
      · rw [phiQ_succ_dead hk] at hi
        obtain ⟨x, h1, h2, h3⟩ := ih hi
        exact ⟨x, h1, by omega, h3⟩
      · rw [phiQ_succ_alive hk] at hi
        rcases Nat.lt_or_ge i (phiQ q k) with hh | hh
        · obtain ⟨x, h1, h2, h3⟩ := ih hh
          exact ⟨x, h1, by omega, h3⟩
        · have : i = phiQ q k := by omega
          subst this
          exact ⟨k, hk, by omega, rfl⟩

/-- find? returns the element at the first index satisfying the predicate. -/
theorem find_eq_getD_of_first {α : Type} {p : α → Bool} {l : List α} {x : Nat}
    (d : α) (hx : x < l.length) (hpx : p (l.getD x d) = true)
    (hbefore : ∀ j, j < x → p (l.getD j d) = false) :
    l.find? p = some (l.getD x d) := by
  induction l generalizing x with
  | nil => simp at hx
  | cons a l ih =>
      cases x with
      | zero =>
          exact List.find?_cons_of_pos _ hpx
      | succ x =>
          have h0 : p a = false := by
            have := hbefore 0 (by omega)
            simpa using this
          rw [List.find?_cons_of_neg _ (by simp [h0])]
          exact @ih x (by simpa using hx) (by simpa using hpx)
            (fun j hj => by simpa using hbefore (j + 1) (by omega))

/-- The edge id held at new position phi x in the compacted edge list is the
old edge at x. -/
theorem aliveEdgesUpto_getD {g : AdjListGraph T} {x k : Nat}
    (hx : x ∉ g.empty_edge_slots) (hxk : x < k) :
    (g.aliveEdgesUpto k).getD (phiQ g.empty_edge_slots x) Edge.cleared
      = g.edges.getD x Edge.cleared := by
  unfold aliveEdgesUpto
  have hlt : phiQ g.empty_edge_slots x < (aliveIdx g.empty_edge_slots k).length :=
    phiQ_lt_of_alive_lt hx hxk
  rw [getD_map _ 0 Edge.cleared hlt, aliveIdx_getD_phi hx hxk]

/-- Same, for the compacted node list. -/
theorem aliveNodesUpto_getD {g : AdjListGraph T} {x k : Nat}
    (hx : x ∉ g.empty_node_slots) (hxk : x < k) :
    (g.aliveNodesUpto k).getD (phiQ g.empty_node_slots x) Node.emptied
      = g.nodes.getD x Node.emptied := by
  unfold aliveNodesUpto
  have hlt : phiQ g.empty_node_slots x < (aliveIdx g.empty_node_slots k).length :=
    phiQ_lt_of_alive_lt hx hxk
  rw [getD_map _ 0 Node.emptied hlt, aliveIdx_getD_phi hx hxk]

theorem aliveEdgesUpto_length (g : AdjListGraph T) (k : Nat) :
    (g.aliveEdgesUpto k).length = phiQ g.empty_edge_slots k := by
  unfold aliveEdgesUpto phiQ
  simp

theorem aliveNodesUpto_length (g : AdjListGraph T) (k : Nat) :
    (g.aliveNodesUpto k).length = phiQ g.empty_node_slots k := by
  unfold aliveNodesUpto phiQ
  simp

/-! ### The guarded passes of remove_dead_values -/

/-- The edge pass as remove_dead_values runs it: skipped when the free queue
is empty. -/
def edgePass (g : AdjListGraph T) : AdjListGraph T :=
  if g.empty_edge_slots.isEmpty then g else g.remove_dead_edges

/-- The node pass as remove_dead_values runs it. -/
def nodePass (g : AdjListGraph T) : AdjListGraph T :=
  if g.empty_node_slots.isEmpty then g else g.remove_dead_nodes

theorem remove_dead_values_eq (g : AdjListGraph T) :
    g.remove_dead_values = nodePass (edgePass g) := rfl

/-- Whether run or skipped, the edge pass renumbers the edge sequence by phi,
clears the edge queue, and rewrites every incident set through phi. -/
theorem edgePass_spec {g : AdjListGraph T} (h : WF g) :
    (edgePass g).nodes.length = g.nodes.length ∧
    (edgePass g).edges.length = phiQ g.empty_edge_slots g.edges.length ∧
    (edgePass g).empty_edge_slots = [] ∧
    (edgePass g).empty_node_slots = g.empty_node_slots ∧
    (∀ m, m < g.nodes.length →
      ((edgePass g).nodeAt m).value = (g.nodeAt m).value) ∧
    (∀ m, m < g.nodes.length → (((edgePass g).nodeAt m).edges).Nodup) ∧
    (∀ m, m < g.nodes.length → ∀ y,
      y ∈ ((edgePass g).nodeAt m).edges ↔
        ∃ x ∈ (g.nodeAt m).edges, y = phiQ g.empty_edge_slots x) ∧
    (∀ x, x ∉ g.empty_edge_slots → x < g.edges.length →
      (edgePass g).edgeAt (phiQ g.empty_edge_slots x) = g.edgeAt x) := by
  unfold edgePass
  by_cases hq : g.empty_edge_slots.isEmpty
  · have hq' : g.empty_edge_slots = [] := by
      simpa [List.isEmpty_iff] using hq
    rw [if_pos hq]
    refine ⟨rfl, ?_, hq', rfl, fun m hm => rfl, fun m hm => h.sets_nodup m hm,
      ?_, ?_⟩
    · rw [hq', phiQ_nil]
    · intro m hm y
      constructor
      · intro hy
        exact ⟨y, hy, by rw [hq', phiQ_nil]⟩
      · rintro ⟨x, hx, rfl⟩
        rw [hq', phiQ_nil]
        exact hx
    · intro x hx hxl
      rw [hq', phiQ_nil]
  · rw [if_neg hq]
    obtain ⟨s1, s2, s3, s4, s5, s6, s7⟩ := remove_dead_edges_spec h
    refine ⟨s1, ?_, s3, s4, s5, s6, s7, ?_⟩
    · rw [s2, aliveEdgesUpto_length]
    · intro x hx hxl
      show g.remove_dead_edges.edges.getD _ Edge.cleared = _
      rw [s2]
      exact aliveEdgesUpto_getD hx hxl

/-- A node whose payload is gone and whose incident set is empty is the
tombstone record. -/
theorem node_eq_emptied {n : Node T} (h1 : n.value = none)
    (h2 : n.edges = []) : n = Node.emptied := by
  cases n
  simp only [Node.emptied]
  simp_all

/-- The edge pass preserves the invariants. -/
theorem wf_edgePass {g : AdjListGraph T} (h : WF g) : WF (edgePass g) := by
  obtain ⟨c1, c2, c3, c4, c5, c6, c7, c8⟩ := edgePass_spec h
  refine ⟨?_, ?_, ?_, ?_, ?_, ?_, ?_, ?_, ?_, ?_⟩
  · rw [c4]; exact h.nq_nodup
  · rw [c3]; exact List.nodup_nil
  · intro i hi
    rw [c4] at hi
    obtain ⟨hil, hie⟩ := h.nq_dead i hi
    refine ⟨by omega, node_eq_emptied ?_ ?_⟩
    · rw [c5 i hil, hie]
      rfl
    · rw [List.eq_nil_iff_forall_not_mem]
      intro y hy
      obtain ⟨x, hx, -⟩ := (c7 i hil y).mp hy
      rw [hie] at hx
      simp [Node.emptied] at hx
  · intro i hi
    rw [c3] at hi
    cases hi
  · intro i hi hiq
    rw [c1] at hi
    rw [c4] at hiq
    rw [c5 i hi]
    exact h.node_alive i hi hiq
  · intro i hi _
    rw [c2] at hi
    obtain ⟨x, hxq, hxl, rfl⟩ := phiQ_surj hi
    rw [c8 x hxq hxl]
    obtain ⟨⟨⟨hA1, hA2⟩, hA3⟩, ⟨hB1, hB2⟩, hB3⟩ := h.edge_alive x hxl hxq
    refine ⟨⟨⟨?_, ?_⟩, ?_⟩, ⟨?_, ?_⟩, ?_⟩
    · rw [c1]; exact hA1
    · rw [c4]; exact hA2
    · exact (c7 _ hA1 _).mpr ⟨x, hA3, rfl⟩
    · rw [c1]; exact hB1
    · rw [c4]; exact hB2
    · exact (c7 _ hB1 _).mpr ⟨x, hB3, rfl⟩
  · intro i hi e he
    rw [c1] at hi
    obtain ⟨x, hx, rfl⟩ := (c7 i hi e).mp he
    obtain ⟨hxl, hxq, hend⟩ := h.node_edges i hi x hx
    refine ⟨?_, ?_, ?_⟩
    · rw [c2]
      exact phiQ_lt_of_alive_lt hxq hxl
    · rw [c3]
      exact List.not_mem_nil _
    · rw [c8 x hxq hxl]
      exact hend
  · intro i hi
    rw [c1] at hi
    exact c6 i hi
  · rw [c1]; exact h.nodes_le
  · rw [c2]
    exact le_trans (phiQ_le _ _) h.edges_le

/-- Whether run or skipped, the node pass moves each alive node record (with
its incident set untouched) to its phi-index, clears the node queue, leaves
dead edge slots alone and renumbers the endpoints of alive edges by phi. -/
theorem nodePass_spec {g : AdjListGraph T} (h : WF g) :
    (nodePass g).nodes.length = phiQ g.empty_node_slots g.nodes.length ∧
    (nodePass g).edges.length = g.edges.length ∧
    (nodePass g).empty_node_slots = [] ∧
    (nodePass g).empty_edge_slots = g.empty_edge_slots ∧
    (∀ m, m ∉ g.empty_node_slots → m < g.nodes.length →
      (nodePass g).nodeAt (phiQ g.empty_node_slots m) = g.nodeAt m) ∧
    (∀ x, x < g.edges.length → x ∈ g.empty_edge_slots →
      (nodePass g).edgeAt x = g.edgeAt x) ∧
    (∀ x, x < g.edges.length → x ∉ g.empty_edge_slots →
      (nodePass g).edgeAt x =
        { weight := (g.edgeAt x).weight,
          node_a := phiQ g.empty_node_slots (g.edgeAt x).node_a,
          node_b := phiQ g.empty_node_slots (g.edgeAt x).node_b }) := by
  unfold nodePass
  by_cases hq : g.empty_node_slots.isEmpty
  · have hq' : g.empty_node_slots = [] := by
      simpa [List.isEmpty_iff] using hq
    rw [if_pos hq]
    refine ⟨?_, rfl, hq', rfl, ?_, fun x hx hxq => rfl, ?_⟩
    · rw [hq', phiQ_nil]
    · intro m hm hml
      rw [hq', phiQ_nil]
    · intro x hx hxq
      rw [hq', phiQ_nil, phiQ_nil]
  · rw [if_neg hq]
    obtain ⟨s1, s2, s3, s4, s5, s6⟩ := remove_dead_nodes_spec h
    refine ⟨?_, s2, s3, s4, ?_, s5, s6⟩
    · rw [s1, aliveNodesUpto_length]
    · intro m hm hml
      show g.remove_dead_nodes.nodes.getD _ Node.emptied = _
      rw [s1]
      exact aliveNodesUpto_getD hm hml

/-- The node pass preserves the invariants. -/
theorem wf_nodePass {g : AdjListGraph T} (h : WF g) : WF (nodePass g) := by
  obtain ⟨c1, c2, c3, c4, c5, c6, c7⟩ := nodePass_spec h
  refine ⟨?_, ?_, ?_, ?_, ?_, ?_, ?_, ?_, ?_, ?_⟩
  · rw [c3]; exact List.nodup_nil
  · rw [c4]; exact h.eq_nodup
  · intro i hi
    rw [c3] at hi
    cases hi
  · intro i hi
    rw [c4] at hi
    obtain ⟨hil, hie⟩ := h.eq_dead i hi
    refine ⟨by omega, ?_⟩
    rw [c6 i hil hi, hie]
  · intro i hi _
    rw [c1] at hi
    obtain ⟨m, hmq, hml, rfl⟩ := phiQ_surj hi
    rw [c5 m hmq hml]
    exact h.node_alive m hml hmq
  · intro i hi hiq
    rw [c2] at hi
    rw [c4] at hiq
    rw [c7 i hi hiq]
    obtain ⟨⟨⟨hA1, hA2⟩, hA3⟩, ⟨hB1, hB2⟩, hB3⟩ := h.edge_alive i hi hiq
    refine ⟨⟨⟨?_, ?_⟩, ?_⟩, ⟨?_, ?_⟩, ?_⟩
    · rw [c1]
      exact phiQ_lt_of_alive_lt hA2 hA1
    · rw [c3]
      exact List.not_mem_nil _
    · rw [c5 _ hA2 hA1]
      exact hA3
    · rw [c1]
      exact phiQ_lt_of_alive_lt hB2 hB1
    · rw [c3]
      exact List.not_mem_nil _
    · rw [c5 _ hB2 hB1]
      exact hB3
  · intro i hi e he
    rw [c1] at hi
    obtain ⟨m, hmq, hml, rfl⟩ := phiQ_surj hi
    rw [c5 m hmq hml] at he
    obtain ⟨hel, heq, hend⟩ := h.node_edges m hml e he
    refine ⟨?_, ?_, ?_⟩
    · rw [c2]; exact hel
    · rw [c4]; exact heq
    · rw [c7 e hel heq]
      rcases hend with hA | hB
      · exact Or.inl (by rw [hA])
      · exact Or.inr (by rw [hB])
  · intro i hi
    rw [c1] at hi
    obtain ⟨m, hmq, hml, rfl⟩ := phiQ_surj hi
    rw [c5 m hmq hml]
    exact h.sets_nodup m hml
  · rw [c1]
    exact le_trans (phiQ_le _ _) h.nodes_le
  · rw [c2]; exact h.edges_le

/-- remove_dead_values preserves the invariants. -/
theorem wf_remove_dead_values {g : AdjListGraph T} (h : WF g) :
    WF g.remove_dead_values := by
  rw [remove_dead_values_eq]
  exact wf_nodePass (wf_edgePass h)

/-- The composite characterization of remove_dead_values: both queues are
cleared, alive nodes move to their node-phi index keeping their payload while
their incident sets are rewritten through edge-phi, and alive edges move to
their edge-phi index keeping their weight while their endpoints are rewritten
through node-phi. -/
theorem remove_dead_values_spec {g : AdjListGraph T} (h : WF g) :
    g.remove_dead_values.empty_node_slots = [] ∧
    g.remove_dead_values.empty_edge_slots = [] ∧
    g.remove_dead_values.nodes.length = phiQ g.empty_node_slots g.nodes.length ∧
    g.remove_dead_values.edges.length = phiQ g.empty_edge_slots g.edges.length ∧
    (∀ m, m ∉ g.empty_node_slots → m < g.nodes.length →
      (g.remove_dead_values.nodeAt (phiQ g.empty_node_slots m)).value
          = (g.nodeAt m).value ∧
      ((g.remove_dead_values.nodeAt (phiQ g.empty_node_slots m)).edges).Nodup ∧
      (∀ y, y ∈ (g.remove_dead_values.nodeAt (phiQ g.empty_node_slots m)).edges
        ↔ ∃ x ∈ (g.nodeAt m).edges, y = phiQ g.empty_edge_slots x)) ∧
    (∀ x, x ∉ g.empty_edge_slots → x < g.edges.length →
      g.remove_dead_values.edgeAt (phiQ g.empty_edge_slots x) =
        { weight := (g.edgeAt x).weight,
          node_a := phiQ g.empty_node_slots (g.edgeAt x).node_a,
          node_b := phiQ g.empty_node_slots (g.edgeAt x).node_b }) := by
  obtain ⟨e1, e2, e3, e4, e5, e6, e7, e8⟩ := edgePass_spec h
  have hwf1 : WF (edgePass g) := wf_edgePass h
  obtain ⟨n1, n2, n3, n4, n5, n6, n7⟩ := nodePass_spec hwf1
  rw [remove_dead_values_eq]
  refine ⟨n3, by rw [n4, e3], ?_, ?_, ?_, ?_⟩
  · rw [n1, e4, e1]
  · rw [n2, e2]
  · intro m hm hml
    have hm' : m ∉ (edgePass g).empty_node_slots := by rw [e4]; exact hm
    have hml' : m < (edgePass g).nodes.length := by rw [e1]; exact hml
    rw [show phiQ g.empty_node_slots m
        = phiQ (edgePass g).empty_node_slots m from by rw [e4]]
    rw [n5 m hm' hml']
    exact ⟨e5 m hml, e6 m hml, e7 m hml⟩
  · intro x hx hxl
    have h1 : phiQ g.empty_edge_slots x < (edgePass g).edges.length := by
      rw [e2]
      exact phiQ_lt_of_alive_lt hx hxl
    have h2 : phiQ g.empty_edge_slots x ∉ (edgePass g).empty_edge_slots := by
      rw [e3]
      exact List.not_mem_nil _
    rw [n7 _ h1 h2, e8 x hx hxl, e4]

instance (g : AdjListGraph T) (i : Nat) : Decidable (g.aliveN i) :=
  decidable_of_iff (i < g.nodes.length ∧ i ∉ g.empty_node_slots) Iff.rfl

instance (g : AdjListGraph T) (i : Nat) : Decidable (g.aliveE i) :=
  decidable_of_iff (i < g.edges.length ∧ i ∉ g.empty_edge_slots) Iff.rfl

/-- The invariant bundle as a decidable conjunction, so that WF can be
checked on concrete graphs by evaluation. -/
theorem WF_iff (g : AdjListGraph T) : WF g ↔
    (g.empty_node_slots.Nodup ∧
     g.empty_edge_slots.Nodup ∧
     (∀ i ∈ g.empty_node_slots,
       i < g.nodes.length ∧ g.nodeAt i = Node.emptied) ∧
     (∀ i ∈ g.empty_edge_slots,
       i < g.edges.length ∧ g.edgeAt i = Edge.cleared) ∧
     (∀ i, i < g.nodes.length → i ∉ g.empty_node_slots →
       ((g.nodeAt i).value).isSome = true) ∧
     (∀ i, i < g.edges.length → i ∉ g.empty_edge_slots →
       (g.aliveN (g.edgeAt i).node_a ∧ i ∈ (g.nodeAt (g.edgeAt i).node_a).edges) ∧
       (g.aliveN (g.edgeAt i).node_b ∧ i ∈ (g.nodeAt (g.edgeAt i).node_b).edges)) ∧
     (∀ i, i < g.nodes.length → ∀ e ∈ (g.nodeAt i).edges,
       e < g.edges.length ∧ e ∉ g.empty_edge_slots ∧
         ((g.edgeAt e).node_a = i ∨ (g.edgeAt e).node_b = i)) ∧
     (∀ i, i < g.nodes.length → ((g.nodeAt i).edges).Nodup) ∧
     g.nodes.length ≤ sentinel ∧
     g.edges.length ≤ sentinel) := by
  constructor
  · intro h
    exact ⟨h.nq_nodup, h.eq_nodup, h.nq_dead, h.eq_dead, h.node_alive,
      h.edge_alive, h.node_edges, h.sets_nodup, h.nodes_le, h.edges_le⟩
  · rintro ⟨a, b, c, d, e, f, g', h', i, j⟩
    exact ⟨a, b, c, d, e, f, g', h', i, j⟩

instance [DecidableEq T] (g : AdjListGraph T) : Decidable (WF g) := by
  refine @decidable_of_iff _ _ ((WF_iff g).symm) ?_
  repeat' refine @instDecidableAnd _ _ ?_ ?_
  all_goals first
    | exact Nat.decidableBallLT _ _
    | exact List.decidableBAll _ _
    | infer_instance

/-- No two alive nodes hold the same payload. -/
def distinctPayloads [DecidableEq T] (g : AdjListGraph T) : Prop :=
  ∀ i, i < g.nodes.length → ∀ j, j < g.nodes.length →
    i ∉ g.empty_node_slots → j ∉ g.empty_node_slots →
    (g.nodeAt i).value = (g.nodeAt j).value → i = j

instance [DecidableEq T] (g : AdjListGraph T) :
    Decidable (g.distinctPayloads) :=
  Nat.decidableBallLT _ _

end AdjListGraph

/-- A duplicate-free list whose members are exactly the image of a
duplicate-free list under a map injective on it has the same length. -/
theorem length_eq_of_nodup_image {f : Nat → Nat} {S S2 : List Nat}
    (h1 : S2.Nodup) (h2 : S.Nodup)
    (hmem : ∀ y, y ∈ S2 ↔ ∃ x ∈ S, y = f x)
    (hinj : ∀ x1 ∈ S, ∀ x2 ∈ S, f x1 = f x2 → x1 = x2) :
    S2.length = S.length := by
  rw [← List.toFinset_card_of_nodup h1, ← List.toFinset_card_of_nodup h2]
  have himg : S2.toFinset = S.toFinset.image f := by
    ext y
    simp only [List.mem_toFinset, Finset.mem_image, hmem]
    constructor
    · rintro ⟨x, hx, rfl⟩
      exact ⟨x, hx, rfl⟩
    · rintro ⟨x, hx, rfl⟩
      exact ⟨x, hx, rfl⟩
  rw [himg, Finset.card_image_of_injOn]
  intro x1 hx1 x2 hx2
  simp only [Finset.coe_insert, List.coe_toFinset, Set.mem_setOf_eq] at hx1 hx2
  exact hinj x1 hx1 x2 hx2

/-! ## Claim C2 -/

/-- C2, amended: the claim as written quantifies over every graph, but the
section-4.6 equality relation matches nodes by payload value, so a graph
with two alive nodes carrying the same payload need not compare equal to its
own compaction (see the counterexample below).  For every graph satisfying
the section-3 invariants whose alive payloads are pairwise distinct,
remove_dead_values leaves no tombstoned slot (both free queues are empty, so
has_dead_nodes and has_dead_edges report false), the result again satisfies
the invariants (every cross-reference is consistent with the renumbered
sequences), and the result is structurally equal, under the section-4.6
relation, to the graph before compaction. -/
theorem c2_compaction_clears_and_preserves {T : Type} [DecidableEq T]
    {g : AdjListGraph T} (h : WF g) (hdist : g.distinctPayloads) :
    g.remove_dead_values.has_dead_nodes = false ∧
    g.remove_dead_values.has_dead_edges = false ∧
    WF g.remove_dead_values ∧
    graphEq g.remove_dead_values g = true := by
  obtain ⟨r1, r2, r3, r4, r5, r6⟩ := remove_dead_values_spec h
  refine ⟨?_, ?_, wf_remove_dead_values h, ?_⟩
  · simp [has_dead_nodes, r1]
  · simp [has_dead_edges, r2]
  · simp only [graphEq, List.all_eq_true]
    rintro ⟨j, nd⟩ hp
    obtain ⟨hj, hnd⟩ := List.mem_enum hp
    have hnd' : nd = g.remove_dead_values.nodeAt j := by
      rw [hnd]
      exact (List.getD_eq_getElem _ _ hj).symm
    subst hnd'
    have hne : g.remove_dead_values.is_node_empty j = false := by
      simp [is_node_empty, r1]
    simp only [hne, Bool.false_eq_true, if_false]
    rw [r3] at hj
    obtain ⟨m, hmq, hml, rfl⟩ := phiQ_surj hj
    obtain ⟨hval, hnodup, hsetmem⟩ := r5 m hmq hml
    obtain ⟨v, hv⟩ := Option.isSome_iff_exists.mp (h.node_alive m hml hmq)
    have hpx : node_value_eq
        (g.remove_dead_values.nodeAt (phiQ g.empty_node_slots m))
        (g.nodes.getD m Node.emptied) = true := by
      rw [show g.nodes.getD m Node.emptied = g.nodeAt m from rfl]
      simp [node_value_eq, hval, hv]
    have hbefore : ∀ j', j' < m → node_value_eq
        (g.remove_dead_values.nodeAt (phiQ g.empty_node_slots m))
        (g.nodes.getD j' Node.emptied) = false := by
      intro j' hj'
      have hj'l : j' < g.nodes.length := lt_trans hj' hml
      rw [show g.nodes.getD j' Node.emptied = g.nodeAt j' from rfl]
      by_cases hq : j' ∈ g.empty_node_slots
      · rw [(h.nq_dead j' hq).2]
        simp [node_value_eq, hval, hv, Node.emptied]
      · obtain ⟨w, hw⟩ := Option.isSome_iff_exists.mp (h.node_alive j' hj'l hq)
        simp only [node_value_eq, hval, hv, hw]
        apply decide_eq_false
        intro heq
        have : m = j' := hdist m hml j' hj'l hmq hq (by rw [hv, hw, heq])
        omega
    have hfind : g.find_equivalent_node_value
        (g.remove_dead_values.nodeAt (phiQ g.empty_node_slots m))
          = some (g.nodes.getD m Node.emptied) :=
      find_eq_getD_of_first Node.emptied hml hpx hbefore
    rw [hfind]
    show are_nodes_truly_equal _ g.remove_dead_values
      (g.nodes.getD m Node.emptied) g = true
    rw [show g.nodes.getD m Node.emptied = g.nodeAt m from rfl]
    have hlen : (g.remove_dead_values.nodeAt
        (phiQ g.empty_node_slots m)).edges.length
          = (g.nodeAt m).edges.length := by
      refine length_eq_of_nodup_image hnodup (h.sets_nodup m hml) hsetmem ?_
      intro x1 hx1 x2 hx2 heq
      exact phiQ_inj_alive (h.node_edges m hml x1 hx1).2.1
        (h.node_edges m hml x2 hx2).2.1 heq
    unfold are_nodes_truly_equal
    rw [if_neg (by simp [hlen])]
    rw [List.all_eq_true]
    intro eid heid
    obtain ⟨e, heS, rfl⟩ := (hsetmem eid).mp heid
    obtain ⟨hel, heq, -⟩ := h.node_edges m hml e heS
    have hedge := r6 e heq hel
    simp only [hedge]
    rw [List.any_eq_true]
    refine ⟨e, heS, ?_⟩
    rw [if_neg (fun hne => hne rfl)]
    have hA := ((h.edge_alive e hel heq).1.1 :
      g.aliveN (g.edgeAt e).node_a)
    have hB := ((h.edge_alive e hel heq).2.1 :
      g.aliveN (g.edgeAt e).node_b)
    obtain ⟨vA, hvA⟩ := Option.isSome_iff_exists.mp
      (h.node_alive _ hA.1 hA.2)
    obtain ⟨vB, hvB⟩ := Option.isSome_iff_exists.mp
      (h.node_alive _ hB.1 hB.2)
    have hAval := (r5 _ hA.2 hA.1).1
    have hBval := (r5 _ hB.2 hB.1).1
    have h1 : node_value_eq
        (g.remove_dead_values.nodeAt
          (phiQ g.empty_node_slots (g.edgeAt e).node_a))
        (g.nodeAt (g.edgeAt e).node_a) = true := by
      simp [node_value_eq, hAval, hvA]
    have h2 : node_value_eq
        (g.remove_dead_values.nodeAt
          (phiQ g.empty_node_slots (g.edgeAt e).node_b))
        (g.nodeAt (g.edgeAt e).node_b) = true := by
      simp [node_value_eq, hBval, hvB]
    simp [h1, h2]

/-- C2 counterexample to the original claim: a graph with two alive nodes
both holding payload A and a tombstoned node slot; after remove_dead_values
the compacted graph does not compare equal to the graph as it was before
compaction, because the payload-based node matching of the equality relation
pairs the edgeless copy of A with the wrong node. -/
theorem c2_duplicate_payload_counterexample :
    graphEq gDupPayload.remove_dead_values gDupPayload = false := by
  decide

/-- C2 witness: the cleanup-test graph (triangle with one node removed). -/
theorem c2_compaction_witness :
    gCleanup.remove_dead_values.has_dead_nodes = false ∧
    gCleanup.remove_dead_values.has_dead_edges = false ∧
    WF gCleanup.remove_dead_values ∧
    graphEq gCleanup.remove_dead_values gCleanup = true :=
  c2_compaction_clears_and_preserves (by decide) (by decide)

/-! ## Claim C7 -/

/-- Graphs reachable from the empty graph by ANY sequence of the six API
calls of the claim, with the arguments unconstrained.  A failed connect
leaves the graph unchanged, as in the source (the error is returned before
any mutation). -/
inductive ReachableAny {T : Type} : AdjListGraph T → Prop where
  | empty : ReachableAny AdjListGraph.empty
  | add (g : AdjListGraph T) (v : T) :
      ReachableAny g → ReachableAny (g.add_node v).2
  | connectW (g : AdjListGraph T) (a b w : Nat) : ReachableAny g →
      ReachableAny (match g.connect_nodes_with_weight a b w with
        | .ok p => p.2
        | .error _ => g)
  | connect (g : AdjListGraph T) (a b : Nat) : ReachableAny g →
      ReachableAny (match g.connect_nodes a b with
        | .ok p => p.2
        | .error _ => g)
  | removeEdge (g : AdjListGraph T) (e : Nat) :
      ReachableAny g → ReachableAny (g.remove_edge e)
  | removeNode (g : AdjListGraph T) (n : Nat) :
      ReachableAny g → ReachableAny (g.remove_node n).2
  | rdv (g : AdjListGraph T) :
      ReachableAny g → ReachableAny g.remove_dead_values

/-- Graphs reachable by call sequences that respect the API's implicit
preconditions: nodes are added while the sequence is below the sentinel id,
connect is called on alive nodes with edge capacity left, and removals name
an alive slot. -/
inductive ReachableValid {T : Type} : AdjListGraph T → Prop where
  | empty : ReachableValid AdjListGraph.empty
  | add (g : AdjListGraph T) (v : T) : ReachableValid g →
      g.nodes.length < sentinel → ReachableValid (g.add_node v).2
  | connectW (g : AdjListGraph T) (a b w : Nat) : ReachableValid g →
      g.aliveN a → g.aliveN b → g.edges.length < sentinel →
      ReachableValid (match g.connect_nodes_with_weight a b w with
        | .ok p => p.2
        | .error _ => g)
  | connect (g : AdjListGraph T) (a b : Nat) : ReachableValid g →
      g.aliveN a → g.aliveN b → g.edges.length < sentinel →
      ReachableValid (match g.connect_nodes a b with
        | .ok p => p.2
        | .error _ => g)
  | removeEdge (g : AdjListGraph T) (e : Nat) : ReachableValid g →
      g.aliveE e → ReachableValid (g.remove_edge e)
  | removeNode (g : AdjListGraph T) (n : Nat) : ReachableValid g →
      g.aliveN n → ReachableValid (g.remove_node n).2
  | rdv (g : AdjListGraph T) :
      ReachableValid g → ReachableValid g.remove_dead_values

/-- Every validly reachable graph satisfies the invariants. -/
theorem reachableValid_wf {T : Type} {g : AdjListGraph T}
    (h : ReachableValid g) : WF g := by
  induction h with
  | empty => exact wf_empty
  | add g v _ hlen ih => exact wf_add_node ih v hlen
  | connectW g a b w _ ha hb hlen ih =>
      cases hc : g.connect_nodes_with_weight a b w with
      | ok p =>
          obtain ⟨id, g'⟩ := p
          have hg' := (connect_ok_iff.mp hc).2.2
          show WF g'
          rw [hg']
          exact wf_connectOk ih ha hb hlen
      | error e => exact ih
  | connect g a b _ ha hb hlen ih =>
      cases hc : g.connect_nodes a b with
      | ok p =>
          obtain ⟨id, g'⟩ := p
          have hg' := (connect_ok_iff.mp hc).2.2
          show WF g'
          rw [hg']
          exact wf_connectOk ih ha hb hlen
      | error e => exact ih
  | removeEdge g e _ he ih => exact wf_remove_edge ih he
  | removeNode g n _ hn ih => exact wf_remove_node ih hn
  | rdv g _ ih => exact wf_remove_dead_values ih

/-- Counting through a partition: if a predicate on the indices below n holds
exactly off a duplicate-free in-range list q, it holds at n - |q| indices. -/
theorem countP_range_eq_sub {n : Nat} {q : List Nat} (hnodup : q.Nodup)
    (hsub : ∀ i ∈ q, i < n) {p : Nat → Bool}
    (hp : ∀ i, i < n → (p i = true ↔ i ∉ q)) :
    (List.range n).countP p = n - q.length := by
  have hnotlen : ((List.range n).filter (fun i => !p i)).length = q.length := by
    refine length_eq_of_nodup_image ((List.nodup_range n).filter _) hnodup ?_
      (fun x1 _ x2 _ h => h)
    intro y
    simp only [List.mem_filter, List.mem_range]
    constructor
    · rintro ⟨hy, hpy⟩
      refine ⟨y, ?_, rfl⟩
      by_contra hny
      rw [(hp y hy).mpr hny] at hpy
      simp at hpy
    · rintro ⟨x, hx, heq⟩
      subst heq
      refine ⟨hsub y hx, ?_⟩
      cases hb : p y with
      | false => simp
      | true => exact absurd hx ((hp y (hsub y hx)).mp hb)
  have hsplit := List.length_eq_countP_add_countP p (List.range n)
  rw [List.length_range] at hsplit
  have h2 : List.countP (fun a => decide (¬ p a = true)) (List.range n)
      = q.length := by
    rw [List.countP_eq_length_filter, ← hnotlen]
    congr 1
    apply List.filter_congr
    intro x _
    cases p x <;> simp
  omega

/-- C7, amended: the claim as written allows remove_node and remove_edge on
already-dead slots, but both push the slot index onto the free queue
unconditionally, so a double removal duplicates the queue entry and breaks
the partition (see the counterexample below).  For every graph reachable
from the empty graph by add_node below the sentinel bound, connect calls on
alive nodes with edge capacity left, removals of alive slots, and
remove_dead_values: each free queue is in-range and holds each of its
indices exactly once, an index below the length is a live slot (payload
present / endpoints not cleared) exactly when it is not queued, and
number_of_nodes and number_of_edges (length minus free-queue length) equal
the counts of live slots. -/
theorem c7_valid_sequences_partition {T : Type} {g : AdjListGraph T}
    (h : ReachableValid g) :
    (∀ i ∈ g.empty_node_slots, i < g.nodes.length ∧
      List.count i g.empty_node_slots = 1) ∧
    (∀ i, i < g.nodes.length →
      (((g.nodeAt i).value).isSome = true ↔ i ∉ g.empty_node_slots)) ∧
    (∀ i ∈ g.empty_edge_slots, i < g.edges.length ∧
      List.count i g.empty_edge_slots = 1) ∧
    (∀ i, i < g.edges.length →
      (g.edgeAt i ≠ Edge.cleared ↔ i ∉ g.empty_edge_slots)) ∧
    g.number_of_nodes = (List.range g.nodes.length).countP
      (fun i => ((g.nodeAt i).value).isSome) ∧
    g.number_of_edges = (List.range g.edges.length).countP
      (fun i => decide (g.edgeAt i ≠ Edge.cleared)) := by
  have hw := reachableValid_wf h
  have hpn : ∀ i, i < g.nodes.length →
      ((((g.nodeAt i).value).isSome = true) ↔ i ∉ g.empty_node_slots) := by
    intro i hi
    constructor
    · intro hv hq
      rw [(hw.nq_dead i hq).2] at hv
      simp [Node.emptied] at hv
    · exact hw.node_alive i hi
  have hpe : ∀ i, i < g.edges.length →
      (g.edgeAt i ≠ Edge.cleared ↔ i ∉ g.empty_edge_slots) := by
    intro i hi
    constructor
    · intro hne hq
      exact hne (hw.eq_dead i hq).2
    · intro hq heq
      have hA := ((hw.edge_alive i hi hq).1.1 :
        g.aliveN (g.edgeAt i).node_a).1
      rw [heq] at hA
      simp only [Edge.cleared] at hA
      have := hw.nodes_le
      omega
  refine ⟨?_, hpn, ?_, hpe, ?_, ?_⟩
  · intro i hi
    exact ⟨(hw.nq_dead i hi).1, List.count_eq_one_of_mem hw.nq_nodup hi⟩
  · intro i hi
    exact ⟨(hw.eq_dead i hi).1, List.count_eq_one_of_mem hw.eq_nodup hi⟩
  · show g.nodes.length - g.empty_node_slots.length = _
    rw [countP_range_eq_sub hw.nq_nodup
      (fun i hi => (hw.nq_dead i hi).1) hpn]
  · show g.edges.length - g.empty_edge_slots.length = _
    rw [countP_range_eq_sub hw.eq_nodup
      (fun i hi => (hw.eq_dead i hi).1) ?_]
    intro i hi
    rw [decide_eq_true_iff]
    exact hpe i hi

/-- Nodes A removed twice: the second remove_node call runs on an already
tombstoned slot. -/
def gDoubleRemove : AdjListGraph Char :=
  removeC (removeC (addC .empty 'A') 0) 0

/-- C7 counterexample to the original claim: remove_node pushes the slot
onto the free queue unconditionally, so an arbitrary call sequence (here:
add one node, remove it twice) leaves index 0 twice in the node free queue
instead of exactly once, and the free queue is longer than the node
sequence. -/
theorem c7_double_remove_counterexample :
    ReachableAny gDoubleRemove ∧
    gDoubleRemove.empty_node_slots = [0, 0] ∧
    List.count 0 gDoubleRemove.empty_node_slots = 2 ∧
    gDoubleRemove.nodes.length = 1 := by
  refine ⟨?_, by decide, by decide, by decide⟩
  exact ReachableAny.removeNode _ 0 (ReachableAny.removeNode _ 0
    (ReachableAny.add _ 'A' ReachableAny.empty))

/-- C7 witness: the graph built by adding A and B, connecting them with
weight 5, then removing the edge. -/
theorem c7_partition_witness :
    (∀ i ∈ gDeadEdge.empty_node_slots, i < gDeadEdge.nodes.length ∧
      List.count i gDeadEdge.empty_node_slots = 1) ∧
    (∀ i, i < gDeadEdge.nodes.length →
      (((gDeadEdge.nodeAt i).value).isSome = true ↔
        i ∉ gDeadEdge.empty_node_slots)) ∧
    (∀ i ∈ gDeadEdge.empty_edge_slots, i < gDeadEdge.edges.length ∧
      List.count i gDeadEdge.empty_edge_slots = 1) ∧
    (∀ i, i < gDeadEdge.edges.length →
      (gDeadEdge.edgeAt i ≠ Edge.cleared ↔
        i ∉ gDeadEdge.empty_edge_slots)) ∧
    gDeadEdge.number_of_nodes = (List.range gDeadEdge.nodes.length).countP
      (fun i => ((gDeadEdge.nodeAt i).value).isSome) ∧
    gDeadEdge.number_of_edges = (List.range gDeadEdge.edges.length).countP
      (fun i => decide (gDeadEdge.edgeAt i ≠ Edge.cleared)) :=
  c7_valid_sequences_partition
    (ReachableValid.removeEdge _ 0
      (ReachableValid.connectW _ 0 1 5
        (ReachableValid.add _ 'B'
          (ReachableValid.add _ 'A' ReachableValid.empty (by decide))
          (by decide))
        (by decide) (by decide) (by decide))
      (by decide))

/-! ## Claim C3, amended part -/

/-- C3, amended: on alive nodes of an invariant-respecting graph,
connect_nodes_with_weight(a, b, w) fails if and only if some live edge has a
as one endpoint and b as one endpoint — for a ≠ b this is exactly "a live
edge links a and b in either direction", but for a == b it is "a has ANY
incident edge", not only a self-loop (see the self-connect counterexample):
the scan tests only whether an incident edge of a touches b.  The error
carries the id of the first such edge in a's incident set.  On success the
allocated edge has weight w and endpoints (a, b), its id is inserted into
both endpoints' incident sets (a single insertion when a == b), every other
node is untouched, and a subsequent connect_nodes(a, b) fails with
AlreadyConnected carrying the first call's edge id. -/
theorem c3_connect_error_characterization {T : Type} {g : AdjListGraph T}
    {a b w : Nat} (h : WF g) (ha : g.aliveN a) (hb : g.aliveN b) :
    ((∃ err, g.connect_nodes_with_weight a b w = .error err) ↔
      (∃ e, g.aliveE e ∧
        ((g.edgeAt e).node_a = a ∨ (g.edgeAt e).node_b = a) ∧
        ((g.edgeAt e).node_a = b ∨ (g.edgeAt e).node_b = b))) ∧
    (∀ err, g.connect_nodes_with_weight a b w = .error err →
      ∃ eid, err = .NodesAlreadyConnected eid ∧
        eid ∈ (g.nodeAt a).edges ∧
        ((g.edgeAt eid).node_a = b ∨ (g.edgeAt eid).node_b = b)) ∧
    (∀ id g', g.connect_nodes_with_weight a b w = .ok (id, g') →
      g'.edgeAt id = Edge.new w a b ∧
      (g'.nodeAt a).edges = insertSet (g.nodeAt a).edges id ∧
      (a ≠ b → (g'.nodeAt b).edges = insertSet (g.nodeAt b).edges id) ∧
      (∀ m, m ≠ a → m ≠ b → g'.nodeAt m = g.nodeAt m) ∧
      g'.connect_nodes a b = .error (.NodesAlreadyConnected id)) := by
  have hkey : (∃ eid ∈ (g.nodeAt a).edges, g.conflictPred b eid = true) ↔
      (∃ e, g.aliveE e ∧
        ((g.edgeAt e).node_a = a ∨ (g.edgeAt e).node_b = a) ∧
        ((g.edgeAt e).node_a = b ∨ (g.edgeAt e).node_b = b)) := by
    constructor
    · rintro ⟨eid, hmem, hP⟩
      obtain ⟨hel, heq, hend⟩ := h.node_edges a ha.1 eid hmem
      refine ⟨eid, ⟨hel, heq⟩, hend, ?_⟩
      simpa [conflictPred] using hP
    · rintro ⟨e, ⟨hel, heq⟩, hea, heb⟩
      have hml := h.edge_alive e hel heq
      refine ⟨e, ?_, by simp [conflictPred, heb]⟩
      rcases hea with hh | hh
      · have := hml.1.2
        rwa [hh] at this
      · have := hml.2.2
        rwa [hh] at this
  refine ⟨?_, ?_, ?_⟩
  · constructor
    · rintro ⟨err, herr⟩
      obtain ⟨eid, hfind, -⟩ := connect_error_iff.mp herr
      exact hkey.mp ⟨eid, List.mem_of_find?_eq_some hfind,
        List.find?_some hfind⟩
    · intro hex
      obtain ⟨e0, he0S, hP0⟩ := hkey.mpr hex
      have hsome : (((g.nodeAt a).edges.find? (g.conflictPred b)).isSome)
          = true := List.find?_isSome.mpr ⟨e0, he0S, hP0⟩
      obtain ⟨eid, hfind⟩ := Option.isSome_iff_exists.mp hsome
      exact ⟨.NodesAlreadyConnected eid,
        connect_error_iff.mpr ⟨eid, hfind, rfl⟩⟩
  · intro err herr
    obtain ⟨eid, hfind, herr'⟩ := connect_error_iff.mp herr
    refine ⟨eid, herr', List.mem_of_find?_eq_some hfind, ?_⟩
    simpa [conflictPred] using List.find?_some hfind
  · intro id g' hok
    obtain ⟨hfnone, hid, hg'⟩ := connect_ok_iff.mp hok
    subst hid
    subst hg'
    have hq : ∀ i ∈ g.empty_edge_slots, i < g.edges.length :=
      fun i hi => (h.eq_dead i hi).1
    have hfresh : g.allocEdgeId ∉ (g.nodeAt a).edges := alloc_fresh h a ha.1
    have hSa : ((g.connectOkGraph a b w).nodeAt a).edges =
        insertSet (g.nodeAt a).edges g.allocEdgeId :=
      connectOk_nodeAt_fst g a b w ha.1
    refine ⟨connectOk_edgeAt_alloc g a b w hq, hSa,
      fun hab => connectOk_nodeAt_snd g a b w hb.1 hab,
      fun m hma hmb => connectOk_nodeAt_ne g a b w m hma hmb, ?_⟩
    have hins : insertSet (g.nodeAt a).edges g.allocEdgeId =
        (g.nodeAt a).edges ++ [g.allocEdgeId] := by
      unfold insertSet
      rw [if_neg hfresh]
    apply connect_error_iff.mpr
    refine ⟨g.allocEdgeId, ?_, rfl⟩
    rw [hSa, hins]
    have hx : (g.nodeAt a).edges.length <
        ((g.nodeAt a).edges ++ [g.allocEdgeId]).length := by
      simp
    have hgetx : ((g.nodeAt a).edges ++ [g.allocEdgeId]).getD
        (g.nodeAt a).edges.length 0 = g.allocEdgeId := getD_append_len _ _
    refine (find_eq_getD_of_first 0 hx ?_ ?_).trans (by rw [hgetx])
    · rw [hgetx]
      have := connectOk_edgeAt_alloc g a b w hq
      simp [conflictPred, this, Edge.new]
    · intro j hj
      rw [getD_append_lt _ hj]
      have hjmem : (g.nodeAt a).edges.getD j 0 ∈ (g.nodeAt a).edges := by
        rw [List.getD_eq_getElem _ _ hj]
        exact List.getElem_mem hj
      have hne : (g.nodeAt a).edges.getD j 0 ≠ g.allocEdgeId := by
        intro hh
        rw [hh] at hjmem
        exact hfresh hjmem
      have hcold : g.conflictPred b ((g.nodeAt a).edges.getD j 0) = false := by
        have := List.find?_eq_none.mp hfnone _ hjmem
        cases hcc : g.conflictPred b ((g.nodeAt a).edges.getD j 0) with
        | false => rfl
        | true => exact absurd hcc this
      unfold conflictPred at hcold ⊢
      rw [connectOk_edgeAt_ne g a b w _ hne]
      exact hcold

/-- C3 witness: the A-B graph with its single 0-1 edge, connecting 0 and 1
again (the scan finds the existing edge and errors with its id). -/
theorem c3_connect_witness :
    ((∃ err, gABw1.connect_nodes_with_weight 0 1 7 = .error err) ↔
      (∃ e, gABw1.aliveE e ∧
        ((gABw1.edgeAt e).node_a = 0 ∨ (gABw1.edgeAt e).node_b = 0) ∧
        ((gABw1.edgeAt e).node_a = 1 ∨ (gABw1.edgeAt e).node_b = 1))) ∧
    (∀ err, gABw1.connect_nodes_with_weight 0 1 7 = .error err →
      ∃ eid, err = .NodesAlreadyConnected eid ∧
        eid ∈ (gABw1.nodeAt 0).edges ∧
        ((gABw1.edgeAt eid).node_a = 1 ∨ (gABw1.edgeAt eid).node_b = 1)) ∧
    (∀ id g', gABw1.connect_nodes_with_weight 0 1 7 = .ok (id, g') →
      g'.edgeAt id = Edge.new 7 0 1 ∧
      (g'.nodeAt 0).edges = insertSet (gABw1.nodeAt 0).edges id ∧
      ((0 : Nat) ≠ 1 → (g'.nodeAt 1).edges = insertSet (gABw1.nodeAt 1).edges id) ∧
      (∀ m, m ≠ 0 → m ≠ 1 → g'.nodeAt m = gABw1.nodeAt m) ∧
      g'.connect_nodes 0 1 = .error (.NodesAlreadyConnected id)) :=
  c3_connect_error_characterization (by decide) (by decide) (by decide)

/-! ## Claim C5, amended part -/

/-- add_node never decreases the alive-node count. -/
theorem number_of_nodes_add_ge {T : Type} (g : AdjListGraph T) (v : T) :
    g.number_of_nodes ≤ (g.add_node v).2.number_of_nodes := by
  unfold AdjListGraph.add_node AdjListGraph.number_of_nodes
  cases hq : g.empty_node_slots with
  | nil => simp
  | cons n rest =>
      simp only [List.length_set, List.length_cons]
      omega

/-- target_node_or_copy never decreases the alive-node count of the target. -/
theorem number_of_nodes_tnoc_ge {T : Type} [Inhabited T]
    (src target : AdjListGraph T) (node : Nat) (map : List (Nat × Nat)) :
    target.number_of_nodes ≤
      (target_node_or_copy src target node map).2.2.number_of_nodes := by
  unfold target_node_or_copy
  cases lookupId map node with
  | some u =>
      show target.number_of_nodes ≤ target.number_of_nodes
      exact Nat.le_refl _
  | none => exact number_of_nodes_add_ge _ _

/-- A successful connect preserves the alive-node count. -/
theorem number_of_nodes_connectOk {T : Type} (g : AdjListGraph T)
    (a b w : Nat) :
    (g.connectOkGraph a b w).number_of_nodes = g.number_of_nodes := by
  unfold AdjListGraph.number_of_nodes
  rw [connectOk_nodes_length, connectOk_queueN]

/-- A successful copy_edge_and_referenced_nodes never decreases the
alive-node count. -/
theorem number_of_nodes_cern_ge {T : Type} [Inhabited T]
    {src target : AdjListGraph T} {edge : Nat} {map : List (Nat × Nat)}
    {p : EdgeCopyResult × AdjListGraph T}
    (hc : copy_edge_and_referenced_nodes src target edge map = .ok p) :
    target.number_of_nodes ≤ p.2.number_of_nodes := by
  have hstep : copy_edge_and_referenced_nodes src target edge map =
      (match (target_node_or_copy src (target_node_or_copy src target
            (src.edgeAt edge).node_a map).2.2 (src.edgeAt edge).node_b
            map).2.2.connect_nodes_with_weight
          (target_node_or_copy src target (src.edgeAt edge).node_a map).1
          (target_node_or_copy src (target_node_or_copy src target
            (src.edgeAt edge).node_a map).2.2 (src.edgeAt edge).node_b map).1
          (src.edgeAt edge).weight with
        | .error err => .error err
        | .ok (eid, t) =>
            .ok ({ new_edge_id := eid,
                   node_a := if (target_node_or_copy src target
                       (src.edgeAt edge).node_a map).2.1
                     then some ((src.edgeAt edge).node_a,
                       (target_node_or_copy src target
                         (src.edgeAt edge).node_a map).1)
                     else none,
                   node_b := if (target_node_or_copy src
                       (target_node_or_copy src target
                         (src.edgeAt edge).node_a map).2.2
                       (src.edgeAt edge).node_b map).2.1
                     then some ((src.edgeAt edge).node_b,
                       (target_node_or_copy src
                         (target_node_or_copy src target
                           (src.edgeAt edge).node_a map).2.2
                         (src.edgeAt edge).node_b map).1)
                     else none },
                 t)) := rfl
  rw [hstep] at hc
  have h1 := number_of_nodes_tnoc_ge src target (src.edgeAt edge).node_a map
  have h2 := number_of_nodes_tnoc_ge src
    (target_node_or_copy src target (src.edgeAt edge).node_a map).2.2
    (src.edgeAt edge).node_b map
  cases hcc : (target_node_or_copy src (target_node_or_copy src target
        (src.edgeAt edge).node_a map).2.2 (src.edgeAt edge).node_b
        map).2.2.connect_nodes_with_weight
      (target_node_or_copy src target (src.edgeAt edge).node_a map).1
      (target_node_or_copy src (target_node_or_copy src target
        (src.edgeAt edge).node_a map).2.2 (src.edgeAt edge).node_b map).1
      (src.edgeAt edge).weight with
  | error e =>
      rw [hcc] at hc
      simp at hc
  | ok q =>
      rw [hcc] at hc
      obtain ⟨eid, t⟩ := q
      simp only [Except.ok.injEq] at hc
      have hg' := (connect_ok_iff.mp hcc).2.2
      rw [← hc]
      show target.number_of_nodes ≤ t.number_of_nodes
      rw [hg', number_of_nodes_connectOk]
      omega

/-- copy_edge_and_nodes never decreases the alive-node count. -/
theorem number_of_nodes_cen_ge {T : Type} [Inhabited T]
    (src target : AdjListGraph T) (edge : Nat) (map : List (Nat × Nat)) :
    target.number_of_nodes ≤
      (copy_edge_and_nodes src target edge map).1.number_of_nodes := by
  have hgraph : (copy_edge_and_nodes src target edge map).1 =
      (match copy_edge_and_referenced_nodes src target edge map with
        | .error _ => target
        | .ok p => p.2) := by
    unfold copy_edge_and_nodes
    cases copy_edge_and_referenced_nodes src target edge map with
    | error e => rfl
    | ok p => rfl
  rw [hgraph]
  cases hc : copy_edge_and_referenced_nodes src target edge map with
  | error e =>
      show target.number_of_nodes ≤ target.number_of_nodes
      exact Nat.le_refl _
  | ok p => exact number_of_nodes_cern_ge hc

/-- maybe_copy_edge never decreases the alive-node count. -/
theorem number_of_nodes_mco_ge {T : Type} [Inhabited T]
    (src mst : AdjListGraph T) (og_index : Nat) (map : List (Nat × Nat))
    (edge : Edge) :
    mst.number_of_nodes ≤
      (maybe_copy_edge src mst og_index map edge).1.number_of_nodes := by
  unfold maybe_copy_edge
  by_cases h1 : mst.is_empty = true
  · simpa [h1] using number_of_nodes_cen_ge src mst og_index map
  · rw [if_neg h1]
    by_cases h2 : ((lookupId map edge.node_a).isNone
        || (lookupId map edge.node_b).isNone) = true
    · simpa [h2] using number_of_nodes_cen_ge src mst og_index map
    · rw [if_neg h2]
      by_cases h3 : mst.would_adding_edge_cause_cycle
          (lookupId map edge.node_a).get! (lookupId map edge.node_b).get! = true
      · simp [h3]
      · simpa [h3] using number_of_nodes_cen_ge src mst og_index map

/-- The kruskal fold never decreases the alive-node count. -/
theorem number_of_nodes_kfold_ge {T : Type} [Inhabited T]
    (src : AdjListGraph T) (l : List (Nat × Edge))
    (st : AdjListGraph T × List (Nat × Nat)) :
    st.1.number_of_nodes ≤
      (l.foldl (fun (st : AdjListGraph T × List (Nat × Nat)) p =>
        let r := maybe_copy_edge src st.1 p.1 st.2 p.2
        (r.1, r.2.1)) st).1.number_of_nodes := by
  induction l generalizing st with
  | nil =>
      show st.1.number_of_nodes ≤ st.1.number_of_nodes
      exact Nat.le_refl _
  | cons x xs ih =>
      rw [List.foldl_cons]
      exact le_trans (number_of_nodes_mco_ge src st.1 x.1 st.2 x.2)
        (ih ((maybe_copy_edge src st.1 x.1 st.2 x.2).1,
          (maybe_copy_edge src st.1 x.1 st.2 x.2).2.1))

/-- The bootstrap step on the empty output graph copies both endpoints and
connects them: two alive nodes. -/
theorem maybe_copy_edge_empty {T : Type} [Inhabited T]
    (src : AdjListGraph T) (og_index : Nat) (e : Edge) :
    (maybe_copy_edge src AdjListGraph.empty og_index [] e).1.number_of_nodes
      = 2 := rfl

/-- C5, amended: the claim ties the None result to the graph having zero
alive nodes, but the fold runs over the edge sequence and the output is
empty exactly when that sequence contributed nothing: a graph with alive
nodes and no edges still returns None (see the single-node counterexample).
For an invariant-respecting source with no tombstoned edge slots (so that
the sorted sweep of claim C6 never touches a cleared slot),
kruskal_find_mst returns None if and only if the source has no edges: with
at least one edge the first sweep step unconditionally copies both endpoint
nodes into the empty output, and no later step removes a node. -/
theorem c5_kruskal_none_iff_no_edges {T : Type} [Inhabited T]
    {g : AdjListGraph T} (h : WF g) (hq : g.empty_edge_slots = []) :
    kruskal_find_mst g = none ↔ g.edges = [] := by
  have hkr : kruskal_find_mst g =
      (if ((g.get_edges_sorted_by_weight.insertionSort
        (fun p q => p.2.weight ≤ q.2.weight)).foldl
          (fun (st : AdjListGraph T × List (Nat × Nat)) p =>
            let r := maybe_copy_edge g st.1 p.1 st.2 p.2
            (r.1, r.2.1)) (AdjListGraph.empty, [])).1.number_of_nodes == 0
        then none
        else some ((g.get_edges_sorted_by_weight.insertionSort
          (fun p q => p.2.weight ≤ q.2.weight)).foldl
            (fun (st : AdjListGraph T × List (Nat × Nat)) p =>
              let r := maybe_copy_edge g st.1 p.1 st.2 p.2
              (r.1, r.2.1)) (AdjListGraph.empty, [])).1) := rfl
  constructor
  · intro hnone
    by_contra hne
    have hlen : (g.get_edges_sorted_by_weight.insertionSort
        (fun p q => p.2.weight ≤ q.2.weight)).length = g.edges.length := by
      rw [List.length_insertionSort]
      unfold AdjListGraph.get_edges_sorted_by_weight
      rw [List.length_insertionSort]
      simp
    have hnil : (g.get_edges_sorted_by_weight.insertionSort
        (fun p q => p.2.weight ≤ q.2.weight)) ≠ [] := by
      intro hh
      rw [hh] at hlen
      exact hne (List.eq_nil_of_length_eq_zero hlen.symm)
    obtain ⟨x, xs, hcons⟩ := List.exists_cons_of_ne_nil hnil
    have hge : 2 ≤ ((g.get_edges_sorted_by_weight.insertionSort
        (fun p q => p.2.weight ≤ q.2.weight)).foldl
          (fun (st : AdjListGraph T × List (Nat × Nat)) p =>
            let r := maybe_copy_edge g st.1 p.1 st.2 p.2
            (r.1, r.2.1)) (AdjListGraph.empty, [])).1.number_of_nodes := by
      rw [hcons, List.foldl_cons]
      refine le_trans ?_ (number_of_nodes_kfold_ge g xs _)
      show 2 ≤ (maybe_copy_edge g AdjListGraph.empty x.1 [] x.2).1.number_of_nodes
      rw [maybe_copy_edge_empty]
    rw [hkr] at hnone
    cases hbeq : (((g.get_edges_sorted_by_weight.insertionSort
        (fun p q => p.2.weight ≤ q.2.weight)).foldl
          (fun (st : AdjListGraph T × List (Nat × Nat)) p =>
            let r := maybe_copy_edge g st.1 p.1 st.2 p.2
            (r.1, r.2.1)) (AdjListGraph.empty, [])).1.number_of_nodes == 0) with
    | false =>
        rw [hbeq] at hnone
        simp at hnone
    | true =>
        rw [beq_iff_eq] at hbeq
        omega
  · intro h0
    have h1 : g.get_edges_sorted_by_weight = [] := by
      unfold AdjListGraph.get_edges_sorted_by_weight
      rw [h0]
      rfl
    unfold kruskal_find_mst
    rw [h1]
    rfl

/-- C5 witness: the A-B graph has an edge, so kruskal returns Some; and the
returned tree would vanish only with an empty edge list. -/
theorem c5_kruskal_witness :
    (kruskal_find_mst gABw1 = none ↔ gABw1.edges = []) ∧
      (kruskal_find_mst gABw1).isSome = true :=
  ⟨c5_kruskal_none_iff_no_edges (by decide) (by decide), by decide⟩

end TuxGraph
